import Mathlib

/-!
# OGL: LDU to distributed-matrix conversion

A shallow embedding of the host-side matrix wrapper (`src/HostMatrix/HostMatrix.H`)
and of the partition model (`src/DevicePersistent/Partition/Partition.H`).

Conventions.

* `label` (OpenFOAM's signed index type) and `int` are embedded as `Int`; sizes of
  in-memory arrays are far below the wrap-around of the machine type, so no
  wrap-around is modelled.
* `scalar` values are embedded as `Int`: the properties below only move and add
  coefficients, they never depend on rounding.
* A collective over the process group is embedded as a function of the list of
  every rank's contribution, indexed by rank.
-/

namespace OGL

/-! ## Host matrix wrapper: data model -/

/-- Modelled from the spec: `PersistentArray<T>` (DevicePersistent/Array/Array.H) is
not under src/. The record keeps what its call sites pass and read: the registry
name, the element storage (allocated with `size` elements), the "needs update"
flag and the "initialise on device" flag. -/
structure PersistentArray where
  name : String
  data : List Int
  update : Bool
  init_on_device : Bool
deriving DecidableEq, Repr

/-- Modelled from the spec: construction of a `PersistentArray` that is not yet in the
registry allocates `size` elements. -/
def PersistentArray.create (name : String) (size : Int) (update init_on_device : Bool) :
    PersistentArray :=
  { name := name, data := List.replicate size.toNat 0, update := update,
    init_on_device := init_on_device }

/-- Number of elements held by the array. -/
def PersistentArray.get_size (a : PersistentArray) : Int := (a.data.length : Int)

/-- The three index arrays of one sparsity pattern (HostMatrix.H, lines 42-85). -/
structure PersistentSparsityPattern where
  col_idxs_ : PersistentArray
  row_idxs_ : PersistentArray
  ldu_mapping_ : PersistentArray
deriving DecidableEq, Repr

/-- Constructor of `PersistentSparsityPattern`: all three arrays get the same `size`
and are neither flagged for update nor initialised on the device. -/
def PersistentSparsityPattern.create (fieldName : String) (size : Int) :
    PersistentSparsityPattern :=
  { col_idxs_ := PersistentArray.create (fieldName ++ "_cols") size false false,
    row_idxs_ := PersistentArray.create (fieldName ++ "_rows") size false false,
    ldu_mapping_ := PersistentArray.create (fieldName ++ "_ldu_map") size false false }

/-- OpenFOAM `lduMatrix` as the wrapper reads it: the diagonal, the lower and upper
addressing (`lowerAddr[k] < upperAddr[k]` are the two cells of face `k`) and the
lower and upper coefficients. -/
structure lduMatrix where
  diag : List Int
  lowerAddr : List Int
  upperAddr : List Int
  lower : List Int
  upper : List Int
deriving DecidableEq, Repr

/-- One entry of the interface list as the wrapper reads it: whether it is a
`processorLduInterface`, the rank on the other side, the local cells touching the
interface (`faceCells`) and, face by face, the local cell ids on the other side. -/
structure lduInterface where
  isProcessor : Bool
  neighbProcNo : Nat
  faceCells : List Int
  nbrCells : List Int
deriving DecidableEq, Repr

/-- Modelled from the spec: `gkoGlobalIndex` (DevicePersistent/IOGlobalIndex) is not
under src/. It holds, for every rank, the exclusive prefix sum of the ranks' row
counts. -/
structure gkoGlobalIndex where
  counts : List Nat
deriving DecidableEq, Repr

/-- Row offset of rank `proc`: the number of rows owned by lower ranks. -/
def gkoGlobalIndex.offset (gi : gkoGlobalIndex) (proc : Nat) : Int :=
  (((gi.counts.take proc).sum : Nat) : Int)

/-- Total number of rows over all ranks. -/
def gkoGlobalIndex.size (gi : gkoGlobalIndex) : Int := ((gi.counts.sum : Nat) : Int)

/-- Global row id of local row `i` of rank `proc`. -/
def gkoGlobalIndex.toGlobal (gi : gkoGlobalIndex) (proc : Nat) (i : Int) : Int :=
  gi.offset proc + i

/-- Modelled from the spec: `count_interface_nnz` is declared in HostMatrix.H and
defined outside src/. Per its header comment it iterates all interfaces and counts
their elements, only on processor interfaces (`proc_interfaces = true`) or only on the
others (`false`). -/
def count_interface_nnz (interfaces : List lduInterface) (proc_interfaces : Bool) : Int :=
  ((interfaces.filter (fun i => i.isProcessor == proc_interfaces)).map
    (fun i => (i.faceCells.length : Int))).sum

/-- The members of `HostMatrixWrapper` that the sparsity builder uses. `matrix_` is the
matrix held by the base class `MatrixType::solver`. -/
structure HostMatrixWrapper where
  matrix_ : lduMatrix
  scaling_ : Int
  nrows_ : Int
  local_interface_nnz_ : Int
  upper_nnz_ : Int
  non_diag_nnz_ : Int
  local_matrix_nnz_ : Int
  local_matrix_w_interfaces_nnz_ : Int
  global_row_index_ : gkoGlobalIndex
  local_sparsity_ : PersistentSparsityPattern
  local_coeffs_ : PersistentArray
  non_local_matrix_nnz_ : Int
  non_local_sparsity_ : PersistentSparsityPattern
  non_local_coeffs_ : PersistentArray
deriving DecidableEq, Repr

/-- Member initialiser list of the segregated `HostMatrixWrapper` constructor
(HostMatrix.H, lines 170-212), on a registry that holds none of the arrays yet.
`global_row_index` is the result of the collective that `gkoGlobalIndex` runs. -/
def HostMatrixWrapper.init_members (matrix : lduMatrix) (interfaces : List lduInterface)
    (scaling : Int) (global_row_index : gkoGlobalIndex) (fieldName : String) :
    HostMatrixWrapper :=
  let nrows_ : Int := (matrix.diag.length : Int)
  let local_interface_nnz_ := count_interface_nnz interfaces false
  let upper_nnz_ : Int := (matrix.upperAddr.length : Int)
  let non_diag_nnz_ := 2 * upper_nnz_
  let local_matrix_nnz_ := nrows_ + 2 * upper_nnz_
  let local_matrix_w_interfaces_nnz_ := local_matrix_nnz_ + local_interface_nnz_
  let non_local_matrix_nnz_ := count_interface_nnz interfaces true
  { matrix_ := matrix
    scaling_ := scaling
    nrows_ := nrows_
    local_interface_nnz_ := local_interface_nnz_
    upper_nnz_ := upper_nnz_
    non_diag_nnz_ := non_diag_nnz_
    local_matrix_nnz_ := local_matrix_nnz_
    local_matrix_w_interfaces_nnz_ := local_matrix_w_interfaces_nnz_
    global_row_index_ := global_row_index
    local_sparsity_ :=
      PersistentSparsityPattern.create (fieldName ++ "_local") local_matrix_w_interfaces_nnz_
    local_coeffs_ :=
      PersistentArray.create (fieldName ++ "_local_coeffs") local_matrix_w_interfaces_nnz_
        true false
    non_local_matrix_nnz_ := non_local_matrix_nnz_
    non_local_sparsity_ :=
      PersistentSparsityPattern.create (fieldName ++ "_non_local") non_local_matrix_nnz_
    non_local_coeffs_ :=
      PersistentArray.create (fieldName ++ "_non_local_coeffs") non_local_matrix_nnz_
        true false }

/-! ## Sparsity builder

The bodies of `collect_local_interface_indices`, `collect_non_local_col_indices`,
`init_local_sparsity_pattern`, `init_non_local_sparsity_pattern`,
`collect_interface_coeffs` and `update_local_matrix_data` are declared in
HostMatrix.H and defined outside src/; they are modelled from section 4.2. -/

/-- A sparse position together with the unsorted (consecutive LDU) position it came
from. -/
structure Entry where
  row : Int
  col : Int
  pos : Nat
deriving DecidableEq, Repr

/-- Row-major order on positions: by row, then by column. -/
def Entry.le (a b : Entry) : Prop := a.row < b.row ∨ (a.row = b.row ∧ a.col ≤ b.col)

instance Entry.decidable_le : DecidableRel Entry.le := fun a b => by
  unfold Entry.le; exact inferInstance

instance Entry.le_total : IsTotal Entry Entry.le :=
  ⟨fun a b => by unfold Entry.le; omega⟩

instance Entry.le_trans : IsTrans Entry Entry.le :=
  ⟨fun a b c => by unfold Entry.le; omega⟩

/-- The sortedness of section 8: rows never decrease, and within one row the columns
strictly increase. -/
def spec_sorted (rows cols : List Int) : Prop :=
  ∀ i, i + 1 < rows.length →
    rows.getD i 0 ≤ rows.getD (i + 1) 0 ∧
      (rows.getD i 0 = rows.getD (i + 1) 0 → cols.getD i 0 < cols.getD (i + 1) 0)

/-- Numbers the unsorted positions consecutively. -/
def number_entries (idx : List (Int × Int)) : List Entry :=
  (List.range idx.length).map (fun i => ⟨(idx.getD i (0, 0)).1, (idx.getD i (0, 0)).2, i⟩)

/-- Modelled from the spec: "triplets are stably sorted by (row, column)" (4.2 step 3);
insertion into the sorted tail in front of the first entry that is not smaller keeps
equal keys in their original order. -/
def sort_entries (l : List Entry) : List Entry := List.insertionSort Entry.le l

/-- Modelled from the spec: 4.2 step 1. The diagonal contributes one position
`(row, row)` per row; each upper/lower pair `k` contributes `(lowerAddr k, upperAddr k)`
for the upper coefficient and `(upperAddr k, lowerAddr k)` for the lower one. -/
def ldu_indices (m : lduMatrix) : List (Int × Int) :=
  (List.range m.diag.length).map (fun (i : Nat) => ((i : Int), (i : Int))) ++
  (List.range m.upperAddr.length).flatMap (fun k =>
    [(m.lowerAddr.getD k 0, m.upperAddr.getD k 0),
     (m.upperAddr.getD k 0, m.lowerAddr.getD k 0)])

/-- Modelled from the spec: the coefficients in the same consecutive order as
`ldu_indices`. -/
def ldu_coeffs (m : lduMatrix) : List Int :=
  (List.range m.diag.length).map (fun i => m.diag.getD i 0) ++
  (List.range m.upperAddr.length).flatMap (fun k => [m.upper.getD k 0, m.lower.getD k 0])

/-- Modelled from the spec: 4.2 step 2, local contributions. Every interface that is not
a processor interface contributes, face by face, (relative order, local row, neighbour
local row). The relative order continues from `ctr`. -/
def collect_local_interface_indices_from (ctr : Nat) :
    List lduInterface → List (Int × Int × Int)
  | [] => []
  | i :: rest =>
    if i.isProcessor then collect_local_interface_indices_from ctr rest
    else
      (List.range i.faceCells.length).map
          (fun f => (((ctr + f : Nat) : Int), i.faceCells.getD f 0, i.nbrCells.getD f 0)) ++
        collect_local_interface_indices_from (ctr + i.faceCells.length) rest

/-- Modelled from the spec: see `collect_local_interface_indices_from`. -/
def HostMatrixWrapper.collect_local_interface_indices (_w : HostMatrixWrapper)
    (interfaces : List lduInterface) : List (Int × Int × Int) :=
  collect_local_interface_indices_from 0 interfaces

/-- Modelled from the spec: 4.2 step 2, non-local contributions. Every processor
interface `patchi` contributes, face by face, (interface index, local row, global row
of the cell on the other side), the latter resolved with the neighbour rank's row
offset. -/
def collect_non_local_col_indices_from (gi : gkoGlobalIndex) (patchi : Nat) :
    List lduInterface → List (Int × Int × Int)
  | [] => []
  | i :: rest =>
    (if i.isProcessor then
      (List.range i.faceCells.length).map
        (fun f => ((patchi : Int), i.faceCells.getD f 0,
          gi.toGlobal i.neighbProcNo (i.nbrCells.getD f 0)))
     else []) ++ collect_non_local_col_indices_from gi (patchi + 1) rest

/-- Modelled from the spec: see `collect_non_local_col_indices_from`. -/
def HostMatrixWrapper.collect_non_local_col_indices (w : HostMatrixWrapper)
    (interfaces : List lduInterface) : List (Int × Int × Int) :=
  collect_non_local_col_indices_from w.global_row_index_ 0 interfaces

/-- Writes sorted entries into the three arrays of a sparsity pattern. -/
def PersistentSparsityPattern.fill (sp : PersistentSparsityPattern) (sorted : List Entry) :
    PersistentSparsityPattern :=
  { col_idxs_ := { sp.col_idxs_ with data := sorted.map (fun e => e.col) }
    row_idxs_ := { sp.row_idxs_ with data := sorted.map (fun e => e.row) }
    ldu_mapping_ := { sp.ldu_mapping_ with data := sorted.map (fun e => (e.pos : Int)) } }

/-- The unsorted local positions: the LDU positions followed by the local interface
positions. -/
def HostMatrixWrapper.local_indices (w : HostMatrixWrapper) (interfaces : List lduInterface) :
    List (Int × Int) :=
  ldu_indices w.matrix_ ++
    (w.collect_local_interface_indices interfaces).map (fun t => (t.2.1, t.2.2))

/-- Modelled from the spec: 4.2 step 3 for the local list; `ldu_mapping_` records for
each sorted position the unsorted position it came from. -/
def HostMatrixWrapper.init_local_sparsity_pattern (w : HostMatrixWrapper)
    (interfaces : List lduInterface) : HostMatrixWrapper :=
  { w with local_sparsity_ :=
      w.local_sparsity_.fill (sort_entries (number_entries (w.local_indices interfaces))) }

/-- Modelled from the spec: 4.2 step 3 for the non-local list. -/
def HostMatrixWrapper.init_non_local_sparsity_pattern (w : HostMatrixWrapper)
    (interfaces : List lduInterface) : HostMatrixWrapper :=
  { w with non_local_sparsity_ :=
      w.non_local_sparsity_.fill (sort_entries (number_entries
        ((w.collect_non_local_col_indices interfaces).map (fun t => (t.2.1, t.2.2))))) }

/-- Modelled from the spec: per its header comment `collect_interface_coeffs` iterates
all interfaces and collects their boundary coefficients, of the local interfaces
(`loc = true`) or of the processor interfaces (`loc = false`). -/
def collect_interface_coeffs :
    List lduInterface → List (List Int) → Bool → List Int
  | i :: rest, c :: cs, loc =>
    (if i.isProcessor != loc then (List.range i.faceCells.length).map (fun f => c.getD f 0)
     else []) ++ collect_interface_coeffs rest cs loc
  | _, _, _ => []

/-- Modelled from the spec: the value refresh reads, for each sorted position, the
coefficient at the unsorted position recorded in `ldu_mapping_`, times `scaling_`. -/
def HostMatrixWrapper.update_local_matrix_data (w : HostMatrixWrapper)
    (interfaces : List lduInterface) (interfaceBouCoeffs : List (List Int)) :
    HostMatrixWrapper :=
  let unsorted := ldu_coeffs w.matrix_ ++ collect_interface_coeffs interfaces interfaceBouCoeffs true
  { w with local_coeffs_ :=
      { w.local_coeffs_ with
        data := w.local_sparsity_.ldu_mapping_.data.map
          (fun p => w.scaling_ * unsorted.getD p.toNat 0) } }

/-- Body of the segregated constructor on a registry that holds none of the arrays yet
(HostMatrix.H, lines 221-239): both sparsity patterns are built, then the local
coefficients are filled in. The non-local coefficient values are not modelled. -/
def HostMatrixWrapper.create (matrix : lduMatrix) (interfaceBouCoeffs : List (List Int))
    (interfaces : List lduInterface) (scaling : Int) (global_row_index : gkoGlobalIndex)
    (fieldName : String) : HostMatrixWrapper :=
  (((HostMatrixWrapper.init_members matrix interfaces scaling global_row_index fieldName
    ).init_local_sparsity_pattern interfaces
    ).init_non_local_sparsity_pattern interfaces
    ).update_local_matrix_data interfaces interfaceBouCoeffs

/-- The assumption of section 4.2 on valid inputs: the LDU graph and the interfaces
never produce two contributions for the same (row, column) pair, neither in the local
nor in the non-local list. -/
def no_duplicate_pairs (m : lduMatrix) (interfaces : List lduInterface)
    (gi : gkoGlobalIndex) : Prop :=
  (ldu_indices m ++
    (collect_local_interface_indices_from 0 interfaces).map (fun t => (t.2.1, t.2.2))).Nodup ∧
  ((collect_non_local_col_indices_from gi 0 interfaces).map (fun t => (t.2.1, t.2.2))).Nodup

instance no_duplicate_pairs_decidable (m : lduMatrix) (interfaces : List lduInterface)
    (gi : gkoGlobalIndex) : Decidable (no_duplicate_pairs m interfaces gi) := by
  unfold no_duplicate_pairs; exact inferInstance

/-- The local triplet list (row, col, value) held by the wrapper. -/
def HostMatrixWrapper.local_triplets (w : HostMatrixWrapper) : List (Int × Int × Int) :=
  List.zip w.local_sparsity_.row_idxs_.data
    (List.zip w.local_sparsity_.col_idxs_.data w.local_coeffs_.data)

/-- The (row, col) pairs of the local list. -/
def HostMatrixWrapper.local_pattern (w : HostMatrixWrapper) : List (Int × Int) :=
  List.zip w.local_sparsity_.row_idxs_.data w.local_sparsity_.col_idxs_.data

/-- The (row, col) pairs of the non-local list. -/
def HostMatrixWrapper.non_local_pattern (w : HostMatrixWrapper) : List (Int × Int) :=
  List.zip w.non_local_sparsity_.row_idxs_.data w.non_local_sparsity_.col_idxs_.data

/-- The 1-D chain of four rows with three couplings. -/
def chain4 (d0 d1 d2 d3 u0 u1 u2 l0 l1 l2 : Int) : lduMatrix :=
  { diag := [d0, d1, d2, d3], lowerAddr := [0, 1, 2], upperAddr := [1, 2, 3],
    lower := [l0, l1, l2], upper := [u0, u1, u2] }

/-- The matrix that an LDU matrix denotes: entry `(i, j)` is the sum of every
coefficient stored for that position. -/
def lduMatrix.dense (m : lduMatrix) (i j : Int) : Int :=
  ((List.range m.diag.length).map (fun (r : Nat) =>
      if (r : Int) = i ∧ (r : Int) = j then m.diag.getD r 0 else 0)).sum +
  ((List.range m.upperAddr.length).map (fun (k : Nat) =>
      if m.lowerAddr.getD k 0 = i ∧ m.upperAddr.getD k 0 = j then m.upper.getD k 0 else 0)).sum +
  ((List.range m.upperAddr.length).map (fun (k : Nat) =>
      if m.upperAddr.getD k 0 = i ∧ m.lowerAddr.getD k 0 = j then m.lower.getD k 0 else 0)).sum

/-- Sum of the values of the triplets at position `(i, j)`. -/
def sum_triplets (t : List (Int × Int × Int)) (i j : Int) : Int :=
  (t.map (fun e => if e.1 = i ∧ e.2.1 = j then e.2.2 else 0)).sum


/-! ## Partition model

`gko::span`, `gko::experimental::distributed::Partition` and
`build_partition_from_local_range` belong to the Ginkgo library, `PersistentBase` to
DevicePersistent/Base/Base.H; none of them is under src/. -/

/-- Half-open row range `[begin, end)` (`gko::span`). -/
structure span where
  begin : Int
  end_ : Int
deriving DecidableEq, Repr

/-- Modelled from the spec: a partition of the global row space into consecutive
ranges, one part per range, held as the array of range bounds ("ordered array of
row-range boundaries", section 3). Part `i` owns the rows `[bounds[i], bounds[i+1])`. -/
structure Partition where
  range_bounds : List Int
deriving DecidableEq, Repr

/-- Array of range bounds. -/
def Partition.get_range_bounds (p : Partition) : List Int := p.range_bounds

/-- Number of parts: one per range. -/
def Partition.get_num_parts (p : Partition) : Nat := p.range_bounds.length - 1

/-- Number of rows of part `part`. -/
def Partition.get_part_size (p : Partition) (part : Nat) : Int :=
  p.range_bounds.getD (part + 1) 0 - p.range_bounds.getD part 0

/-- Global number of rows: the last range bound. -/
def Partition.get_size (p : Partition) : Int :=
  p.range_bounds.getD (p.range_bounds.length - 1) 0

/-- Every step of a collective succeeded on every rank. -/
def all_some {α : Type} : List (Option α) → Option (List α)
  | [] => some []
  | none :: _ => none
  | some a :: t => (all_some t).map (fun r => a :: r)

/-- Every range ends where the next one begins. -/
def contiguous : List span → Bool
  | a :: b :: t => decide (a.end_ = b.begin) && contiguous (b :: t)
  | _ => true

/-- Modelled from the spec: `build_partition_from_local_range` gathers the local range
of every rank of the communicator (here: the list indexed by rank), requires each range
to end where the next begins, and builds the partition whose bounds are the first begin
followed by every end: one part per rank ("exactly one part per owning process, with
part boundaries from that process's row offset and row count", section 4.3). -/
def build_partition_from_local_range (local_ranges : List span) : Option Partition :=
  match local_ranges with
  | [] => none
  | first :: _ =>
    if contiguous local_ranges then
      some ⟨first.begin :: local_ranges.map (fun r => r.end_)⟩
    else none

/-- State of `PartitionInitFunctor` (Partition.H, lines 41-64). -/
structure PartitionInitFunctor where
  rows_end_ : Int
  rows_start_ : Int
  ranks_per_gpu_ : Int
deriving DecidableEq, Repr

/-- Constructor of `PartitionInitFunctor`, arguments in the order of the source. -/
def PartitionInitFunctor.create (rows_start rows_end ranks_per_gpu : Int) :
    PartitionInitFunctor :=
  { rows_end_ := rows_end, rows_start_ := rows_start, ranks_per_gpu_ := ranks_per_gpu }

/-- Lines 90-101 of `PartitionInitFunctor::init`: the local range that rank `local_rank`
contributes to the device partition. `none` when the integer division has divisor 0 or
when `next_owning_rank` is not an index of the host partition's range bounds. -/
def PartitionInitFunctor.target_rows (f : PartitionInitFunctor) (host_range_bounds : List Int)
    (local_rank : Int) : Option span :=
  if f.ranks_per_gpu_ = 0 then none
  else
    let local_owning_rank := f.ranks_per_gpu_ * (Int.tdiv local_rank f.ranks_per_gpu_)
    let next_owning_rank := f.ranks_per_gpu_ + local_owning_rank
    if next_owning_rank < 0 ∨ (host_range_bounds.length : Int) ≤ next_owning_rank then none
    else
      let target_rows_end := host_range_bounds.getD next_owning_rank.toNat 0
      let target_rows_start :=
        if Int.tmod local_rank f.ranks_per_gpu_ ≠ 0 then target_rows_end else f.rows_start_
      some ⟨target_rows_start, target_rows_end⟩

/-- The function `PartitionInitFunctor::init` (Partition.H, lines 73-107) on rank
`local_rank` of the communicator whose ranks hold the functors `comm`. A rank with
`ranks_per_gpu_ = 1` returns the host partition and takes no part in the second
collective. -/
def PartitionInitFunctor.init (comm : List PartitionInitFunctor) (local_rank : Nat) :
    Option Partition :=
  match comm[local_rank]? with
  | none => none
  | some f =>
    match build_partition_from_local_range
        (comm.map (fun c => (⟨c.rows_start_, c.rows_end_⟩ : span))) with
    | none => none
    | some host_partition =>
      if f.ranks_per_gpu_ = 1 then some host_partition
      else
        match all_some ((List.range comm.length).map (fun r =>
            match comm[r]? with
            | none => none
            | some c =>
              if c.ranks_per_gpu_ = 1 then none
              else c.target_rows host_partition.get_range_bounds (r : Int))) with
        | none => none
        | some targets => build_partition_from_local_range targets

/-- State of `PersistentPartition` (Partition.H, lines 121-158). -/
structure PersistentPartition where
  ranks_per_gpu_ : Int
  offset_ : Int
  elements_ : Int
deriving DecidableEq, Repr

/-- The functor that the `PersistentPartition` constructor hands to its base class:
`PartitionInitFunctor(exec, offset, offset + elements, verbose, ranks_per_gpu)`. -/
def PersistentPartition.init_functor (p : PersistentPartition) : PartitionInitFunctor :=
  PartitionInitFunctor.create p.offset_ (p.offset_ + p.elements_) p.ranks_per_gpu_

/-- Modelled from the spec: `get_persistent_object` of `PersistentBase` on a cold cache
is the object built by the functor's `init()` (section 4.1). `comm` lists the
`PersistentPartition` of every rank. -/
def PersistentPartition.get_device_partition (comm : List PersistentPartition) (rank : Nat) :
    Option Partition :=
  PartitionInitFunctor.init (comm.map PersistentPartition.init_functor) rank

/-- The function `get_host_partition` (lines 166-175). -/
def PersistentPartition.get_host_partition (comm : List PersistentPartition) :
    Option Partition :=
  build_partition_from_local_range
    (comm.map (fun p => (⟨p.offset_, p.offset_ + p.elements_⟩ : span)))

/-- Number of elements on this rank on the host. -/
def PersistentPartition.get_local_host_size (p : PersistentPartition) : Int := p.elements_

/-- Number of elements on this rank on the device: the size of part `rank` of the device
partition. -/
def PersistentPartition.get_local_device_size (comm : List PersistentPartition) (rank : Nat) :
    Option Int :=
  (PersistentPartition.get_device_partition comm rank).map (fun P => P.get_part_size rank)

/-- Global size of the device partition. -/
def PersistentPartition.get_total_size (comm : List PersistentPartition) (rank : Nat) :
    Option Int :=
  (PersistentPartition.get_device_partition comm rank).map (fun P => P.get_size)

/-- Accelerator-sharing factor. -/
def PersistentPartition.get_ranks_per_gpu (p : PersistentPartition) : Int := p.ranks_per_gpu_

/-- Modelled from the spec: the caller creates one `PersistentPartition` per process from
the shared `ranksPerAccelerator` setting, the process's row count and its row offset,
the exclusive prefix sum of the row counts of all lower ranks (section 3, Global Row
Index). -/
def PersistentPartition.world (ranks_per_gpu : Int) (counts : List Nat) :
    List PersistentPartition :=
  (List.range counts.length).map (fun r =>
    { ranks_per_gpu_ := ranks_per_gpu
      offset_ := (gkoGlobalIndex.mk counts).offset r
      elements_ := ((counts.getD r 0 : Nat) : Int) })

/-- The processes `leader, leader + 1, ..., leader + g - 1` of the group led by
`leader`. -/
def group_members (comm : List PersistentPartition) (leader g : Nat) :
    List PersistentPartition :=
  (List.range g).filterMap (fun i => comm[leader + i]?)

/-- Row `x` lies in the host row range `[offset_, offset_ + elements_)` of process `p`. -/
def PersistentPartition.owns_row (p : PersistentPartition) (x : Int) : Prop :=
  p.offset_ ≤ x ∧ x < p.offset_ + p.elements_

/-- Row `x` lies in part `part` of the partition. -/
def Partition.part_has_row (P : Partition) (part : Nat) (x : Int) : Prop :=
  P.range_bounds.getD part 0 ≤ x ∧ x < P.range_bounds.getD (part + 1) 0

/-- The statement of section 8 for a group leader `r`: `init` computes a device row range
on rank `r`, that range is the union of the host row ranges of the `g` processes of the
group of `r`, and the device-local row count of `r` is the sum of their host-local row
counts. -/
def leader_range_is_group_union (g : Nat) (counts : List Nat) (r : Nat) : Prop :=
  ∃ H s p,
    PersistentPartition.get_host_partition (PersistentPartition.world g counts) = some H ∧
    (PersistentPartition.world g counts)[r]? = some p ∧
    p.init_functor.target_rows H.get_range_bounds (r : Int) = some s ∧
    (∀ x : Int, (s.begin ≤ x ∧ x < s.end_) ↔
      ∃ q ∈ group_members (PersistentPartition.world g counts) r g, q.owns_row x) ∧
    PersistentPartition.get_local_device_size (PersistentPartition.world g counts) r =
      some ((group_members (PersistentPartition.world g counts) r g).map
        PersistentPartition.get_local_host_size).sum

/-- The statement of section 4.3 for a process `r` that is not the first member of its
group: `init` computes a device row range on rank `r`, that range is empty and sits at
the end of the rows of the group, the device-local size of `r` is 0 and its host-local
size is its own row count. -/
def non_leader_range_empty (g : Nat) (counts : List Nat) (r : Nat) : Prop :=
  ∃ H s p,
    PersistentPartition.get_host_partition (PersistentPartition.world g counts) = some H ∧
    (PersistentPartition.world g counts)[r]? = some p ∧
    p.init_functor.target_rows H.get_range_bounds (r : Int) = some s ∧
    s.begin = s.end_ ∧
    s.end_ = (gkoGlobalIndex.mk counts).offset (g * (r / g) + g) ∧
    PersistentPartition.get_local_device_size (PersistentPartition.world g counts) r = some 0 ∧
    p.get_local_host_size = ((counts.getD r 0 : Nat) : Int)

/-- The group leaders among `N` processes: the ranks `r < N` with `r mod g = 0`. -/
def leader_ranks (g N : Nat) : List Nat := (List.range N).filter (fun r => r % g = 0)

/-- The statement of section 8 on sizes: every group leader reports a device-local size,
the device partition reports a total size, the leaders' sizes sum to the total, and the
total is the sum of every process's host-local row count. -/
def leaders_device_sizes_sum_to_total (g : Nat) (counts : List Nat) (rank : Nat) : Prop :=
  ∃ sizes total,
    all_some ((leader_ranks g counts.length).map (fun r =>
      PersistentPartition.get_local_device_size (PersistentPartition.world g counts) r)) =
      some sizes ∧
    PersistentPartition.get_total_size (PersistentPartition.world g counts) rank = some total ∧
    sizes.sum = total ∧
    total = ((PersistentPartition.world g counts).map
      PersistentPartition.get_local_host_size).sum

/-- The statement of the glossary on the device partition: it has one part per
accelerator, `N / g` parts for `N` processes. -/
def device_parts_one_per_accelerator (g : Nat) (counts : List Nat) (rank : Nat) : Prop :=
  ∃ D, PersistentPartition.get_device_partition (PersistentPartition.world g counts) rank =
      some D ∧
    D.get_num_parts = counts.length / g

/-- Consecutive boundaries strictly increase. -/
def strictly_increasing (b : List Int) : Prop :=
  ∀ i, i + 1 < b.length → b.getD i 0 < b.getD (i + 1) 0

/-- Consecutive boundaries never decrease. -/
def non_decreasing (b : List Int) : Prop :=
  ∀ i, i + 1 < b.length → b.getD i 0 ≤ b.getD (i + 1) 0

/-- The host row range of `p` lies in part `k` of `D`. -/
def host_range_in_part (D : Partition) (p : PersistentPartition) (k : Nat) : Prop :=
  k < D.get_num_parts ∧ ∀ x, p.owns_row x → D.part_has_row k x

/-- The invariant of section 3 on partitions: the boundaries of the host and of the
device partition strictly increase, and the host row range of every process lies in
exactly one part of the device partition. -/
def boundaries_strict_and_nested (g : Nat) (counts : List Nat) (rank : Nat) : Prop :=
  ∃ H D,
    PersistentPartition.get_host_partition (PersistentPartition.world g counts) = some H ∧
    PersistentPartition.get_device_partition (PersistentPartition.world g counts) rank =
      some D ∧
    strictly_increasing H.range_bounds ∧ strictly_increasing D.range_bounds ∧
    ∀ p ∈ PersistentPartition.world g counts, ∃! k, host_range_in_part D p k

/-! ## Persistent object cache and outcomes

`PersistentBase` (DevicePersistent/Base/Base.H) and `PersistentArray`
(DevicePersistent/Array/Array.H) are not under src/; their registry behaviour is
modelled from section 4.1. -/

/-- How a call ends: with a result, with OpenFOAM's `FatalError` (the message is
printed and the run aborts), or without a defined result (behaviour that the language
leaves undefined, or a library exception that nothing catches). -/
inductive Outcome (α : Type) where
  | ok : α → Outcome α
  | fatal : String → Outcome α
  | undefined : Outcome α
deriving DecidableEq, Repr

/-- Observable steps of the matrix functor: a diagnostic line (`Info << ...`, the tag
and the printed numbers), the creation of a repartitioner, and the construction of a
`PersistentArray` under a registry name. -/
inductive Event where
  | info : String → List Int → Event
  | repartitioner_create : Event
  | persistent_array : String → Event
deriving DecidableEq, Repr

/-- Modelled from the spec: the object registry as the list of stored arrays by name
(section 4.1: "registers the object under `name` in the owning scope"). -/
abbrev objectRegistry := List (String × List Int)

/-- Stored array under `name`, if any. -/
def objectRegistry.find (db : objectRegistry) (name : String) : Option (List Int) :=
  match db with
  | [] => none
  | (k, v) :: t => if k = name then some v else objectRegistry.find t name

/-- Writes `data` into the object stored under `name`, registering it when absent. -/
def objectRegistry.store (db : objectRegistry) (name : String) (data : List Int) :
    objectRegistry :=
  match db with
  | [] => [(name, data)]
  | (k, v) :: t => if k = name then (name, data) :: t else (k, v) :: objectRegistry.store t name data

/-- Modelled from the spec: first access under a name stores the object, later accesses
return the cached one (section 4.1). -/
def objectRegistry.register (db : objectRegistry) (name : String) (data : List Int) :
    objectRegistry :=
  match db.find name with
  | some _ => db
  | none => db.store name data

/-- What a function leaves behind: its outcome, the registry and the observable steps
in order. -/
structure Run (α : Type) where
  outcome : Outcome α
  db : objectRegistry
  trace : List Event

/-! ## Distributed matrix functor (CsrMatrixWrapper.H)

`gko::experimental::distributed::Matrix`, `gko::device_matrix_data` and the
`repartitioner` belong to the Ginkgo library and are not under src/. -/

/-- Modelled from the spec: a distributed matrix as the functor sees it: the inner
matrix type it was created with, whether it lives on the device executor, its global
dimension, and for the local and the non-local block the structural index arrays and
the value array that `get_values()` points to. -/
structure dist_mtx where
  matrix_format : String
  on_device : Bool
  num_rows : Int
  local_rows : List Int
  local_cols : List Int
  local_values : List Int
  non_local_rows : List Int
  non_local_cols : List Int
  non_local_values : List Int
deriving DecidableEq, Repr

/-- The seven arrays that `repartitioner::gather` returns and `update_existing` reads
back (section 3, Scatter plan). -/
structure ScatterPlan where
  local_scatter_map : List Int
  non_local_scatter_map : List Int
  sorting_idx : List Int
  send_sizes : List Int
  send_offs : List Int
  recv_sizes : List Int
  recv_offs : List Int
deriving DecidableEq, Repr

/-- The repartitioner of the library, taken as a parameter: `gather` moves a host
matrix to the device partition and returns the scatter plan, `update_existing` replays
a plan on fresh coefficients and returns the local and non-local value arrays. -/
structure repartitioner where
  gather : dist_mtx → dist_mtx × ScatterPlan
  update_existing : List Int → List Int → List Int → List Int → ScatterPlan →
    List Int × List Int

/-- Registry names of the seven scatter-plan entries, in the order of the source. -/
def scatter_plan_names : List String :=
  ["local_scatter_map", "non_local_scatter_map", "sorting_idx", "send_sizes", "send_offs",
    "recv_sizes", "recv_offs"]

/-- State of `MatrixInitFunctor` (CsrMatrixWrapper.H, lines 40-95). -/
structure MatrixInitFunctor where
  partition_ : PersistentPartition
  col_idxs_ : PersistentArray
  row_idxs_ : PersistentArray
  coeffs_ : PersistentArray
  non_local_col_idxs_ : PersistentArray
  non_local_row_idxs_ : PersistentArray
  non_local_coeffs_ : PersistentArray
  matrix_format_ : String
  regenerate_ : Bool
  verbose_ : Int
  field_name_ : String
deriving DecidableEq, Repr

/-- The function `generate_dist_mtx_with_inner_type` (lines 269-292): an empty
distributed matrix of the configured inner type on the given executor, or the fatal
error that names the format. -/
def MatrixInitFunctor.generate_dist_mtx_with_inner_type (f : MatrixInitFunctor)
    (on_device : Bool) : Outcome dist_mtx :=
  if f.matrix_format_ = "Csr" then .ok ⟨"Csr", on_device, 0, [], [], [], [], [], []⟩
  else if f.matrix_format_ = "Ell" then .ok ⟨"Ell", on_device, 0, [], [], [], [], [], []⟩
  else if f.matrix_format_ = "Coo" then .ok ⟨"Coo", on_device, 0, [], [], [], [], [], []⟩
  else .fatal ("Matrix format " ++ f.matrix_format_ ++ " not supported ")

/-- One iteration of the validation loop of `init` (lines 320-334) at index `i`; the
state is `(is_sorted_rows, is_sorted_cols, diagnostics so far)`. -/
def validation_step (rows_data cols_data : List Int) (st : Bool × Bool × List Event)
    (i : Nat) : Bool × Bool × List Event :=
  let st1 : Bool × Bool × List Event :=
    if rows_data.getD i 0 < rows_data.getD (i - 1) 0 then
      (false, st.2.1, st.2.2 ++ [Event.info "rows sorting error element"
        [(i : Int), rows_data.getD i 0, rows_data.getD (i - 1) 0]])
    else st
  if cols_data.getD i 0 < cols_data.getD (i - 1) 0 ∧
      rows_data.getD i 0 = rows_data.getD (i - 1) 0 then
    (st1.1, false, st1.2.2 ++ [Event.info "cols sorting error element"
      [(i : Int), rows_data.getD i 0, rows_data.getD (i - 1) 0, cols_data.getD i 0,
        cols_data.getD (i - 1) 0]])
  else st1

/-- The validation loop of `init` (lines 315-335): `i` runs from 1 while
`i < cols->get_num_elems()`. -/
def validation_loop (rows_data cols_data : List Int) : Bool × Bool × List Event :=
  (List.range' 1 (cols_data.length - 1)).foldl (validation_step rows_data cols_data)
    (true, true, [])

/-- The validation pass of `init` (lines 313-346), run when `debug` is set (compiled with
`DATA_VALIDATION`): the loop, the two summary lines and, on a failure, the dump of the
sparsity from element 1 on. Only the local row and column indices are read. -/
def MatrixInitFunctor.validation (f : MatrixInitFunctor) (debug : Bool) : List Event :=
  if debug then
    let r := validation_loop f.row_idxs_.data f.col_idxs_.data
    r.2.2 ++
      [Event.info "is_sorted rows" [if r.1 then 1 else 0],
       Event.info "is_sorted cols" [if r.2.1 then 1 else 0]] ++
      (if !r.2.1 || !r.1 then
        (List.range' 1 (f.col_idxs_.data.length - 1)).map (fun (i : Nat) =>
          Event.info "sparsity" [(i : Int), f.row_idxs_.data.getD i 0,
            f.col_idxs_.data.getD i 0])
       else [])
  else []

/-- Modelled from the spec: `read_distributed` fills an empty distributed matrix with the
local and the non-local triplets, in the order given (section 4.5, cold path). -/
def dist_mtx.read_distributed (A : dist_mtx) (num_rows : Int)
    (rows cols values non_local_rows non_local_cols non_local_values : List Int) : dist_mtx :=
  { A with num_rows := num_rows, local_rows := rows, local_cols := cols, local_values := values,
           non_local_rows := non_local_rows, non_local_cols := non_local_cols,
           non_local_values := non_local_values }

/-- Modelled from the spec: `move_to` hands the content of a matrix to `target`, which
keeps its own inner type and executor. -/
def dist_mtx.move_to (A target : dist_mtx) : dist_mtx :=
  { A with matrix_format := target.matrix_format, on_device := target.on_device }

/-- Modelled from the spec: `copy_from` gives `target` the content of `source`; as with
`move_to`, `target` keeps its own inner type and executor. -/
def dist_mtx.copy_from (target source : dist_mtx) : dist_mtx :=
  { source with matrix_format := target.matrix_format, on_device := target.on_device }

/-- Registers the seven scatter-plan arrays under their names (lines 384-458). -/
def ScatterPlan.register_all (plan : ScatterPlan) (db : objectRegistry) : objectRegistry :=
  ((((((db.register "local_scatter_map" plan.local_scatter_map
    ).register "non_local_scatter_map" plan.non_local_scatter_map
    ).register "sorting_idx" plan.sorting_idx
    ).register "send_sizes" plan.send_sizes
    ).register "send_offs" plan.send_offs
    ).register "recv_sizes" plan.recv_sizes
    ).register "recv_offs" plan.recv_offs

/-- The function `MatrixInitFunctor::init` (lines 294-466) on rank `rank` of the
communicator whose ranks hold the partitions `comm`. `debug` is the compile-time switch
`DATA_VALIDATION`. The log lines under `LOG_1` and the timers are left out. -/
def MatrixInitFunctor.init (f : MatrixInitFunctor) (R : repartitioner)
    (comm : List PersistentPartition) (rank : Nat) (debug : Bool) (db : objectRegistry) :
    Run dist_mtx :=
  let t0 := f.validation debug
  match PersistentPartition.get_total_size comm rank with
  | none => ⟨.undefined, db, t0⟩
  | some num_rows =>
    match f.generate_dist_mtx_with_inner_type false with
    | .fatal msg => ⟨.fatal msg, db, t0⟩
    | .undefined => ⟨.undefined, db, t0⟩
    | .ok empty_host =>
      match PersistentPartition.get_host_partition comm with
      | none => ⟨.undefined, db, t0⟩
      | some _ =>
        let dist_A := empty_host.read_distributed num_rows f.row_idxs_.data f.col_idxs_.data
          f.coeffs_.data f.non_local_row_idxs_.data f.non_local_col_idxs_.data
          f.non_local_coeffs_.data
        if f.partition_.get_ranks_per_gpu = 1 then
          match f.generate_dist_mtx_with_inner_type true with
          | .fatal msg => ⟨.fatal msg, db, t0⟩
          | .undefined => ⟨.undefined, db, t0⟩
          | .ok device_mat => ⟨.ok (dist_A.move_to device_mat), db, t0⟩
        else
          let gathered := R.gather dist_A
          let db1 := gathered.2.register_all db
          let t1 := t0 ++ [Event.repartitioner_create] ++
            scatter_plan_names.map Event.persistent_array
          match f.generate_dist_mtx_with_inner_type true with
          | .fatal msg => ⟨.fatal msg, db1, t1⟩
          | .undefined => ⟨.undefined, db1, t1⟩
          | .ok device_mat => ⟨.ok (gathered.1.move_to device_mat), db1, t1⟩

/-- Whether one of the three `if`s of `update` (lines 118-144) sets the value
pointers. -/
def MatrixInitFunctor.sets_value_ptr (f : MatrixInitFunctor) : Bool :=
  f.matrix_format_ = "Csr" ∨ f.matrix_format_ = "Ell" ∨ f.matrix_format_ = "Coo"

/-- Assignment of `src` to a view of `src.length` elements over a value pointer
(lines 237-265). Nothing is copied for an empty `src`; otherwise the pointer must have
been set (`has_ptr`) and the storage behind it must hold `src.length` elements. -/
def write_through (has_ptr : Bool) (storage src : List Int) : Outcome (List Int) :=
  if src = [] then .ok storage
  else if has_ptr = false then .undefined
  else if src.length ≤ storage.length then .ok (src ++ storage.drop src.length)
  else .undefined

/-- Reads the scatter plan back from the registry; an entry that was never stored is
constructed with size 0 (lines 148-184). -/
def ScatterPlan.lookup (db : objectRegistry) : ScatterPlan :=
  { local_scatter_map := (db.find "local_scatter_map").getD []
    non_local_scatter_map := (db.find "non_local_scatter_map").getD []
    sorting_idx := (db.find "sorting_idx").getD []
    send_sizes := (db.find "send_sizes").getD []
    send_offs := (db.find "send_offs").getD []
    recv_sizes := (db.find "recv_sizes").getD []
    recv_offs := (db.find "recv_offs").getD [] }

/-- The empty plan, registered for entries that were never stored. -/
def ScatterPlan.empty : ScatterPlan := ⟨[], [], [], [], [], [], []⟩

/-- The function `MatrixInitFunctor::update` (lines 97-267) applied to the persistent
matrix. With `regenerate_` (lines 99-104) `init` runs and the persistent matrix takes the
content of its result through `copy_from`; a run of `init` that does not return ends
`update` the same way. Otherwise the value pointers are taken from the matrix through a
cast to the configured inner type (undefined when the matrix has another inner type) and
the fresh coefficients are written through them, directly for `ranks_per_gpu = 1` and
after `update_existing` otherwise. -/
def MatrixInitFunctor.update (f : MatrixInitFunctor) (R : repartitioner)
    (comm : List PersistentPartition) (rank : Nat) (debug : Bool) (db : objectRegistry)
    (persistent_device_matrix : dist_mtx) : Run dist_mtx :=
  if f.regenerate_ then
    let reinit := f.init R comm rank debug db
    match reinit.outcome with
    | .ok r => ⟨.ok (persistent_device_matrix.copy_from r), reinit.db, reinit.trace⟩
    | .fatal msg => ⟨.fatal msg, reinit.db, reinit.trace⟩
    | .undefined => ⟨.undefined, reinit.db, reinit.trace⟩
  else if f.sets_value_ptr ∧ persistent_device_matrix.matrix_format ≠ f.matrix_format_ then
    ⟨.undefined, db, []⟩
  else if f.partition_.get_ranks_per_gpu ≠ 1 then
    let db1 := ScatterPlan.empty.register_all db
    let t1 := scatter_plan_names.map Event.persistent_array ++ [Event.repartitioner_create]
    let plan := ScatterPlan.lookup db1
    let vals := R.update_existing f.row_idxs_.data f.non_local_row_idxs_.data f.coeffs_.data
      f.non_local_coeffs_.data plan
    if vals.1.length = plan.local_scatter_map.length ∧
        vals.2.length = plan.non_local_scatter_map.length then
      match write_through f.sets_value_ptr persistent_device_matrix.local_values vals.1,
        write_through f.sets_value_ptr persistent_device_matrix.non_local_values vals.2 with
      | .ok lv, .ok nlv =>
        ⟨.ok { persistent_device_matrix with local_values := lv, non_local_values := nlv },
          db1, t1⟩
      | _, _ => ⟨.undefined, db1, t1⟩
    else ⟨.undefined, db1, t1⟩
  else
    match write_through f.sets_value_ptr persistent_device_matrix.local_values f.coeffs_.data,
      write_through f.sets_value_ptr persistent_device_matrix.non_local_values
        f.non_local_coeffs_.data with
    | .ok lv, .ok nlv =>
      ⟨.ok { persistent_device_matrix with local_values := lv, non_local_values := nlv },
        db, []⟩
    | _, _ => ⟨.undefined, db, []⟩

/-- Sortedness without the strictness of `spec_sorted`: rows never decrease, and within
one row the columns never decrease. -/
def weakly_sorted (rows cols : List Int) : Prop :=
  ∀ i, i + 1 < rows.length →
    rows.getD i 0 ≤ rows.getD (i + 1) 0 ∧
      (rows.getD i 0 = rows.getD (i + 1) 0 → cols.getD i 0 ≤ cols.getD (i + 1) 0)

/-- The statement that the validation loop confirms the sortedness of section 8: both
flags stay true exactly when the triplet list is `spec_sorted`. -/
def validation_confirms_spec_sorted (t : List (Int × Int)) : Prop :=
  ((validation_loop (t.map Prod.fst) (t.map Prod.snd)).1 = true ∧
    (validation_loop (t.map Prod.fst) (t.map Prod.snd)).2.1 = true) ↔
  spec_sorted (t.map Prod.fst) (t.map Prod.snd)


/-- How `PartitionInitFunctor::init` ends. The function has no `FatalError` statement:
a run that yields no partition ends in the integer division by zero, in the read outside
the range bounds or in the exception of `build_partition_from_local_range`. -/
def PartitionInitFunctor.init_outcome (comm : List PartitionInitFunctor) (local_rank : Nat) :
    Outcome Partition :=
  match PartitionInitFunctor.init comm local_rank with
  | some P => .ok P
  | none => .undefined

/-- The statement of section 7 on an invalid `ranksPerAccelerator`: building the device
partition ends in a fatal error. -/
def invalid_ranks_per_gpu_is_fatal (comm : List PartitionInitFunctor) (local_rank : Nat) :
    Prop :=
  ∃ msg, PartitionInitFunctor.init_outcome comm local_rank = .fatal msg


/-! ## Host matrix wrapper on a registry -/

/-- Modelled from the spec: a `PersistentArray` constructed under a name that the registry
already holds is the stored object (section 4.1); otherwise it is the fresh array. -/
def PersistentArray.attach (db : objectRegistry) (a : PersistentArray) : PersistentArray :=
  match db.find a.name with
  | some d => { a with data := d }
  | none => a

/-- Modelled from the spec: whether the object was found in the registry when it was
constructed ("stored" flag of section 4.1). -/
def PersistentArray.get_stored (db : objectRegistry) (a : PersistentArray) : Bool :=
  (db.find a.name).isSome

/-- The "needs update" flag given to the constructor. -/
def PersistentArray.get_update (a : PersistentArray) : Bool := a.update

/-- The three arrays of a sparsity pattern, taken from the registry where stored. -/
def PersistentSparsityPattern.attach (db : objectRegistry) (sp : PersistentSparsityPattern) :
    PersistentSparsityPattern :=
  { col_idxs_ := sp.col_idxs_.attach db, row_idxs_ := sp.row_idxs_.attach db,
    ldu_mapping_ := sp.ldu_mapping_.attach db }

/-- Writes the three arrays of a sparsity pattern to the registry. -/
def PersistentSparsityPattern.store (sp : PersistentSparsityPattern) (db : objectRegistry) :
    objectRegistry :=
  ((db.store sp.col_idxs_.name sp.col_idxs_.data).store sp.row_idxs_.name
    sp.row_idxs_.data).store sp.ldu_mapping_.name sp.ldu_mapping_.data

/-- Modelled from the spec: the non-local value refresh, as the local one: for each
sorted non-local position the boundary coefficient at the unsorted position recorded in
`ldu_mapping_`, times `scaling_`. -/
def HostMatrixWrapper.update_non_local_matrix_data (w : HostMatrixWrapper)
    (interfaces : List lduInterface) (interfaceBouCoeffs : List (List Int)) :
    HostMatrixWrapper :=
  { w with non_local_coeffs_ :=
      { w.non_local_coeffs_ with
        data := w.non_local_sparsity_.ldu_mapping_.data.map
          (fun p => w.scaling_ *
            (collect_interface_coeffs interfaces interfaceBouCoeffs false).getD p.toNat 0) } }

/-- Member initialiser list of the segregated constructor on the registry `db`: every
array that `db` holds under its name is the stored one. -/
def HostMatrixWrapper.init_members_on (db : objectRegistry) (matrix : lduMatrix)
    (interfaces : List lduInterface) (scaling : Int) (global_row_index : gkoGlobalIndex)
    (fieldName : String) : HostMatrixWrapper :=
  let w := HostMatrixWrapper.init_members matrix interfaces scaling global_row_index fieldName
  { w with local_sparsity_ := w.local_sparsity_.attach db
           local_coeffs_ := w.local_coeffs_.attach db
           non_local_sparsity_ := w.non_local_sparsity_.attach db
           non_local_coeffs_ := w.non_local_coeffs_.attach db }

/-- The registry after a construction: the eight arrays of the wrapper are the registered
objects. -/
def HostMatrixWrapper.store_arrays (w : HostMatrixWrapper) (db : objectRegistry) :
    objectRegistry :=
  ((w.non_local_sparsity_.store (w.local_sparsity_.store db)).store w.local_coeffs_.name
    w.local_coeffs_.data).store w.non_local_coeffs_.name w.non_local_coeffs_.data

/-- The segregated constructor of `HostMatrixWrapper` (HostMatrix.H, lines 160-239) on
the registry `db`: the wrapper, the registry afterwards and the member functions that
the body called, in order. -/
def HostMatrixWrapper.construct (db : objectRegistry) (matrix : lduMatrix)
    (interfaceBouCoeffs : List (List Int)) (interfaces : List lduInterface) (scaling : Int)
    (global_row_index : gkoGlobalIndex) (fieldName : String) :
    HostMatrixWrapper × objectRegistry × List String :=
  let w0 := HostMatrixWrapper.init_members_on db matrix interfaces scaling global_row_index
    fieldName
  let build := !w0.local_sparsity_.col_idxs_.get_stored db ||
    w0.local_sparsity_.col_idxs_.get_update
  let w1 := if build then
      (w0.init_local_sparsity_pattern interfaces).init_non_local_sparsity_pattern interfaces
    else w0
  let refresh := !w0.local_coeffs_.get_stored db || w0.local_coeffs_.get_update
  let w2 := if refresh then
      (w1.update_local_matrix_data interfaces interfaceBouCoeffs).update_non_local_matrix_data
        interfaces interfaceBouCoeffs
    else w1
  (w2, w2.store_arrays db,
    (if build then ["init_local_sparsity_pattern", "init_non_local_sparsity_pattern"] else []) ++
    (if refresh then ["update_local_matrix_data", "update_non_local_matrix_data"] else []))

/-- Arguments of one construction, the field name apart. -/
structure ConstructArgs where
  matrix : lduMatrix
  interfaceBouCoeffs : List (List Int)
  interfaces : List lduInterface
  scaling : Int
  global_row_index : gkoGlobalIndex

/-- A series of constructions for one field on one registry: the registry afterwards and
all member functions called, in order. -/
def HostMatrixWrapper.construct_many (fieldName : String) :
    objectRegistry → List ConstructArgs → objectRegistry × List String
  | db, [] => (db, [])
  | db, a :: rest =>
    let r := HostMatrixWrapper.construct db a.matrix a.interfaceBouCoeffs a.interfaces a.scaling
      a.global_row_index fieldName
    let s := HostMatrixWrapper.construct_many fieldName r.2.1 rest
    (s.1, r.2.2 ++ s.2)

/-- Registry names of the six arrays of the local and the non-local sparsity pattern of
a field. -/
def sparsity_names (fieldName : String) : List String :=
  [fieldName ++ "_local" ++ "_cols", fieldName ++ "_local" ++ "_rows",
    fieldName ++ "_local" ++ "_ldu_map", fieldName ++ "_non_local" ++ "_cols",
    fieldName ++ "_non_local" ++ "_rows", fieldName ++ "_non_local" ++ "_ldu_map"]

/-- The eight arrays of the wrapper as (registry name, content), in the order in which
`store_arrays` writes them. -/
def HostMatrixWrapper.array_pairs (w : HostMatrixWrapper) : List (String × List Int) :=
  [(w.local_sparsity_.col_idxs_.name, w.local_sparsity_.col_idxs_.data),
   (w.local_sparsity_.row_idxs_.name, w.local_sparsity_.row_idxs_.data),
   (w.local_sparsity_.ldu_mapping_.name, w.local_sparsity_.ldu_mapping_.data),
   (w.non_local_sparsity_.col_idxs_.name, w.non_local_sparsity_.col_idxs_.data),
   (w.non_local_sparsity_.row_idxs_.name, w.non_local_sparsity_.row_idxs_.data),
   (w.non_local_sparsity_.ldu_mapping_.name, w.non_local_sparsity_.ldu_mapping_.data),
   (w.local_coeffs_.name, w.local_coeffs_.data),
   (w.non_local_coeffs_.name, w.non_local_coeffs_.data)]

/-- Modelled from the spec: a Ginkgo distributed vector with one column, as far as this
code uses it: the executor it lives on and the values of the rows that the calling rank
owns ("Persistent vector", section 3). The global size is the sum of the local sizes. -/
structure dist_vec where
  on_device : Bool
  local_values : List Int
deriving DecidableEq, Repr

/-- State of `VectorInitFunctor` (Vector.H, lines 43-71). `other_` is the host array the
pointer `other_` refers to, as far as it is allocated. -/
structure VectorInitFunctor where
  name_ : String
  partition_ : PersistentPartition
  verbose_ : Int
  on_device_ : Bool
  other_ : List Int
deriving DecidableEq, Repr

/-- The call `gko::array<T>::view(exec, size, ptr)` read as a value: the first `size`
elements behind `ptr`. A negative size or a size beyond the allocation has no defined
value. -/
def array_view (size : Int) (memory : List Int) : Option (List Int) :=
  if 0 ≤ size ∧ size.toNat ≤ memory.length then some (memory.take size.toNat) else none

/-- Modelled from the spec: the rows of a global, row-indexed vector that fall into every
part of partition `P`, one list per part ("move row-indexed values from the host
partition layout to the device partition layout", section 2). -/
def Partition.distribute (P : Partition) (global : List Int) : List (List Int) :=
  (List.range P.get_num_parts).map (fun r =>
    (global.drop (P.get_range_bounds.getD r 0).toNat).take (P.get_part_size r).toNat)

/-- Modelled from the spec: Gather "moves an entire matrix (or vector) from host partition
to device partition" (section 4.4). `locals` lists the local values of every rank in the
layout of `from_partition`; the result lists them in the layout of `to_partition`. -/
def repartitioner.gather_vector (from_partition to_partition : Partition)
    (locals : List (List Int)) : List (List Int) :=
  let _ := from_partition
  to_partition.distribute locals.flatten

/-- Modelled from the spec: Scatter copies "a device-resident result vector back into
host-partition addressing" (section 4.4). `locals` lists the local values of every rank
in the layout of `to_partition`; the result lists them in the layout of
`from_partition`. -/
def repartitioner.scatter (from_partition to_partition : Partition)
    (locals : List (List Int)) : List (List Int) :=
  let _ := to_partition
  from_partition.distribute locals.flatten

/-- The function `VectorInitFunctor::init` (Vector.H, lines 86-132) on rank `rank` of the
communicator whose ranks hold the functors `comm`. With `ranks_per_gpu = 1` the vector
holds a copy of the host view; otherwise the host vectors of all ranks are gathered from
the host partition to the device partition. -/
def VectorInitFunctor.init (comm : List VectorInitFunctor) (rank : Nat) : Option dist_vec :=
  match comm[rank]? with
  | none => none
  | some f =>
    let local_size := f.partition_.get_local_host_size
    match array_view local_size f.other_ with
    | none => none
    | some host_view =>
      if f.partition_.get_ranks_per_gpu = 1 then
        some { on_device := f.on_device_, local_values := host_view }
      else
        let partitions := comm.map (fun c => c.partition_)
        match all_some (comm.map (fun c => array_view c.partition_.get_local_host_size c.other_)),
            PersistentPartition.get_host_partition partitions,
            PersistentPartition.get_device_partition partitions rank with
        | some host_vectors, some H, some D =>
          some { on_device := f.on_device_
                 local_values := (repartitioner.gather_vector H D host_vectors).getD rank [] }
        | _, _, _ => none

/-- State of `PersistentVector` (Vector.H, lines 137-183): the host array behind
`memory_`, the partition, the update flag, and the persistent object `vector` that the
base class holds. -/
structure PersistentVector where
  memory_ : List Int
  partition_ : PersistentPartition
  update_ : Bool
  vector : dist_vec
deriving DecidableEq, Repr

/-- The `PersistentVector` constructor (lines 169-183) on a cold registry: the base class
is handed `VectorInitFunctor(exec, name, partition, memory, verbose, init_on_device)` and
the persistent object is what its `init()` returns. -/
def PersistentVector.create (comm : List VectorInitFunctor) (rank : Nat) (update : Bool) :
    Option PersistentVector :=
  match comm[rank]?, VectorInitFunctor.init comm rank with
  | some f, some v =>
    some { memory_ := f.other_, partition_ := f.partition_, update_ := update, vector := v }
  | _, _ => none

/-- The accessor `get_vector`. -/
def PersistentVector.get_vector (pv : PersistentVector) : dist_vec := pv.vector

/-- The function `PersistentVector::copy_back` (Vector.H, lines 208-245) on rank `rank`,
where `world` lists the `PersistentVector` of every rank. The result is the state of that
rank afterwards. -/
def PersistentVector.copy_back (world : List PersistentVector) (rank : Nat) :
    Option PersistentVector :=
  match world[rank]? with
  | none => none
  | some pv =>
    let partitions := world.map (fun w => w.partition_)
    let local_host_size := pv.partition_.get_local_host_size
    match PersistentPartition.get_local_device_size partitions rank,
        PersistentPartition.get_total_size partitions rank with
    | some _, some _ =>
      let host_device_vector : dist_vec :=
        { on_device := false, local_values := pv.get_vector.local_values }
      let host_buffer : Option (List Int) :=
        if pv.partition_.get_ranks_per_gpu ≠ 1 then
          match PersistentPartition.get_host_partition partitions,
              PersistentPartition.get_device_partition partitions rank with
          | some H, some D =>
            some ((repartitioner.scatter H D
              (world.map (fun w => w.get_vector.local_values))).getD rank [])
          | _, _ => none
        else some host_device_vector.local_values
      match host_buffer with
      | none => none
      | some buffer =>
        match array_view local_host_size buffer, array_view local_host_size pv.memory_ with
        | some host_buffer_view, some _ =>
          some { pv with
            memory_ := host_buffer_view ++ pv.memory_.drop local_host_size.toNat }
        | _, _ => none
    | _, _ => none

/-- One `VectorInitFunctor` per process of `PersistentPartition.world`, process `r`
holding the host array `memories[r]`. -/
def VectorInitFunctor.world (g : Int) (counts : List Nat) (memories : List (List Int))
    (name : String) (on_device : Bool) : List VectorInitFunctor :=
  List.zipWith (fun p m =>
      { name_ := name, partition_ := p, verbose_ := 0, on_device_ := on_device, other_ := m })
    (PersistentPartition.world g counts) memories

/-- Building the persistent vector of every rank from host memory and then calling
`copy_back` on rank `rank`. -/
def PersistentVector.round_trip (comm : List VectorInitFunctor) (rank : Nat) :
    Option PersistentVector :=
  match all_some ((List.range comm.length).map (fun r =>
      PersistentVector.create comm r false)) with
  | none => none
  | some world => PersistentVector.copy_back world rank

/-- Statement of C19 for one sharing factor, one set of host arrays and one rank: the
round trip completes and leaves the host array of the rank as it was. -/
def round_trip_restores_memory (g : Int) (counts : List Nat) (memories : List (List Int))
    (rank : Nat) : Prop :=
  ∀ (name : String) (on_device : Bool),
    ∃ f pv, (VectorInitFunctor.world g counts memories name on_device)[rank]? = some f ∧
      PersistentVector.round_trip (VectorInitFunctor.world g counts memories name on_device)
        rank = some pv ∧
      pv.memory_ = f.other_

/-- The host views of all ranks of `VectorInitFunctor.world`: rank `r` sees the first
`counts[r]` values of its host array. -/
def host_views (counts : List Nat) (memories : List (List Int)) : List (List Int) :=
  (List.range counts.length).map (fun r => (memories.getD r []).take (counts.getD r 0))
/-- The statement of section 7 on an unrecognized format for one run of the warm path:
`update` ends in a fatal error. -/
def update_is_fatal (f : MatrixInitFunctor) (R : repartitioner)
    (comm : List PersistentPartition) (rank : Nat) (debug : Bool) (db : objectRegistry)
    (persistent_device_matrix : dist_mtx) : Prop :=
  ∃ msg, (f.update R comm rank debug db persistent_device_matrix).outcome = .fatal msg

/-- The (row, column) pairs never decrease in lexicographic order from one entry to the
next. -/
def lex_non_decreasing (t : List (Int × Int)) : Prop :=
  ∀ i, i + 1 < t.length → toLex (t.getD i (0, 0)) ≤ toLex (t.getD (i + 1) (0, 0))

/-- The local ranges `[target_rows_start, target_rows_end)` of all ranks that the second
collective of `PartitionInitFunctor::init` (lines 103-106) gathers: the expression that
`PartitionInitFunctor.init` hands to `build_partition_from_local_range`. -/
def PartitionInitFunctor.local_ranges (comm : List PartitionInitFunctor)
    (host_partition : Partition) : Option (List span) :=
  all_some ((List.range comm.length).map (fun r =>
    match comm[r]? with
    | none => none
    | some c =>
      if c.ranks_per_gpu_ = 1 then none
      else c.target_rows host_partition.get_range_bounds (r : Int)))

/-! ## Helper lemmas: sparsity builder -/

theorem length_flatMap_const {α β : Type} (l : List α) (g : α → List β) (c : Nat)
    (h : ∀ a, (g a).length = c) : (l.flatMap g).length = l.length * c := by
  induction l with
  | nil => simp
  | cons a t ih => simp only [List.flatMap_cons, List.length_append, List.length_cons, ih, h]; ring

theorem zipWith_map_same {α β γ δ : Type} (f : β → γ → δ) (g1 : α → β) (g2 : α → γ)
    (l : List α) :
    List.zipWith f (l.map g1) (l.map g2) = l.map (fun a => f (g1 a) (g2 a)) := by
  induction l with
  | nil => rfl
  | cons a t ih => simp only [List.map_cons, List.zipWith_cons_cons, ih]

theorem zipWith_flatMap {α β γ δ : Type} (f : β → γ → δ) (g1 : α → List β) (g2 : α → List γ)
    (l : List α) (h : ∀ a, (g1 a).length = (g2 a).length) :
    List.zipWith f (l.flatMap g1) (l.flatMap g2) =
      l.flatMap (fun a => List.zipWith f (g1 a) (g2 a)) := by
  induction l with
  | nil => simp
  | cons a t ih =>
    simp only [List.flatMap_cons]
    rw [List.zipWith_append _ _ _ _ _ (h a), ih]

theorem length_number_entries (idx : List (Int × Int)) :
    (number_entries idx).length = idx.length := by
  simp [number_entries]

theorem length_ldu_indices (m : lduMatrix) :
    (ldu_indices m).length = m.diag.length + 2 * m.upperAddr.length := by
  unfold ldu_indices
  rw [List.length_append, length_flatMap_const (List.range m.upperAddr.length)
    (fun k => [(m.lowerAddr.getD k 0, m.upperAddr.getD k 0),
      (m.upperAddr.getD k 0, m.lowerAddr.getD k 0)]) 2 (fun _ => rfl), List.length_map,
    List.length_range, List.length_range, mul_comm]

theorem length_ldu_coeffs (m : lduMatrix) :
    (ldu_coeffs m).length = m.diag.length + 2 * m.upperAddr.length := by
  unfold ldu_coeffs
  rw [List.length_append, length_flatMap_const (List.range m.upperAddr.length)
    (fun k => [m.upper.getD k 0, m.lower.getD k 0]) 2 (fun _ => rfl), List.length_map,
    List.length_range, List.length_range, mul_comm]

theorem sort_entries_perm (l : List Entry) : List.Perm (sort_entries l) l :=
  List.perm_insertionSort _ l

theorem length_sort_entries (l : List Entry) : (sort_entries l).length = l.length :=
  (sort_entries_perm l).length_eq

theorem map_number_entries (idx : List (Int × Int)) (vals : List Int) (s : Int)
    (h : idx.length = vals.length) :
    (number_entries idx).map (fun e => (e.row, e.col, s * vals.getD e.pos 0)) =
      List.zipWith (fun rc v => (rc.1, rc.2, s * v)) idx vals := by
  apply List.ext_getElem
  · simp [number_entries, h]
  · intro i h1 h2
    have hi : i < idx.length := by simpa [number_entries] using h1
    have hv : i < vals.length := h ▸ hi
    simp [number_entries, List.getD_eq_getElem, hi, hv]

theorem zipWith_ldu (m : lduMatrix) (s : Int) :
    List.zipWith (fun rc v => (rc.1, rc.2, s * v)) (ldu_indices m) (ldu_coeffs m) =
      (List.range m.diag.length).map
        (fun (i : Nat) => ((i : Int), (i : Int), s * m.diag.getD i 0)) ++
      (List.range m.upperAddr.length).flatMap (fun k =>
        [(m.lowerAddr.getD k 0, m.upperAddr.getD k 0, s * m.upper.getD k 0),
         (m.upperAddr.getD k 0, m.lowerAddr.getD k 0, s * m.lower.getD k 0)]) := by
  unfold ldu_indices ldu_coeffs
  rw [List.zipWith_append _ _ _ _ _ (by rw [List.length_map, List.length_map]),
    zipWith_map_same,
    zipWith_flatMap _
      (fun k => [(m.lowerAddr.getD k 0, m.upperAddr.getD k 0),
        (m.upperAddr.getD k 0, m.lowerAddr.getD k 0)])
      (fun k => [m.upper.getD k 0, m.lower.getD k 0]) _ (fun _ => rfl)]
  rfl

theorem local_triplets_create (m : lduMatrix) (bou : List (List Int))
    (interfaces : List lduInterface) (s : Int) (gi : gkoGlobalIndex) (name : String) :
    (HostMatrixWrapper.create m bou interfaces s gi name).local_triplets =
      (sort_entries (number_entries ((HostMatrixWrapper.init_members m interfaces s gi name
          ).local_indices interfaces))).map
        (fun e => (e.row, e.col,
          s * (ldu_coeffs m ++ collect_interface_coeffs interfaces bou true).getD e.pos 0)) := by
  simp [HostMatrixWrapper.create, HostMatrixWrapper.local_triplets,
    HostMatrixWrapper.update_local_matrix_data, HostMatrixWrapper.init_non_local_sparsity_pattern,
    HostMatrixWrapper.init_local_sparsity_pattern, PersistentSparsityPattern.fill,
    List.zip_map', HostMatrixWrapper.init_members]

theorem local_triplets_perm (m : lduMatrix) (bou : List (List Int)) (s : Int)
    (gi : gkoGlobalIndex) (name : String) :
    List.Perm (HostMatrixWrapper.create m bou [] s gi name).local_triplets
      ((List.range m.diag.length).map
        (fun (i : Nat) => ((i : Int), (i : Int), s * m.diag.getD i 0)) ++
      (List.range m.upperAddr.length).flatMap (fun k =>
        [(m.lowerAddr.getD k 0, m.upperAddr.getD k 0, s * m.upper.getD k 0),
         (m.upperAddr.getD k 0, m.lowerAddr.getD k 0, s * m.lower.getD k 0)])) := by
  rw [local_triplets_create, ← zipWith_ldu]
  have h1 : (HostMatrixWrapper.init_members m [] s gi name).local_indices [] = ldu_indices m := by
    simp [HostMatrixWrapper.local_indices, HostMatrixWrapper.collect_local_interface_indices,
      collect_local_interface_indices_from, HostMatrixWrapper.init_members]
  have h2 : collect_interface_coeffs [] bou true = [] := by
    cases bou <;> rfl
  rw [h1, h2, List.append_nil,
    ← map_number_entries _ _ _ ((length_ldu_indices m).trans (length_ldu_coeffs m).symm)]
  exact (sort_entries_perm _).map _

theorem sum_triplets_perm {t t' : List (Int × Int × Int)} (h : List.Perm t t')
    (i j : Int) : sum_triplets t i j = sum_triplets t' i j :=
  (h.map _).sum_eq

theorem sum_map_flatMap {α β : Type} (f : β → Int) (g : α → List β) (l : List α) :
    ((l.flatMap g).map f).sum = (l.map (fun a => ((g a).map f).sum)).sum := by
  induction l with
  | nil => rfl
  | cons a t ih => simp only [List.flatMap_cons, List.map_append, List.sum_append, List.map_cons,
      List.sum_cons, ih]

theorem sum_triplets_ldu (m : lduMatrix) (i j : Int) :
    sum_triplets
      ((List.range m.diag.length).map
        (fun (r : Nat) => ((r : Int), (r : Int), 1 * m.diag.getD r 0)) ++
      (List.range m.upperAddr.length).flatMap (fun k =>
        [(m.lowerAddr.getD k 0, m.upperAddr.getD k 0, 1 * m.upper.getD k 0),
         (m.upperAddr.getD k 0, m.lowerAddr.getD k 0, 1 * m.lower.getD k 0)])) i j =
      m.dense i j := by
  unfold sum_triplets lduMatrix.dense
  rw [List.map_append, List.sum_append, sum_map_flatMap, add_assoc, ← List.sum_map_add]
  simp only [List.map_map, List.map_cons, List.map_nil, List.sum_cons, List.sum_nil, add_zero,
    one_mul]
  rfl

theorem map_key_number_entries (idx : List (Int × Int)) :
    (number_entries idx).map (fun e => (e.row, e.col)) = idx := by
  apply List.ext_getElem
  · simp [number_entries]
  · intro i h1 h2
    simp [number_entries, List.getD_eq_getElem, h2]

theorem sort_entries_sorted (l : List Entry) : List.Sorted Entry.le (sort_entries l) :=
  List.sorted_insertionSort Entry.le l

theorem spec_sorted_sort_entries (l : List Entry)
    (hnd : (l.map (fun e => (e.row, e.col))).Nodup) :
    spec_sorted ((sort_entries l).map (fun e => e.row)) ((sort_entries l).map (fun e => e.col)) := by
  intro i hi
  rw [List.length_map] at hi
  have hi0 : i < (sort_entries l).length := by omega
  have hs := sort_entries_sorted l
  have hle : Entry.le ((sort_entries l).get ⟨i, hi0⟩) ((sort_entries l).get ⟨i + 1, hi⟩) :=
    hs.rel_get_of_lt (by simp [Fin.lt_def])
  have hnd' : ((sort_entries l).map (fun e => (e.row, e.col))).Nodup :=
    ((sort_entries_perm l).map _).nodup_iff.mpr hnd
  have hne : (fun e : Entry => (e.row, e.col)) ((sort_entries l).get ⟨i, hi0⟩) ≠
      (fun e : Entry => (e.row, e.col)) ((sort_entries l).get ⟨i + 1, hi⟩) := by
    intro heq
    have h1 : i < ((sort_entries l).map (fun e => (e.row, e.col))).length := by
      rw [List.length_map]; exact hi0
    have h2 : i + 1 < ((sort_entries l).map (fun e => (e.row, e.col))).length := by
      rw [List.length_map]; exact hi
    have := (@List.Nodup.getElem_inj_iff _ _ hnd' i h1 (i + 1) h2).mp (by
      simpa using heq)
    omega
  simp only [List.getD_eq_getElem?_getD, List.getElem?_map, List.getElem?_eq_getElem hi0,
    List.getElem?_eq_getElem hi, Option.map_some', Option.getD_some]
  simp only [List.get_eq_getElem, Entry.le, ne_eq, Prod.mk.injEq, not_and] at hle hne
  constructor
  · omega
  · intro h
    have := hne h
    omega

theorem mem_collect_non_local (gi : gkoGlobalIndex) (interfaces : List lduInterface)
    (patchi : Nat) (iface : lduInterface) (f : Nat) (hi : iface ∈ interfaces)
    (hp : iface.isProcessor = true) (hf : f < iface.faceCells.length) :
    (iface.faceCells.getD f 0, gi.offset iface.neighbProcNo + iface.nbrCells.getD f 0) ∈
      (collect_non_local_col_indices_from gi patchi interfaces).map (fun t => (t.2.1, t.2.2)) := by
  induction interfaces generalizing patchi with
  | nil => cases hi
  | cons a t ih =>
    simp only [collect_non_local_col_indices_from, List.map_append, List.mem_append]
    rcases List.mem_cons.mp hi with h | h
    · left
      subst h
      rw [if_pos hp, List.map_map]
      exact List.mem_map.mpr ⟨f, List.mem_range.mpr hf, rfl⟩
    · right
      exact ih (patchi + 1) h

theorem non_local_pattern_create (m : lduMatrix) (bou : List (List Int))
    (interfaces : List lduInterface) (s : Int) (gi : gkoGlobalIndex) (name : String) :
    (HostMatrixWrapper.create m bou interfaces s gi name).non_local_pattern =
      (sort_entries (number_entries
        ((collect_non_local_col_indices_from gi 0 interfaces).map (fun t => (t.2.1, t.2.2))))).map
        (fun e => (e.row, e.col)) := by
  simp [HostMatrixWrapper.create, HostMatrixWrapper.non_local_pattern,
    HostMatrixWrapper.update_local_matrix_data, HostMatrixWrapper.init_non_local_sparsity_pattern,
    HostMatrixWrapper.init_local_sparsity_pattern, PersistentSparsityPattern.fill,
    List.zip_map', HostMatrixWrapper.init_members, HostMatrixWrapper.collect_non_local_col_indices]

theorem local_sparsity_create (m : lduMatrix) (bou : List (List Int))
    (interfaces : List lduInterface) (s : Int) (gi : gkoGlobalIndex) (name : String) :
    (HostMatrixWrapper.create m bou interfaces s gi name).local_sparsity_ =
      (PersistentSparsityPattern.create (name ++ "_local")
        ((m.diag.length : Int) + 2 * (m.upperAddr.length : Int) +
          count_interface_nnz interfaces false)).fill
        (sort_entries (number_entries
          ((HostMatrixWrapper.init_members m interfaces s gi name).local_indices interfaces))) := by
  rfl

theorem non_local_sparsity_create (m : lduMatrix) (bou : List (List Int))
    (interfaces : List lduInterface) (s : Int) (gi : gkoGlobalIndex) (name : String) :
    (HostMatrixWrapper.create m bou interfaces s gi name).non_local_sparsity_ =
      (PersistentSparsityPattern.create (name ++ "_non_local")
        (count_interface_nnz interfaces true)).fill
        (sort_entries (number_entries
          (((HostMatrixWrapper.init_members m interfaces s gi name
            ).collect_non_local_col_indices interfaces).map (fun t => (t.2.1, t.2.2))))) := by
  rfl

theorem chain4_sorted :
    sort_entries (number_entries (ldu_indices (chain4 0 0 0 0 0 0 0 0 0 0))) =
      [⟨0, 0, 0⟩, ⟨0, 1, 4⟩, ⟨1, 0, 5⟩, ⟨1, 1, 1⟩, ⟨1, 2, 6⟩, ⟨2, 1, 7⟩, ⟨2, 2, 2⟩, ⟨2, 3, 8⟩,
        ⟨3, 2, 9⟩, ⟨3, 3, 3⟩] := by
  decide

theorem chain4_local_triplets (d0 d1 d2 d3 u0 u1 u2 l0 l1 l2 : Int) (bou : List (List Int))
    (gi : gkoGlobalIndex) (name : String) :
    (HostMatrixWrapper.create (chain4 d0 d1 d2 d3 u0 u1 u2 l0 l1 l2) bou [] 1 gi
        name).local_triplets =
      [(0, 0, d0), (0, 1, u0), (1, 0, l0), (1, 1, d1), (1, 2, u1), (2, 1, l1), (2, 2, d2),
        (2, 3, u2), (3, 2, l2), (3, 3, d3)] := by
  rw [local_triplets_create]
  have h1 : (HostMatrixWrapper.init_members (chain4 d0 d1 d2 d3 u0 u1 u2 l0 l1 l2) [] 1 gi
      name).local_indices [] = ldu_indices (chain4 0 0 0 0 0 0 0 0 0 0) := by
    simp [HostMatrixWrapper.local_indices, HostMatrixWrapper.collect_local_interface_indices,
      collect_local_interface_indices_from, HostMatrixWrapper.init_members, ldu_indices, chain4]
  have h2 : collect_interface_coeffs [] bou true = [] := by
    cases bou <;> rfl
  rw [h1, h2, chain4_sorted]
  simp [ldu_coeffs, chain4, List.range_succ]

/-! ## Claims on the host matrix wrapper -/

/-- C1: for an LDU matrix with `n` diagonal rows and `u` upper entries and an empty
interface list, the constructor sets `local_matrix_w_interfaces_nnz_ = n + 2u + 0` and
creates the local row-index, column-index, ldu-mapping and coefficient arrays with that
length. -/
theorem C1_local_nnz_no_interfaces (matrix : lduMatrix) (scaling : Int)
    (gi : gkoGlobalIndex) (fieldName : String) :
    (HostMatrixWrapper.init_members matrix [] scaling gi
        fieldName).local_matrix_w_interfaces_nnz_ =
      (matrix.diag.length : Int) + 2 * (matrix.upperAddr.length : Int) + 0 ∧
    (HostMatrixWrapper.init_members matrix [] scaling gi
        fieldName).local_sparsity_.row_idxs_.get_size =
      (matrix.diag.length : Int) + 2 * (matrix.upperAddr.length : Int) ∧
    (HostMatrixWrapper.init_members matrix [] scaling gi
        fieldName).local_sparsity_.col_idxs_.get_size =
      (matrix.diag.length : Int) + 2 * (matrix.upperAddr.length : Int) ∧
    (HostMatrixWrapper.init_members matrix [] scaling gi
        fieldName).local_sparsity_.ldu_mapping_.get_size =
      (matrix.diag.length : Int) + 2 * (matrix.upperAddr.length : Int) ∧
    (HostMatrixWrapper.init_members matrix [] scaling gi fieldName).local_coeffs_.get_size =
      (matrix.diag.length : Int) + 2 * (matrix.upperAddr.length : Int) := by
  have hn : ((matrix.diag.length : Int) + 2 * (matrix.upperAddr.length : Int)).toNat =
      matrix.diag.length + 2 * matrix.upperAddr.length := by omega
  have hc : count_interface_nnz [] false = 0 := rfl
  refine ⟨?_, ?_, ?_, ?_, ?_⟩
  · simp only [HostMatrixWrapper.init_members, hc]
  all_goals
    simp only [HostMatrixWrapper.init_members, PersistentSparsityPattern.create, hc, add_zero,
      PersistentArray.get_size, PersistentArray.create, List.length_replicate, hn]
    push_cast
    rfl

/-- C2: for an LDU matrix with no interfaces and scaling 1, the local triplet list is a
rearrangement of one triple `(i, i, diag[i])` per row and, for each upper/lower pair `k`
with lower address `l` and upper address `p`, the two triples `(l, p, upper[k])` and
`(p, l, lower[k])`, so it has `n + 2u` entries; summing the triplets at any position
gives the entry of the original matrix; the non-local list is empty; and for the 4-row
chain the list is exactly the one of section 8. -/
theorem C2_local_triplets_no_interfaces (m : lduMatrix) (bou : List (List Int))
    (gi : gkoGlobalIndex) (name : String) :
    List.Perm (HostMatrixWrapper.create m bou [] 1 gi name).local_triplets
      ((List.range m.diag.length).map (fun (i : Nat) => ((i : Int), (i : Int), m.diag.getD i 0)) ++
       (List.range m.upperAddr.length).flatMap (fun k =>
        [(m.lowerAddr.getD k 0, m.upperAddr.getD k 0, m.upper.getD k 0),
         (m.upperAddr.getD k 0, m.lowerAddr.getD k 0, m.lower.getD k 0)])) ∧
    (HostMatrixWrapper.create m bou [] 1 gi name).local_triplets.length =
      m.diag.length + 2 * m.upperAddr.length ∧
    (∀ i j : Int,
      sum_triplets (HostMatrixWrapper.create m bou [] 1 gi name).local_triplets i j =
        m.dense i j) ∧
    (HostMatrixWrapper.create m bou [] 1 gi name).non_local_pattern = [] ∧
    (∀ d0 d1 d2 d3 u0 u1 u2 l0 l1 l2 : Int,
      (HostMatrixWrapper.create (chain4 d0 d1 d2 d3 u0 u1 u2 l0 l1 l2) bou [] 1 gi
          name).local_triplets =
        [(0, 0, d0), (0, 1, u0), (1, 0, l0), (1, 1, d1), (1, 2, u1), (2, 1, l1), (2, 2, d2),
          (2, 3, u2), (3, 2, l2), (3, 3, d3)] ∧
      (HostMatrixWrapper.create (chain4 d0 d1 d2 d3 u0 u1 u2 l0 l1 l2) bou [] 1 gi
          name).non_local_pattern = []) := by
  have hnl : ∀ m' : lduMatrix,
      (HostMatrixWrapper.create m' bou [] 1 gi name).non_local_pattern = [] := by
    intro m'
    rw [non_local_pattern_create]
    rfl
  have hidx : (HostMatrixWrapper.init_members m [] 1 gi name).local_indices [] =
      ldu_indices m := by
    simp [HostMatrixWrapper.local_indices, HostMatrixWrapper.collect_local_interface_indices,
      collect_local_interface_indices_from, HostMatrixWrapper.init_members]
  refine ⟨?_, ?_, ?_, hnl m, ?_⟩
  · have h := local_triplets_perm m bou 1 gi name
    simpa only [one_mul] using h
  · rw [local_triplets_create, List.length_map, length_sort_entries, length_number_entries, hidx,
      length_ldu_indices]
  · intro i j
    rw [sum_triplets_perm (local_triplets_perm m bou 1 gi name) i j, sum_triplets_ldu]
  · intro d0 d1 d2 d3 u0 u1 u2 l0 l1 l2
    exact ⟨chain4_local_triplets d0 d1 d2 d3 u0 u1 u2 l0 l1 l2 bou gi name, hnl _⟩

/-- C3: for every input whose contributions never repeat a (row, column) pair, the
local and the non-local lists built by the sparsity builder both satisfy, for adjacent
positions, `row[i] <= row[i+1]` and `col[i] < col[i+1]` whenever `row[i] = row[i+1]`. -/
theorem C3_triplet_lists_sorted (m : lduMatrix) (bou : List (List Int))
    (interfaces : List lduInterface) (s : Int) (gi : gkoGlobalIndex) (name : String)
    (hvalid : no_duplicate_pairs m interfaces gi) :
    spec_sorted (HostMatrixWrapper.create m bou interfaces s gi name).local_sparsity_.row_idxs_.data
      (HostMatrixWrapper.create m bou interfaces s gi name).local_sparsity_.col_idxs_.data ∧
    spec_sorted
      (HostMatrixWrapper.create m bou interfaces s gi name).non_local_sparsity_.row_idxs_.data
      (HostMatrixWrapper.create m bou interfaces s gi name).non_local_sparsity_.col_idxs_.data := by
  rw [local_sparsity_create, non_local_sparsity_create]
  constructor
  · apply spec_sorted_sort_entries
    rw [map_key_number_entries]
    exact hvalid.1
  · apply spec_sorted_sort_entries
    rw [map_key_number_entries]
    exact hvalid.2

/-- Witness for C3: the 4-row chain with one processor interface on row 3. -/
theorem C3_triplet_lists_sorted_witness :
    no_duplicate_pairs (chain4 4 4 4 4 1 1 1 2 2 2) [⟨true, 1, [3], [0]⟩] ⟨[4, 4]⟩ ∧
    spec_sorted
      (HostMatrixWrapper.create (chain4 4 4 4 4 1 1 1 2 2 2) [[7]] [⟨true, 1, [3], [0]⟩] 1
        ⟨[4, 4]⟩ "p").local_sparsity_.row_idxs_.data
      (HostMatrixWrapper.create (chain4 4 4 4 4 1 1 1 2 2 2) [[7]] [⟨true, 1, [3], [0]⟩] 1
        ⟨[4, 4]⟩ "p").local_sparsity_.col_idxs_.data :=
  ⟨by decide,
    (C3_triplet_lists_sorted (chain4 4 4 4 4 1 1 1 2 2 2) [[7]] [⟨true, 1, [3], [0]⟩] 1
      ⟨[4, 4]⟩ "p" (by decide)).1⟩

/-- C4: every face `f` of every processor interface has an entry in the non-local list
whose row is the local row `faceCells[f]` and whose column is the global row of the
neighbouring cell, `offset(neighbProcNo) + nbrCells[f]`. With two processes of two rows
each and one interface joining row 1 of process 0 to row 0 of process 1, the non-local
list of process 0 is the single entry with column 2 and that of process 1 the single
entry with column 1. -/
theorem C4_non_local_global_column (m : lduMatrix) (bou : List (List Int))
    (interfaces : List lduInterface) (s : Int) (gi : gkoGlobalIndex) (name : String)
    (iface : lduInterface) (f : Nat) (hi : iface ∈ interfaces)
    (hp : iface.isProcessor = true) (hf : f < iface.faceCells.length) :
    (iface.faceCells.getD f 0, gi.toGlobal iface.neighbProcNo (iface.nbrCells.getD f 0)) ∈
      (HostMatrixWrapper.create m bou interfaces s gi name).non_local_pattern ∧
    gi.toGlobal iface.neighbProcNo (iface.nbrCells.getD f 0) =
      ((((gi.counts.take iface.neighbProcNo).sum : Nat) : Int)) + iface.nbrCells.getD f 0 ∧
    (∀ m0 m1 : lduMatrix, m0.diag.length = 2 → m1.diag.length = 2 →
      (HostMatrixWrapper.create m0 bou [⟨true, 1, [1], [0]⟩] s ⟨[2, 2]⟩ name).non_local_pattern =
        [(1, 2)] ∧
      (HostMatrixWrapper.create m1 bou [⟨true, 0, [0], [1]⟩] s ⟨[2, 2]⟩ name).non_local_pattern =
        [(0, 1)]) := by
  refine ⟨?_, rfl, ?_⟩
  · rw [non_local_pattern_create]
    have hperm := (sort_entries_perm (number_entries
      ((collect_non_local_col_indices_from gi 0 interfaces).map (fun t => (t.2.1, t.2.2))))).map
      (fun e => (e.row, e.col))
    rw [map_key_number_entries] at hperm
    exact hperm.symm.subset (mem_collect_non_local gi interfaces 0 iface f hi hp hf)
  · intro m0 m1 _ _
    rw [non_local_pattern_create, non_local_pattern_create]
    constructor <;> decide

/-- Witness for C4: process 0 of the two-process scenario. -/
theorem C4_non_local_global_column_witness :
    (1, 2) ∈ (HostMatrixWrapper.create ⟨[5, 5], [0], [1], [-1], [-1]⟩ [[-1]]
      [⟨true, 1, [1], [0]⟩] 1 ⟨[2, 2]⟩ "p").non_local_pattern :=
  (C4_non_local_global_column ⟨[5, 5], [0], [1], [-1], [-1]⟩ [[-1]] [⟨true, 1, [1], [0]⟩] 1
    ⟨[2, 2]⟩ "p" ⟨true, 1, [1], [0]⟩ 0 (by decide) rfl (by decide)).1


/-! ## Helper lemmas: partition model -/

theorem offset_zero (counts : List Nat) : (gkoGlobalIndex.mk counts).offset 0 = 0 := by
  simp [gkoGlobalIndex.offset]

theorem offset_succ (counts : List Nat) (i : Nat) :
    (gkoGlobalIndex.mk counts).offset (i + 1) =
      (gkoGlobalIndex.mk counts).offset i + ((counts.getD i 0 : Nat) : Int) := by
  unfold gkoGlobalIndex.offset
  by_cases h : i < counts.length
  · simp only [List.sum_take_succ counts i h, List.getD_eq_getElem counts 0 h]
    push_cast
    rfl
  · have h' : counts.length ≤ i := Nat.le_of_not_lt h
    simp only [List.take_of_length_le h', List.take_of_length_le (Nat.le_succ_of_le h'),
      List.getD_eq_default counts 0 h']
    simp

theorem offset_mono (counts : List Nat) {i j : Nat} (h : i ≤ j) :
    (gkoGlobalIndex.mk counts).offset i ≤ (gkoGlobalIndex.mk counts).offset j := by
  induction j with
  | zero => rw [Nat.le_zero.mp h]
  | succ k ih =>
    rcases Nat.of_le_succ h with h1 | h1
    · have := ih h1
      rw [offset_succ]
      omega
    · rw [h1]

theorem offset_length (counts : List Nat) :
    (gkoGlobalIndex.mk counts).offset counts.length = ((counts.sum : Nat) : Int) := by
  simp [gkoGlobalIndex.offset]

theorem all_some_map_some {α β : Type} (f : α → β) (l : List α) :
    all_some (l.map (fun x => some (f x))) = some (l.map f) := by
  induction l with
  | nil => rfl
  | cons a t ih => simp only [List.map_cons, all_some, ih, Option.map_some']

theorem contiguous_iff_chain (l : List span) :
    contiguous l = true ↔ List.Chain' (fun a b : span => a.end_ = b.begin) l := by
  induction l with
  | nil => simp [contiguous]
  | cons a t ih =>
    cases t with
    | nil => simp [contiguous]
    | cons b t' =>
      rw [List.chain'_cons, ← ih]
      simp [contiguous]

theorem build_partition_bounds (l : List span) (P : Partition)
    (h : build_partition_from_local_range l = some P) (r : Nat) (hr : r < l.length) :
    P.range_bounds.getD r 0 = l[r].begin ∧ P.range_bounds.getD (r + 1) 0 = l[r].end_ := by
  cases l with
  | nil => simp at hr
  | cons a t =>
    by_cases hc : contiguous (a :: t) = true
    · have hL : P.range_bounds = a.begin :: (a :: t).map (fun r => r.end_) := by
        simp only [build_partition_from_local_range, hc, if_true, Option.some.injEq] at h
        rw [← h]
      have hend : ∀ k (hk : k < (a :: t).length),
          P.range_bounds.getD (k + 1) 0 = (a :: t)[k].end_ := by
        intro k hk
        rw [hL, List.getD_cons_succ, List.getD_eq_getElem _ _ (by rw [List.length_map]; exact hk),
          List.getElem_map]
      refine ⟨?_, hend r hr⟩
      cases r with
      | zero => rw [hL]; rfl
      | succ k =>
        rw [hend k (by omega)]
        have hch := List.chain'_iff_get.mp ((contiguous_iff_chain _).mp hc) k
          (by simp only [List.length_cons] at hr ⊢; omega)
        simpa only [List.get_eq_getElem] using hch
    · simp only [build_partition_from_local_range, hc] at h
      cases h

theorem build_partition_range (F : Nat → span) (n : Nat)
    (h : ∀ m < n, (F m).end_ = (F (m + 1)).begin) :
    build_partition_from_local_range ((List.range (n + 1)).map F) =
      some ⟨(F 0).begin :: (List.range (n + 1)).map (fun r => (F r).end_)⟩ := by
  have hc : List.Chain' (fun a b : span => a.end_ = b.begin) ((List.range (n + 1)).map F) := by
    rw [List.chain'_map, List.chain'_range_succ]
    exact h
  have hcons : (List.range (n + 1)).map F = F 0 :: (List.range n).map (fun r => F (r + 1)) := by
    rw [List.range_succ_eq_map, List.map_cons, List.map_map]
    rfl
  have hres : build_partition_from_local_range (F 0 :: (List.range n).map (fun r => F (r + 1))) =
      some ⟨(F 0).begin :: (F 0 :: (List.range n).map (fun r => F (r + 1))).map
        (fun r => r.end_)⟩ := by
    rw [hcons] at hc
    simp only [build_partition_from_local_range, (contiguous_iff_chain _).mpr hc, if_true]
  rw [← hcons, List.map_map] at hres
  exact hres

theorem world_length (g : Int) (counts : List Nat) :
    (PersistentPartition.world g counts).length = counts.length := by
  simp [PersistentPartition.world]

theorem host_partition_world (g : Int) (counts : List Nat) (hN : 0 < counts.length) :
    PersistentPartition.get_host_partition (PersistentPartition.world g counts) =
      some ⟨(List.range (counts.length + 1)).map (fun i => (gkoGlobalIndex.mk counts).offset i)⟩ := by
  obtain ⟨n, hn⟩ : ∃ n, counts.length = n + 1 := ⟨counts.length - 1, by omega⟩
  unfold PersistentPartition.get_host_partition PersistentPartition.world
  rw [List.map_map, hn]
  change build_partition_from_local_range (List.map
    (fun r => (⟨(gkoGlobalIndex.mk counts).offset r,
      (gkoGlobalIndex.mk counts).offset r + ((counts.getD r 0 : Nat) : Int)⟩ : span))
    (List.range (n + 1))) = _
  rw [build_partition_range (fun r => (⟨(gkoGlobalIndex.mk counts).offset r,
      (gkoGlobalIndex.mk counts).offset r + ((counts.getD r 0 : Nat) : Int)⟩ : span)) n
      (fun m _ => (offset_succ counts m).symm)]
  · congr 1
    rw [List.range_succ_eq_map (n + 1), List.map_cons, List.map_map]
    congr 2
    apply List.map_congr_left
    intro r _
    exact (offset_succ counts r).symm

theorem target_rows_nat (g r : Nat) (rows_start rows_end : Int) (bounds : List Int) (hg : 0 < g)
    (hb : g * (r / g) + g < bounds.length) :
    (PartitionInitFunctor.create rows_start rows_end g).target_rows bounds r =
      some ⟨if r % g ≠ 0 then bounds.getD (g * (r / g) + g) 0 else rows_start,
        bounds.getD (g * (r / g) + g) 0⟩ := by
  have hg0 : ¬ ((g : Int) = 0) := by omega
  have hnext : (g : Int) + (g : Int) * Int.tdiv (r : Int) (g : Int) =
      ((g * (r / g) + g : Nat) : Int) := by
    rw [← Int.ofNat_tdiv]
    push_cast
    ring
  have hmod : Int.tmod (r : Int) (g : Int) = ((r % g : Nat) : Int) := (Int.ofNat_tmod r g).symm
  have hin : ¬ ((((g * (r / g) + g : Nat) : Int) < 0) ∨
      ((bounds.length : Int) ≤ ((g * (r / g) + g : Nat) : Int))) := by omega
  simp only [PartitionInitFunctor.target_rows, PartitionInitFunctor.create, hg0, if_false, hnext,
    hin, hmod, Int.toNat_ofNat, ne_eq, Nat.cast_eq_zero]

theorem target_rows_out_of_range (g r : Nat) (rows_start rows_end : Int) (bounds : List Int)
    (hb : bounds.length ≤ g * (r / g) + g) :
    (PartitionInitFunctor.create rows_start rows_end g).target_rows bounds r = none := by
  have hnext : (g : Int) + (g : Int) * Int.tdiv (r : Int) (g : Int) =
      ((g * (r / g) + g : Nat) : Int) := by
    rw [← Int.ofNat_tdiv]
    push_cast
    ring
  have hin : ((((g * (r / g) + g : Nat) : Int) < 0) ∨
      ((bounds.length : Int) ≤ ((g * (r / g) + g : Nat) : Int))) := by omega
  simp only [PartitionInitFunctor.target_rows, PartitionInitFunctor.create, hnext, hin, if_true,
    ite_self]

theorem group_end_le (g N r : Nat) (hdiv : g ∣ N) (hr : r < N) :
    g * (r / g) + g ≤ N := by
  obtain ⟨k, hk⟩ := hdiv
  have h1 : r / g < k := Nat.div_lt_of_lt_mul (hk ▸ hr)
  calc g * (r / g) + g = g * (r / g + 1) := by ring
    _ ≤ g * k := Nat.mul_le_mul_left g h1
    _ = N := hk.symm

theorem group_end_succ (g m : Nat) :
    ((m + 1) % g ≠ 0 → g * ((m + 1) / g) + g = g * (m / g) + g) ∧
    ((m + 1) % g = 0 → g * (m / g) + g = m + 1) := by
  have hs := Nat.succ_div m g
  constructor
  · intro h
    have : ¬ g ∣ m + 1 := fun hd => h (Nat.mod_eq_zero_of_dvd hd)
    rw [if_neg this] at hs
    rw [hs, Nat.add_zero]
  · intro h
    have hd : g ∣ m + 1 := Nat.dvd_of_mod_eq_zero h
    rw [if_pos hd] at hs
    have h2 : g * ((m + 1) / g) = m + 1 := Nat.mul_div_cancel' hd
    rw [hs] at h2
    rw [← h2]
    ring

theorem ceil_group_zero (g : Nat) (hg : 0 < g) : g * ((0 + g - 1) / g) = 0 := by
  have : (0 + g - 1) / g = 0 := Nat.div_eq_of_lt (by omega)
  rw [this, Nat.mul_zero]

theorem ceil_group_succ (g r : Nat) (hg : 0 < g) :
    g * ((r + 1 + g - 1) / g) = g * (r / g) + g := by
  have h1 : r + 1 + g - 1 = r + g := by omega
  rw [h1, Nat.add_div_right r hg]
  ring

/-- Range bounds of the device partition when `g` divides the number of processes:
bound `i` is the row offset of the first group leader at or after rank `i`. -/
theorem device_partition_world (g : Nat) (counts : List Nat) (rank : Nat) (hg : 0 < g)
    (hdiv : g ∣ counts.length) (hr : rank < counts.length) :
    PersistentPartition.get_device_partition (PersistentPartition.world g counts) rank =
      some ⟨(List.range (counts.length + 1)).map
        (fun i => (gkoGlobalIndex.mk counts).offset (g * ((i + g - 1) / g)))⟩ := by
  have hhost := host_partition_world g counts (by omega)
  unfold PersistentPartition.get_host_partition at hhost
  have hhost' : build_partition_from_local_range
      (List.map (fun c => (⟨c.rows_start_, c.rows_end_⟩ : span))
        (List.map PersistentPartition.init_functor (PersistentPartition.world g counts))) =
      some ⟨(List.range (counts.length + 1)).map
        (fun i => (gkoGlobalIndex.mk counts).offset i)⟩ := by
    rw [List.map_map]
    exact hhost
  have hlen : (List.map PersistentPartition.init_functor
      (PersistentPartition.world g counts)).length = counts.length := by
    rw [List.length_map, world_length]
  have hget : ∀ r, r < counts.length →
      (List.map PersistentPartition.init_functor (PersistentPartition.world g counts))[r]? =
        some (PartitionInitFunctor.create ((gkoGlobalIndex.mk counts).offset r)
          ((gkoGlobalIndex.mk counts).offset r + ((counts.getD r 0 : Nat) : Int)) g) := by
    intro r hr'
    simp [PersistentPartition.world, PersistentPartition.init_functor, hr']
  unfold PersistentPartition.get_device_partition PartitionInitFunctor.init
  rw [hget rank hr, hhost', hlen]
  by_cases h1 : g = 1
  · subst h1
    simp [PartitionInitFunctor.create]
  · have hg1 : ¬ ((g : Int) = 1) := by omega
    have hmap : (List.range counts.length).map (fun r =>
        match (List.map PersistentPartition.init_functor
            (PersistentPartition.world g counts))[r]? with
        | none => none
        | some c =>
          if c.ranks_per_gpu_ = 1 then none
          else c.target_rows (Partition.get_range_bounds
            ⟨(List.range (counts.length + 1)).map
              (fun i => (gkoGlobalIndex.mk counts).offset i)⟩) (r : Int)) =
        (List.range counts.length).map (fun r => some
          (⟨if r % g ≠ 0 then (gkoGlobalIndex.mk counts).offset (g * (r / g) + g)
              else (gkoGlobalIndex.mk counts).offset r,
            (gkoGlobalIndex.mk counts).offset (g * (r / g) + g)⟩ : span)) := by
      apply List.map_congr_left
      intro r hr'
      have hr'' : r < counts.length := List.mem_range.mp hr'
      have hle := group_end_le g counts.length r hdiv hr''
      rw [hget r hr'']
      have hgd : ((List.range (counts.length + 1)).map
          (fun i => (gkoGlobalIndex.mk counts).offset i)).getD (g * (r / g) + g) 0 =
          (gkoGlobalIndex.mk counts).offset (g * (r / g) + g) := by
        rw [List.getD_eq_getElem _ _ (by simp; omega)]
        simp
      have ht := target_rows_nat g r ((gkoGlobalIndex.mk counts).offset r)
        ((gkoGlobalIndex.mk counts).offset r + ((counts.getD r 0 : Nat) : Int))
        ((List.range (counts.length + 1)).map (fun i => (gkoGlobalIndex.mk counts).offset i))
        hg (by simp; omega)
      rw [hgd] at ht
      simp only [Partition.get_range_bounds]
      rw [ht]
      simp only [PartitionInitFunctor.create, hg1, if_false]
    simp only [PartitionInitFunctor.create, hg1, if_false]
    rw [hmap, all_some_map_some]
    obtain ⟨n, hn⟩ : ∃ n, counts.length = n + 1 := ⟨counts.length - 1, by omega⟩
    simp only [hn]
    rw [build_partition_range _ n (by
      intro m _
      have hs := group_end_succ g m
      by_cases hm : (m + 1) % g = 0
      · simp only [hm, ne_eq, not_true_eq_false, if_false]
        rw [hs.2 hm]
      · simp only [hm, ne_eq, not_false_eq_true, if_true]
        rw [hs.1 hm])]
    congr 2
    rw [List.range_succ_eq_map (n + 1), List.map_cons, List.map_map]
    congr 1
    · simp only [Nat.zero_mod, ne_eq, not_true_eq_false, if_false]
      rw [ceil_group_zero g hg]
    · apply List.map_congr_left
      intro r _
      simp only [Function.comp, Nat.succ_eq_add_one]
      rw [ceil_group_succ g r hg]

theorem ceil_group_leader (g r : Nat) (hg : 0 < g) (h : r % g = 0) :
    g * ((r + g - 1) / g) = r := by
  have h1 := Nat.div_add_mod r g
  rw [h, Nat.add_zero] at h1
  have h2 : r + g - 1 = g * (r / g) + (g - 1) := by omega
  rw [h2, Nat.mul_add_div hg, Nat.div_eq_of_lt (by omega : g - 1 < g), Nat.add_zero, h1]

theorem ceil_group_non_leader (g r : Nat) (hg : 0 < g) (h : r % g ≠ 0) :
    g * ((r + g - 1) / g) = g * (r / g) + g := by
  have h1 := Nat.div_add_mod r g
  have h3 := Nat.mod_lt r hg
  have h2 : r + g - 1 = g * (r / g) + (r % g - 1 + g) := by omega
  rw [h2, Nat.mul_add_div hg, Nat.add_div_right _ hg,
    Nat.div_eq_of_lt (by omega : r % g - 1 < g)]
  ring

theorem device_bounds_getD (g : Nat) (counts : List Nat) (i : Nat) (hi : i ≤ counts.length) :
    ((List.range (counts.length + 1)).map
      (fun i => (gkoGlobalIndex.mk counts).offset (g * ((i + g - 1) / g)))).getD i 0 =
      (gkoGlobalIndex.mk counts).offset (g * ((i + g - 1) / g)) := by
  rw [List.getD_eq_getElem _ _ (by simp; omega)]
  simp

theorem world_getElem? (g : Int) (counts : List Nat) (r : Nat) (hr : r < counts.length) :
    (PersistentPartition.world g counts)[r]? =
      some ⟨g, (gkoGlobalIndex.mk counts).offset r, ((counts.getD r 0 : Nat) : Int)⟩ := by
  simp [PersistentPartition.world, hr]

theorem group_members_world (g : Int) (counts : List Nat) (r k : Nat)
    (h : r + k ≤ counts.length) :
    group_members (PersistentPartition.world g counts) r k =
      (List.range k).map (fun i => (⟨g, (gkoGlobalIndex.mk counts).offset (r + i),
        ((counts.getD (r + i) 0 : Nat) : Int)⟩ : PersistentPartition)) := by
  unfold group_members
  rw [← List.filterMap_eq_map]
  apply List.filterMap_congr
  intro i hi
  have hi' := List.mem_range.mp hi
  rw [world_getElem? g counts (r + i) (by omega)]
  rfl

theorem sum_counts_range (counts : List Nat) (r k : Nat) :
    ((List.range k).map (fun i => ((counts.getD (r + i) 0 : Nat) : Int))).sum =
      (gkoGlobalIndex.mk counts).offset (r + k) - (gkoGlobalIndex.mk counts).offset r := by
  induction k with
  | zero => simp
  | succ k ih =>
    rw [List.sum_range_succ, ih, ← Nat.add_assoc, offset_succ]
    ring

theorem interval_cover (counts : List Nat) (r k : Nat) (x : Int)
    (h1 : (gkoGlobalIndex.mk counts).offset r ≤ x)
    (h2 : x < (gkoGlobalIndex.mk counts).offset (r + k)) :
    ∃ i, i < k ∧ (gkoGlobalIndex.mk counts).offset (r + i) ≤ x ∧
      x < (gkoGlobalIndex.mk counts).offset (r + i) + ((counts.getD (r + i) 0 : Nat) : Int) := by
  induction k with
  | zero => exact absurd h2 (by simpa using h1)
  | succ k ih =>
    by_cases hx : x < (gkoGlobalIndex.mk counts).offset (r + k)
    · obtain ⟨i, hi, h⟩ := ih hx
      exact ⟨i, Nat.lt_succ_of_lt hi, h⟩
    · refine ⟨k, Nat.lt_succ_self k, by omega, ?_⟩
      rw [← offset_succ]
      exact h2

theorem host_partition_bounds (comm : List PersistentPartition) (P : Partition)
    (hP : PersistentPartition.get_host_partition comm = some P) (r : Nat)
    (p : PersistentPartition) (hp : comm[r]? = some p) :
    P.range_bounds.getD r 0 = p.offset_ ∧
      P.range_bounds.getD (r + 1) 0 = p.offset_ + p.elements_ := by
  have hr : r < comm.length := by
    by_contra hcon
    rw [List.getElem?_eq_none (Nat.le_of_not_lt hcon)] at hp
    cases hp
  have hpe : comm[r] = p := by
    rw [List.getElem?_eq_getElem hr] at hp
    exact Option.some.inj hp
  have h := build_partition_bounds _ P hP r (by rw [List.length_map]; exact hr)
  rw [List.getElem_map, hpe] at h
  exact h

/-! ## Claims on the partition model -/

/-- C5: when the calling process has `ranks_per_gpu_ = 1`, the device partition returned
by `PartitionInitFunctor::init` is the host partition returned by `get_host_partition`,
and in it the part of every process `r` is its local range
`[offset_, offset_ + elements_)`. -/
theorem C5_device_partition_is_host_partition (comm : List PersistentPartition) (rank : Nat)
    (p : PersistentPartition) (hrank : comm[rank]? = some p) (hg : p.ranks_per_gpu_ = 1) :
    PersistentPartition.get_device_partition comm rank =
      PersistentPartition.get_host_partition comm ∧
    (∀ P, PersistentPartition.get_device_partition comm rank = some P →
      ∀ r q, comm[r]? = some q →
        P.get_range_bounds.getD r 0 = q.offset_ ∧
          P.get_range_bounds.getD (r + 1) 0 = q.offset_ + q.elements_) := by
  have heq : PersistentPartition.get_device_partition comm rank =
      PersistentPartition.get_host_partition comm := by
    unfold PersistentPartition.get_device_partition PartitionInitFunctor.init
      PersistentPartition.get_host_partition
    rw [List.getElem?_map, hrank, List.map_map]
    simp only [Option.map_some']
    have hfun : ((fun c : PartitionInitFunctor => (⟨c.rows_start_, c.rows_end_⟩ : span)) ∘
        PersistentPartition.init_functor) =
        (fun q : PersistentPartition => (⟨q.offset_, q.offset_ + q.elements_⟩ : span)) := rfl
    rw [hfun]
    cases build_partition_from_local_range
      (List.map (fun q : PersistentPartition => (⟨q.offset_, q.offset_ + q.elements_⟩ : span))
        comm) with
    | none => rfl
    | some H =>
      simp only [PersistentPartition.init_functor, PartitionInitFunctor.create, hg, if_true]
  refine ⟨heq, ?_⟩
  intro P hP r q hq
  rw [heq] at hP
  exact host_partition_bounds comm P hP r q hq

/-- Witness for C5: three processes with 3, 4 and 5 rows, seen from rank 1. -/
theorem C5_device_partition_is_host_partition_witness :
    PersistentPartition.get_device_partition (PersistentPartition.world 1 [3, 4, 5]) 1 =
      PersistentPartition.get_host_partition (PersistentPartition.world 1 [3, 4, 5]) ∧
    PersistentPartition.get_host_partition (PersistentPartition.world 1 [3, 4, 5]) =
      some ⟨[0, 3, 7, 12]⟩ :=
  ⟨(C5_device_partition_is_host_partition (PersistentPartition.world 1 [3, 4, 5]) 1 ⟨1, 3, 4⟩
    (by decide) rfl).1, by decide⟩

theorem local_device_size_world (g : Nat) (counts : List Nat) (r : Nat) (hg : 0 < g)
    (hdiv : g ∣ counts.length) (hr : r < counts.length) :
    PersistentPartition.get_local_device_size (PersistentPartition.world g counts) r =
      some ((gkoGlobalIndex.mk counts).offset (g * (r / g) + g) -
        (gkoGlobalIndex.mk counts).offset (g * ((r + g - 1) / g))) := by
  unfold PersistentPartition.get_local_device_size
  rw [device_partition_world g counts r hg hdiv hr]
  simp only [Option.map_some', Partition.get_part_size]
  rw [device_bounds_getD g counts (r + 1) (by omega), device_bounds_getD g counts r (by omega),
    ceil_group_succ g r hg]

theorem host_bounds_getD (counts : List Nat) (i : Nat) (hi : i ≤ counts.length) :
    ((List.range (counts.length + 1)).map
      (fun i => (gkoGlobalIndex.mk counts).offset i)).getD i 0 =
      (gkoGlobalIndex.mk counts).offset i := by
  rw [List.getD_eq_getElem _ _ (by simp; omega)]
  simp

theorem target_rows_world (g : Nat) (counts : List Nat) (r : Nat) (hg : 0 < g)
    (hdiv : g ∣ counts.length) (hr : r < counts.length) :
    (PersistentPartition.init_functor ⟨g, (gkoGlobalIndex.mk counts).offset r,
        ((counts.getD r 0 : Nat) : Int)⟩).target_rows
      ((List.range (counts.length + 1)).map (fun i => (gkoGlobalIndex.mk counts).offset i))
      (r : Int) =
    some ⟨if r % g ≠ 0 then (gkoGlobalIndex.mk counts).offset (g * (r / g) + g)
        else (gkoGlobalIndex.mk counts).offset r,
      (gkoGlobalIndex.mk counts).offset (g * (r / g) + g)⟩ := by
  have hle := group_end_le g counts.length r hdiv hr
  have ht := target_rows_nat g r ((gkoGlobalIndex.mk counts).offset r)
    ((gkoGlobalIndex.mk counts).offset r + ((counts.getD r 0 : Nat) : Int))
    ((List.range (counts.length + 1)).map (fun i => (gkoGlobalIndex.mk counts).offset i))
    hg (by simp; omega)
  rw [host_bounds_getD counts _ (by omega)] at ht
  exact ht

/-- C6 (amended): for `g > 1` dividing the number of processes and every group leader
`r` (`r mod g = 0`), the device row range computed by `init` on rank `r` is the union of
the host row ranges of the `g` processes `r, ..., r + g - 1`, and the device-local row
count of `r` is the sum of their host-local row counts. -/
theorem C6_leader_range_is_group_union (g : Nat) (counts : List Nat) (r : Nat) (hg : 1 < g)
    (hdiv : g ∣ counts.length) (hr : r < counts.length) (hlead : r % g = 0) :
    leader_range_is_group_union g counts r := by
  have hg0 : 0 < g := by omega
  have hle := group_end_le g counts.length r hdiv hr
  have hrg : g * (r / g) = r := by
    have := Nat.div_add_mod r g
    omega
  have hmem := group_members_world g counts r g (by omega)
  refine ⟨_, _, _, host_partition_world g counts (by omega), world_getElem? g counts r hr,
    target_rows_world g counts r hg0 hdiv hr, ?_, ?_⟩
  · intro x
    simp only [hlead, ne_eq, not_true_eq_false, if_false, hrg, hmem, List.mem_map,
      List.mem_range, PersistentPartition.owns_row]
    constructor
    · intro ⟨h1, h2⟩
      obtain ⟨i, hi, h3, h4⟩ := interval_cover counts r g x h1 h2
      exact ⟨_, ⟨i, hi, rfl⟩, h3, h4⟩
    · rintro ⟨q, ⟨i, hi, rfl⟩, h3, h4⟩
      simp only at h3 h4
      rw [← offset_succ] at h4
      have m1 := offset_mono counts (Nat.le_add_right r i)
      have m2 := offset_mono counts (by omega : r + i + 1 ≤ r + g)
      constructor <;> omega
  · rw [local_device_size_world g counts r hg0 hdiv hr, ceil_group_leader g r hg0 hlead, hrg,
      hmem, List.map_map]
    congr 1
    exact (sum_counts_range counts r g).symm

/-- Witness for C6: four processes with 3, 4, 5 and 6 rows, `g = 2`, leader 2. -/
theorem C6_leader_range_is_group_union_witness : leader_range_is_group_union 2 [3, 4, 5, 6] 2 :=
  C6_leader_range_is_group_union 2 [3, 4, 5, 6] 2 (by decide) (by decide) (by decide)
    (by decide)

/-- C6 as stated fails: with three processes and `g = 2`, rank 2 is a group leader
(`2 mod 2 = 0`), `init` indexes the four range bounds of the host partition at
`next_owning_rank = 4`, and no device row range is computed. -/
theorem C6_counterexample :
    PersistentPartition.get_host_partition (PersistentPartition.world 2 [1, 1, 1]) =
      some ⟨[0, 1, 2, 3]⟩ ∧
    (PersistentPartition.init_functor ⟨2, 2, 1⟩).target_rows [0, 1, 2, 3] 2 = none ∧
    ¬ leader_range_is_group_union 2 [1, 1, 1] 2 := by
  refine ⟨by decide, by decide, ?_⟩
  rintro ⟨H, s, p, hH, hp, hs, _⟩
  have h1 : H = ⟨[0, 1, 2, 3]⟩ := by
    have : PersistentPartition.get_host_partition (PersistentPartition.world 2 [1, 1, 1]) =
      some ⟨[0, 1, 2, 3]⟩ := by decide
    exact Option.some.inj (hH.symm.trans this)
  have h2 : p = ⟨2, 2, 1⟩ := by
    have : (PersistentPartition.world 2 [1, 1, 1])[2]? = some ⟨2, 2, 1⟩ := by decide
    exact Option.some.inj (hp.symm.trans this)
  subst h1 h2
  have h3 : (PersistentPartition.init_functor ⟨2, 2, 1⟩).target_rows
      (Partition.get_range_bounds ⟨[0, 1, 2, 3]⟩) ((2 : Nat) : Int) = none := by decide
  cases h3.symm.trans hs

/-- C7 (amended): for `g > 1` dividing the number of processes and every process `r` with
`r mod g != 0`, the device row range computed by `init` on rank `r` is empty, with start
and end at the end of the rows of its group, so the device-local size of `r` is 0, while
its host-local size is its own row count. -/
theorem C7_non_leader_range_empty (g : Nat) (counts : List Nat) (r : Nat) (hg : 1 < g)
    (hdiv : g ∣ counts.length) (hr : r < counts.length) (hnl : r % g ≠ 0) :
    non_leader_range_empty g counts r := by
  have hg0 : 0 < g := by omega
  refine ⟨_, _, _, host_partition_world g counts (by omega), world_getElem? g counts r hr,
    target_rows_world g counts r hg0 hdiv hr, ?_, rfl, ?_, rfl⟩
  · simp only [hnl, ne_eq, not_false_eq_true, if_true]
  · rw [local_device_size_world g counts r hg0 hdiv hr, ceil_group_non_leader g r hg0 hnl,
      sub_self]

/-- Witness for C7: four processes with 3, 4, 5 and 6 rows, `g = 2`, rank 3. -/
theorem C7_non_leader_range_empty_witness : non_leader_range_empty 2 [3, 4, 5, 6] 3 :=
  C7_non_leader_range_empty 2 [3, 4, 5, 6] 3 (by decide) (by decide) (by decide) (by decide)

/-- C7 as stated fails: with five processes and `g = 3`, rank 4 is not the first member
of its group (`4 mod 3 = 1`), `init` indexes the six range bounds of the host partition at
`next_owning_rank = 6`, and no device row range is computed. -/
theorem C7_counterexample :
    PersistentPartition.get_host_partition (PersistentPartition.world 3 [1, 1, 1, 1, 1]) =
      some ⟨[0, 1, 2, 3, 4, 5]⟩ ∧
    (PersistentPartition.init_functor ⟨3, 4, 1⟩).target_rows [0, 1, 2, 3, 4, 5] 4 = none ∧
    ¬ non_leader_range_empty 3 [1, 1, 1, 1, 1] 4 := by
  refine ⟨by decide, by decide, ?_⟩
  rintro ⟨H, s, p, hH, hp, hs, _⟩
  have h1 : H = ⟨[0, 1, 2, 3, 4, 5]⟩ := by
    have : PersistentPartition.get_host_partition (PersistentPartition.world 3 [1, 1, 1, 1, 1]) =
      some ⟨[0, 1, 2, 3, 4, 5]⟩ := by decide
    exact Option.some.inj (hH.symm.trans this)
  have h2 : p = ⟨3, 4, 1⟩ := by
    have : (PersistentPartition.world 3 [1, 1, 1, 1, 1])[4]? = some ⟨3, 4, 1⟩ := by decide
    exact Option.some.inj (hp.symm.trans this)
  subst h1 h2
  have h3 : (PersistentPartition.init_functor ⟨3, 4, 1⟩).target_rows
      (Partition.get_range_bounds ⟨[0, 1, 2, 3, 4, 5]⟩) ((4 : Nat) : Int) = none := by decide
  cases h3.symm.trans hs

theorem sum_filter_of_zero {α : Type} (l : List α) (p : α → Bool) (f : α → Int)
    (h : ∀ x ∈ l, p x = false → f x = 0) :
    ((l.filter p).map f).sum = (l.map f).sum := by
  induction l with
  | nil => rfl
  | cons a t ih =>
    have iht := ih (fun x hx => h x (List.mem_cons_of_mem a hx))
    by_cases hp : p a = true
    · rw [List.filter_cons_of_pos hp, List.map_cons, List.sum_cons, List.map_cons,
        List.sum_cons, iht]
    · have hp' : p a = false := by simpa using hp
      rw [List.filter_cons_of_neg hp, iht, List.map_cons, List.sum_cons,
        h a (List.mem_cons_self a t) hp', zero_add]

theorem sum_telescope (D : Nat → Int) (n : Nat) :
    ((List.range n).map (fun r => D (r + 1) - D r)).sum = D n - D 0 := by
  induction n with
  | zero => simp
  | succ k ih =>
    rw [List.sum_range_succ, ih]
    ring

theorem total_size_world (g : Nat) (counts : List Nat) (rank : Nat) (hg : 0 < g)
    (hdiv : g ∣ counts.length) (hr : rank < counts.length) :
    PersistentPartition.get_total_size (PersistentPartition.world g counts) rank =
      some ((gkoGlobalIndex.mk counts).offset counts.length) := by
  unfold PersistentPartition.get_total_size
  rw [device_partition_world g counts rank hg hdiv hr]
  simp only [Option.map_some', Partition.get_size, List.length_map, List.length_range,
    Nat.add_sub_cancel]
  rw [device_bounds_getD g counts counts.length (le_refl _),
    ceil_group_leader g counts.length hg (Nat.mod_eq_zero_of_dvd hdiv)]

theorem sum_host_sizes_world (g : Int) (counts : List Nat) :
    ((PersistentPartition.world g counts).map PersistentPartition.get_local_host_size).sum =
      (gkoGlobalIndex.mk counts).offset counts.length := by
  have h := sum_counts_range counts 0 counts.length
  simp only [Nat.zero_add, offset_zero, sub_zero] at h
  rw [← h, PersistentPartition.world, List.map_map]
  rfl

/-- C8 (amended): for `g > 1` dividing the number of processes, the device-local sizes of
the group leaders sum to `get_total_size()`, which is the sum of every process's
host-local row count. -/
theorem C8_leaders_device_sizes_sum_to_total (g : Nat) (counts : List Nat) (rank : Nat)
    (hg : 1 < g) (hdiv : g ∣ counts.length) (hr : rank < counts.length) :
    leaders_device_sizes_sum_to_total g counts rank := by
  have hg0 : 0 < g := by omega
  have hsizes : (leader_ranks g counts.length).map (fun r =>
      PersistentPartition.get_local_device_size (PersistentPartition.world g counts) r) =
      (leader_ranks g counts.length).map (fun r => some
        ((gkoGlobalIndex.mk counts).offset (g * ((r + 1 + g - 1) / g)) -
          (gkoGlobalIndex.mk counts).offset (g * ((r + g - 1) / g)))) := by
    apply List.map_congr_left
    intro r hmem
    have hr' : r < counts.length := List.mem_range.mp (List.mem_filter.mp hmem).1
    rw [local_device_size_world g counts r hg0 hdiv hr', ceil_group_succ g r hg0]
  refine ⟨(leader_ranks g counts.length).map (fun r =>
      (gkoGlobalIndex.mk counts).offset (g * ((r + 1 + g - 1) / g)) -
        (gkoGlobalIndex.mk counts).offset (g * ((r + g - 1) / g))),
    (gkoGlobalIndex.mk counts).offset counts.length, ?_,
    total_size_world g counts rank hg0 hdiv hr, ?_, (sum_host_sizes_world g counts).symm⟩
  · rw [hsizes, all_some_map_some]
  · unfold leader_ranks
    rw [sum_filter_of_zero _ _ _ (by
      intro r _ hp
      have hnl : r % g ≠ 0 := by simpa using hp
      rw [ceil_group_succ g r hg0, ceil_group_non_leader g r hg0 hnl, sub_self]),
      sum_telescope (fun i => (gkoGlobalIndex.mk counts).offset (g * ((i + g - 1) / g))),
      ceil_group_leader g counts.length hg0 (Nat.mod_eq_zero_of_dvd hdiv),
      ceil_group_zero g hg0, offset_zero, sub_zero]

/-- Witness for C8: four processes with 3, 4, 5 and 6 rows, `g = 2`. -/
theorem C8_leaders_device_sizes_sum_to_total_witness :
    leaders_device_sizes_sum_to_total 2 [3, 4, 5, 6] 1 :=
  C8_leaders_device_sizes_sum_to_total 2 [3, 4, 5, 6] 1 (by decide) (by decide) (by decide)

/-- C8 as stated fails: with three processes and `g = 2` no device partition is built
(rank 2 indexes the range bounds out of range), so `get_total_size()` has no value. -/
theorem C8_counterexample :
    PersistentPartition.get_total_size (PersistentPartition.world 2 [1, 1, 1]) 0 = none ∧
    ¬ leaders_device_sizes_sum_to_total 2 [1, 1, 1] 0 := by
  have h : PersistentPartition.get_total_size (PersistentPartition.world 2 [1, 1, 1]) 0 =
      none := by decide
  refine ⟨h, ?_⟩
  rintro ⟨sizes, total, _, ht, _⟩
  cases h.symm.trans ht

theorem length_filter_range_eq_count (p : Nat → Prop) [DecidablePred p] (n : Nat) :
    ((List.range n).filter (fun r => decide (p r))).length = Nat.count p n := by
  induction n with
  | zero => rfl
  | succ k ih =>
    rw [List.range_succ, List.filter_append, List.length_append, ih, Nat.count_succ]
    by_cases h : p k <;> simp [h]

theorem length_leader_ranks (g N : Nat) (hg : 0 < g) (hdiv : g ∣ N) :
    (leader_ranks g N).length = N / g := by
  have h := Nat.count_modEq_card N hg 0
  rw [Nat.mod_eq_zero_of_dvd hdiv, if_neg (Nat.not_lt_zero _), Nat.add_zero] at h
  rw [← h, ← length_filter_range_eq_count]
  unfold leader_ranks
  congr 2

/-- C9 (amended): for `N` processes and `g > 1` dividing `N`, the device partition built
by `init` has `N` parts, one per process; the part of every group leader `r` is
`[offset r, offset (r + g))`, the rows of the `g` processes of its group, and its size
is the sum of their row counts; the parts of the processes that are not group leaders
are empty, and there are `N / g` group leaders. With four processes and `g = 2` the
device partition has 4 parts with bounds `[0, n0+n1, n0+n1, total, total]`. -/
theorem C9_device_partition_parts (g : Nat) (counts : List Nat) (rank : Nat)
    (hg : 1 < g) (hdiv : g ∣ counts.length) (hr : rank < counts.length) :
    (∃ D, PersistentPartition.get_device_partition (PersistentPartition.world g counts) rank =
        some D ∧
      D.get_num_parts = counts.length ∧
      (∀ r, r < counts.length → r % g = 0 →
        D.get_range_bounds.getD r 0 = (gkoGlobalIndex.mk counts).offset r ∧
        D.get_range_bounds.getD (r + 1) 0 = (gkoGlobalIndex.mk counts).offset (r + g) ∧
        (∀ x : Int, D.part_has_row r x ↔
          ∃ q ∈ group_members (PersistentPartition.world g counts) r g, q.owns_row x) ∧
        D.get_part_size r = ((group_members (PersistentPartition.world g counts) r g).map
          PersistentPartition.get_local_host_size).sum) ∧
      (∀ r, r < counts.length → r % g ≠ 0 → D.get_part_size r = 0)) ∧
    (leader_ranks g counts.length).length = counts.length / g ∧
    (∀ n0 n1 n2 n3 k : Nat, k < 4 →
      PersistentPartition.get_device_partition (PersistentPartition.world 2 [n0, n1, n2, n3]) k =
        some ⟨[0, (n0 : Int) + n1, (n0 : Int) + n1, (n0 : Int) + n1 + n2 + n3,
          (n0 : Int) + n1 + n2 + n3]⟩) := by
  have hg0 : 0 < g := by omega
  refine ⟨⟨_, device_partition_world g counts rank hg0 hdiv hr, ?_, ?_, ?_⟩,
    length_leader_ranks g counts.length hg0 hdiv, ?_⟩
  · simp [Partition.get_num_parts]
  · intro r hr' hlead
    have hle := group_end_le g counts.length r hdiv hr'
    have hrg : g * (r / g) = r := by
      have := Nat.div_add_mod r g
      omega
    have hmem := group_members_world g counts r g (by omega)
    have hb0 : (Partition.mk ((List.range (counts.length + 1)).map
        (fun i => (gkoGlobalIndex.mk counts).offset (g * ((i + g - 1) / g))))).range_bounds.getD
        r 0 = (gkoGlobalIndex.mk counts).offset r := by
      rw [device_bounds_getD g counts r (by omega), ceil_group_leader g r hg0 hlead]
    have hb1 : (Partition.mk ((List.range (counts.length + 1)).map
        (fun i => (gkoGlobalIndex.mk counts).offset (g * ((i + g - 1) / g))))).range_bounds.getD
        (r + 1) 0 = (gkoGlobalIndex.mk counts).offset (r + g) := by
      rw [device_bounds_getD g counts (r + 1) (by omega), ceil_group_succ g r hg0, hrg]
    refine ⟨hb0, hb1, ?_, ?_⟩
    · intro x
      simp only [Partition.part_has_row, hb0, hb1, hmem, List.mem_map, List.mem_range,
        PersistentPartition.owns_row]
      constructor
      · intro ⟨h1, h2⟩
        obtain ⟨i, hi, h3, h4⟩ := interval_cover counts r g x h1 h2
        exact ⟨_, ⟨i, hi, rfl⟩, h3, h4⟩
      · rintro ⟨q, ⟨i, hi, rfl⟩, h3, h4⟩
        simp only at h3 h4
        rw [← offset_succ] at h4
        have m1 := offset_mono counts (Nat.le_add_right r i)
        have m2 := offset_mono counts (by omega : r + i + 1 ≤ r + g)
        constructor <;> omega
    · simp only [Partition.get_part_size, hb0, hb1, hmem, List.map_map]
      rw [← sum_counts_range counts r g]
      rfl
  · intro r hr' hnl
    simp only [Partition.get_part_size]
    rw [device_bounds_getD g counts (r + 1) (by omega), device_bounds_getD g counts r (by omega),
      ceil_group_succ g r hg0, ceil_group_non_leader g r hg0 hnl, sub_self]
  · intro n0 n1 n2 n3 k hk
    have h := device_partition_world 2 [n0, n1, n2, n3] k (by decide) ⟨2, rfl⟩ hk
    rw [show ((2 : Nat) : Int) = 2 from rfl] at h
    rw [h]
    simp [List.range_succ, gkoGlobalIndex.offset]
    omega

/-- Witness for C9: four processes with 3, 4, 5 and 6 rows, `g = 2`. -/
theorem C9_device_partition_parts_witness :
    (leader_ranks 2 [3, 4, 5, 6].length).length = [3, 4, 5, 6].length / 2 :=
  (C9_device_partition_parts 2 [3, 4, 5, 6] 0 (by decide) (by decide) (by decide)).2.1

/-- C9 as stated fails: with four processes and `g = 2` the device partition has the
bounds `[0, 2, 2, 4, 4]`, that is 4 parts, not `4 / 2 = 2`. -/
theorem C9_counterexample :
    PersistentPartition.get_device_partition (PersistentPartition.world 2 [1, 1, 1, 1]) 0 =
      some ⟨[0, 2, 2, 4, 4]⟩ ∧
    (Partition.mk [0, 2, 2, 4, 4]).get_num_parts = 4 ∧
    ¬ device_parts_one_per_accelerator 2 [1, 1, 1, 1] 0 := by
  have h : PersistentPartition.get_device_partition (PersistentPartition.world 2 [1, 1, 1, 1]) 0 =
      some ⟨[0, 2, 2, 4, 4]⟩ := by decide
  refine ⟨h, by decide, ?_⟩
  rintro ⟨D, hD, hn⟩
  have hD' : D = ⟨[0, 2, 2, 4, 4]⟩ := Option.some.inj (hD.symm.trans h)
  subst hD'
  revert hn
  decide

theorem ceil_group_mono (g : Nat) {i j : Nat} (h : i ≤ j) :
    g * ((i + g - 1) / g) ≤ g * ((j + g - 1) / g) :=
  Nat.mul_le_mul_left g (Nat.div_le_div_right (by omega))

theorem non_decreasing_map_range (D : Nat → Int) (n : Nat) (h : ∀ i, D i ≤ D (i + 1)) :
    non_decreasing ((List.range n).map D) := by
  intro i hi
  rw [List.length_map, List.length_range] at hi
  rw [List.getD_eq_getElem _ _ (by simp; omega), List.getD_eq_getElem _ _ (by simp; omega)]
  simpa using h i

/-- C10 (amended): for `g >= 1` dividing the number of processes, the boundaries of the
host partition and of the device partition never decrease, the host row range of every
process `r` lies in the device part of its group leader `g * (r / g)`, and when that
host range is not empty it lies in no other device part. -/
theorem C10_boundaries_monotone_and_nested (g : Nat) (counts : List Nat) (rank : Nat)
    (hg : 0 < g) (hdiv : g ∣ counts.length) (hr : rank < counts.length) :
    ∃ H D,
      PersistentPartition.get_host_partition (PersistentPartition.world g counts) = some H ∧
      PersistentPartition.get_device_partition (PersistentPartition.world g counts) rank =
        some D ∧
      non_decreasing H.range_bounds ∧ non_decreasing D.range_bounds ∧
      ∀ r p, (PersistentPartition.world g counts)[r]? = some p →
        host_range_in_part D p (g * (r / g)) ∧
        (0 < p.elements_ → ∀ k, host_range_in_part D p k → k = g * (r / g)) := by
  refine ⟨_, _, host_partition_world g counts (by omega),
    device_partition_world g counts rank hg hdiv hr, ?_, ?_, ?_⟩
  · exact non_decreasing_map_range _ _ (fun i => offset_mono counts (Nat.le_succ i))
  · exact non_decreasing_map_range _ _
      (fun i => offset_mono counts (ceil_group_mono g (Nat.le_succ i)))
  · intro r p hp
    have hr' : r < counts.length := by
      by_contra hcon
      rw [List.getElem?_eq_none (by rw [world_length]; omega)] at hp
      cases hp
    have hpe : p = ⟨g, (gkoGlobalIndex.mk counts).offset r, ((counts.getD r 0 : Nat) : Int)⟩ :=
      Option.some.inj (hp.symm.trans (world_getElem? g counts r hr'))
    subst hpe
    have hL : g * (r / g) ≤ r := Nat.mul_div_le r g
    have hLmod : (g * (r / g)) % g = 0 := Nat.mul_mod_right g (r / g)
    have hLdiv : g * (g * (r / g) / g) = g * (r / g) := by
      rw [Nat.mul_div_cancel_left _ hg]
    have hend := group_end_le g counts.length r hdiv hr'
    have hrlt : r + 1 ≤ g * (r / g) + g := by
      have h1 := Nat.div_add_mod r g
      have h2 := Nat.mod_lt r hg
      omega
    have hlo : ((List.range (counts.length + 1)).map
        (fun i => (gkoGlobalIndex.mk counts).offset (g * ((i + g - 1) / g)))).getD
          (g * (r / g)) 0 = (gkoGlobalIndex.mk counts).offset (g * (r / g)) := by
      rw [device_bounds_getD g counts _ (by omega), ceil_group_leader g _ hg hLmod]
    have hhi : ((List.range (counts.length + 1)).map
        (fun i => (gkoGlobalIndex.mk counts).offset (g * ((i + g - 1) / g)))).getD
          (g * (r / g) + 1) 0 = (gkoGlobalIndex.mk counts).offset (g * (r / g) + g) := by
      rw [device_bounds_getD g counts _ (by omega), ceil_group_succ g _ hg, hLdiv]
    have m1 := offset_mono counts hL
    have m2 := offset_mono counts hrlt
    have hs := offset_succ counts r
    have hin : host_range_in_part ⟨(List.range (counts.length + 1)).map
        (fun i => (gkoGlobalIndex.mk counts).offset (g * ((i + g - 1) / g)))⟩
        ⟨g, (gkoGlobalIndex.mk counts).offset r, ((counts.getD r 0 : Nat) : Int)⟩
        (g * (r / g)) := by
      refine ⟨by simp [Partition.get_num_parts]; omega, ?_⟩
      intro x hx
      simp only [PersistentPartition.owns_row] at hx
      simp only [Partition.part_has_row, hlo, hhi]
      omega
    refine ⟨hin, ?_⟩
    intro hpos k hk
    simp only at hpos
    obtain ⟨hkN, hkx⟩ := hk
    have hkN' : k < counts.length := by simpa [Partition.get_num_parts] using hkN
    have hx0 : PersistentPartition.owns_row
        ⟨g, (gkoGlobalIndex.mk counts).offset r, ((counts.getD r 0 : Nat) : Int)⟩
        ((gkoGlobalIndex.mk counts).offset r) := by
      simp only [PersistentPartition.owns_row]
      omega
    have hk1 := hkx _ hx0
    simp only [Partition.part_has_row] at hk1
    rw [device_bounds_getD g counts k (by omega),
      device_bounds_getD g counts (k + 1) (by omega)] at hk1
    have h1 := hin.2 _ hx0
    simp only [Partition.part_has_row, hlo, hhi] at h1
    rcases Nat.lt_trichotomy k (g * (r / g)) with hlt | heq | hgt
    · exfalso
      have hm := offset_mono counts (ceil_group_mono g (by omega : k + 1 ≤ g * (r / g)))
      rw [ceil_group_leader g _ hg hLmod] at hm
      omega
    · exact heq
    · exfalso
      have hm := offset_mono counts (ceil_group_mono g (by omega : g * (r / g) + 1 ≤ k))
      rw [ceil_group_succ g _ hg, hLdiv] at hm
      omega

/-- Witness for C10: four processes with 3, 0, 5 and 6 rows, `g = 2`. -/
theorem C10_boundaries_monotone_and_nested_witness :
    ∃ H D,
      PersistentPartition.get_host_partition
        (PersistentPartition.world (2 : Nat) [3, 0, 5, 6]) = some H ∧
      PersistentPartition.get_device_partition
        (PersistentPartition.world (2 : Nat) [3, 0, 5, 6]) 1 = some D ∧
      non_decreasing H.range_bounds ∧ non_decreasing D.range_bounds ∧
      ∀ r p, (PersistentPartition.world (2 : Nat) [3, 0, 5, 6])[r]? = some p →
        host_range_in_part D p (2 * (r / 2)) ∧
        (0 < p.elements_ → ∀ k, host_range_in_part D p k → k = 2 * (r / 2)) :=
  C10_boundaries_monotone_and_nested 2 [3, 0, 5, 6] 1 (by decide) (by decide) (by decide)

/-- C10 as stated fails: with two processes of one row each and `g = 2` the device
partition has the bounds `[0, 2, 2]`; boundaries 1 and 2 are equal, so the boundaries are
not strictly increasing. With three processes and `g = 2` no device partition is built at
all. With row counts 1, 0, 1 and `g = 1` the empty host range of process 1 lies in part 0
and in part 1 of the device partition. -/
theorem C10_counterexample :
    (PersistentPartition.get_device_partition (PersistentPartition.world 2 [1, 1]) 0 =
        some ⟨[0, 2, 2]⟩ ∧
      ¬ strictly_increasing [0, 2, 2] ∧
      ¬ boundaries_strict_and_nested 2 [1, 1] 0) ∧
    (PersistentPartition.get_device_partition (PersistentPartition.world 2 [1, 1, 1]) 0 = none ∧
      ¬ boundaries_strict_and_nested 2 [1, 1, 1] 0) ∧
    (PersistentPartition.get_device_partition (PersistentPartition.world 1 [1, 0, 1]) 0 =
        some ⟨[0, 1, 1, 2]⟩ ∧
      (PersistentPartition.world 1 [1, 0, 1])[1]? = some ⟨1, 1, 0⟩ ∧
      host_range_in_part ⟨[0, 1, 1, 2]⟩ ⟨1, 1, 0⟩ 0 ∧
      host_range_in_part ⟨[0, 1, 1, 2]⟩ ⟨1, 1, 0⟩ 1) := by
  have h : PersistentPartition.get_device_partition (PersistentPartition.world 2 [1, 1]) 0 =
      some ⟨[0, 2, 2]⟩ := by decide
  have hns : ¬ strictly_increasing [0, 2, 2] := by
    intro hs
    have := hs 1 (by decide)
    revert this
    decide
  have h3 : PersistentPartition.get_device_partition (PersistentPartition.world 2 [1, 1, 1]) 0 =
      none := by decide
  refine ⟨⟨h, hns, ?_⟩, ⟨h3, ?_⟩, by decide, by decide, ?_, ?_⟩
  · rintro ⟨H, D, _, hD, _, hsD, _⟩
    have hD' : D = ⟨[0, 2, 2]⟩ := Option.some.inj (hD.symm.trans h)
    subst hD'
    exact hns hsD
  · rintro ⟨H, D, _, hD, _⟩
    cases h3.symm.trans hD
  · refine ⟨by decide, ?_⟩
    intro x hx
    simp only [PersistentPartition.owns_row] at hx
    omega
  · refine ⟨by decide, ?_⟩
    intro x hx
    simp only [PersistentPartition.owns_row] at hx
    omega


/-! ## Helper lemmas: matrix functor -/

theorem generate_ok_iff (f : MatrixInitFunctor) (on_device : Bool) :
    (∃ m, f.generate_dist_mtx_with_inner_type on_device = .ok m) ↔
      f.matrix_format_ ∈ ["Csr", "Ell", "Coo"] := by
  unfold MatrixInitFunctor.generate_dist_mtx_with_inner_type
  by_cases h1 : f.matrix_format_ = "Csr"
  · simp [h1]
  · by_cases h2 : f.matrix_format_ = "Ell"
    · simp [h2]
    · by_cases h3 : f.matrix_format_ = "Coo"
      · simp [h3]
      · simp [h1, h2, h3]

theorem generate_recognized (f : MatrixInitFunctor) (on_device : Bool)
    (h : f.matrix_format_ ∈ ["Csr", "Ell", "Coo"]) :
    f.generate_dist_mtx_with_inner_type on_device =
      .ok ⟨f.matrix_format_, on_device, 0, [], [], [], [], [], []⟩ := by
  unfold MatrixInitFunctor.generate_dist_mtx_with_inner_type
  simp only [List.mem_cons, List.mem_singleton, List.not_mem_nil, or_false] at h
  rcases h with h | h | h
  · simp only [h, if_true]
  · simp only [h, if_neg (by decide : ¬ "Ell" = "Csr"), if_true]
  · simp only [h, if_neg (by decide : ¬ "Coo" = "Csr"), if_neg (by decide : ¬ "Coo" = "Ell"),
      if_true]

theorem generate_unrecognized (f : MatrixInitFunctor) (on_device : Bool)
    (h : f.matrix_format_ ∉ ["Csr", "Ell", "Coo"]) :
    f.generate_dist_mtx_with_inner_type on_device =
      .fatal ("Matrix format " ++ f.matrix_format_ ++ " not supported ") := by
  unfold MatrixInitFunctor.generate_dist_mtx_with_inner_type
  simp only [List.mem_cons, List.mem_singleton, List.not_mem_nil, or_false, not_or] at h
  simp only [h.1, h.2.1, h.2.2, if_false]

theorem init_unrecognized (f : MatrixInitFunctor) (R : repartitioner)
    (comm : List PersistentPartition) (rank : Nat) (debug : Bool) (db : objectRegistry)
    (h : f.matrix_format_ ∉ ["Csr", "Ell", "Coo"]) :
    (f.init R comm rank debug db).outcome =
      match PersistentPartition.get_total_size comm rank with
      | none => .undefined
      | some _ => .fatal ("Matrix format " ++ f.matrix_format_ ++ " not supported ") := by
  unfold MatrixInitFunctor.init
  cases PersistentPartition.get_total_size comm rank with
  | none => rfl
  | some n => simp only [generate_unrecognized f false h]

/-! ## Claims on the matrix functor -/

/-- C11: `generate_dist_mtx_with_inner_type` returns a matrix exactly when the configured
format is "Csr", "Ell" or "Coo"; for every other name, "Hybrid" and "csr" included, it
raises the fatal error that names the format, and `init` returns no matrix (it raises
that fatal error as soon as the partition has given the global size). -/
theorem C11_unrecognized_format_is_fatal (f : MatrixInitFunctor) (on_device : Bool)
    (R : repartitioner) (comm : List PersistentPartition) (rank : Nat) (debug : Bool)
    (db : objectRegistry) :
    ((∃ m, f.generate_dist_mtx_with_inner_type on_device = .ok m) ↔
      f.matrix_format_ ∈ ["Csr", "Ell", "Coo"]) ∧
    (f.matrix_format_ ∉ ["Csr", "Ell", "Coo"] →
      f.generate_dist_mtx_with_inner_type on_device =
        .fatal ("Matrix format " ++ f.matrix_format_ ++ " not supported ") ∧
      (∀ m, (f.init R comm rank debug db).outcome ≠ .ok m) ∧
      (∀ n, PersistentPartition.get_total_size comm rank = some n →
        (f.init R comm rank debug db).outcome =
          .fatal ("Matrix format " ++ f.matrix_format_ ++ " not supported "))) ∧
    ({ f with matrix_format_ := "Hybrid" } : MatrixInitFunctor).generate_dist_mtx_with_inner_type
        on_device = .fatal "Matrix format Hybrid not supported " ∧
    ({ f with matrix_format_ := "csr" } : MatrixInitFunctor).generate_dist_mtx_with_inner_type
        on_device = .fatal "Matrix format csr not supported " := by
  refine ⟨generate_ok_iff f on_device, ?_, ?_, ?_⟩
  · intro h
    refine ⟨generate_unrecognized f on_device h, ?_, ?_⟩
    · intro m hm
      rw [init_unrecognized f R comm rank debug db h] at hm
      cases hts : PersistentPartition.get_total_size comm rank <;> rw [hts] at hm <;> cases hm
    · intro n hn
      rw [init_unrecognized f R comm rank debug db h, hn]
  · exact generate_unrecognized _ on_device
      (show "Hybrid" ∉ ["Csr", "Ell", "Coo"] by decide)
  · exact generate_unrecognized _ on_device
      (show "csr" ∉ ["Csr", "Ell", "Coo"] by decide)

/-- Witness for C11: the format "Hybrid" on one process with three rows. -/
theorem C11_unrecognized_format_is_fatal_witness :
    ∀ m, ((⟨⟨1, 0, 3⟩, ⟨"c", [0, 1, 2], false, false⟩, ⟨"r", [0, 1, 2], false, false⟩,
        ⟨"v", [5, 6, 7], true, false⟩, ⟨"nc", [], false, false⟩, ⟨"nr", [], false, false⟩,
        ⟨"nv", [], true, false⟩, "Hybrid", false, 0, "p"⟩ : MatrixInitFunctor).init
      ⟨fun m => (m, ⟨[], [], [], [], [], [], []⟩), fun _ _ c nc _ => (c, nc)⟩
      (PersistentPartition.world 1 [3]) 0 false []).outcome ≠ .ok m :=
  ((C11_unrecognized_format_is_fatal _ true _ _ 0 false []).2.1 (by decide)).2.1

theorem write_through_ok (storage src : List Int) (h : src.length ≤ storage.length) :
    write_through true storage src = .ok (src ++ storage.drop src.length) := by
  unfold write_through
  by_cases hs : src = []
  · subst hs
    simp
  · simp [hs, h]

theorem write_through_idem (has_ptr : Bool) (storage src s1 : List Int)
    (h : write_through has_ptr storage src = .ok s1) :
    write_through has_ptr s1 src = .ok s1 := by
  unfold write_through at h ⊢
  by_cases hs : src = []
  · simp only [hs, if_true]
  · simp only [hs, if_false] at h ⊢
    cases has_ptr with
    | false =>
      simp only [if_true] at h
      cases h
    | true =>
      by_cases hl : src.length ≤ storage.length
      · simp only [hl, if_true, Bool.true_eq_false, if_false, Outcome.ok.injEq] at h
        subst h
        simp
      · simp only [hl, if_false, Bool.true_eq_false] at h
        cases h

theorem sets_value_ptr_iff (f : MatrixInitFunctor) :
    f.sets_value_ptr = true ↔ f.matrix_format_ ∈ ["Csr", "Ell", "Coo"] := by
  simp [MatrixInitFunctor.sets_value_ptr]

/-- C13: for `ranks_per_gpu = 1`, `regenerate = false` and a recognized format, `update`
on a persistent matrix of the configured inner type, whose value arrays hold the
coefficient arrays, writes the local coefficients over the local value array and the
non-local coefficients over the non-local value array, element for element, and leaves
the row and column index arrays, the dimension, the inner type, the executor and the
registry as they were. -/
theorem C13_update_overwrites_values_only (f : MatrixInitFunctor) (R : repartitioner)
    (comm : List PersistentPartition) (rank : Nat) (debug : Bool) (db : objectRegistry)
    (m : dist_mtx) (hg : f.partition_.get_ranks_per_gpu = 1) (hr : f.regenerate_ = false)
    (hfmt : f.matrix_format_ ∈ ["Csr", "Ell", "Coo"]) (hm : m.matrix_format = f.matrix_format_)
    (hl : f.coeffs_.data.length ≤ m.local_values.length)
    (hnl : f.non_local_coeffs_.data.length ≤ m.non_local_values.length) :
    ∃ m', (f.update R comm rank debug db m).outcome = .ok m' ∧
      m'.local_values = f.coeffs_.data ++ m.local_values.drop f.coeffs_.data.length ∧
      m'.non_local_values =
        f.non_local_coeffs_.data ++ m.non_local_values.drop f.non_local_coeffs_.data.length ∧
      (∀ i, i < f.coeffs_.data.length → m'.local_values.getD i 0 = f.coeffs_.data.getD i 0) ∧
      (∀ i, i < f.non_local_coeffs_.data.length →
        m'.non_local_values.getD i 0 = f.non_local_coeffs_.data.getD i 0) ∧
      (f.coeffs_.data.length = m.local_values.length → m'.local_values = f.coeffs_.data) ∧
      (f.non_local_coeffs_.data.length = m.non_local_values.length →
        m'.non_local_values = f.non_local_coeffs_.data) ∧
      m'.local_values.length = m.local_values.length ∧
      m'.non_local_values.length = m.non_local_values.length ∧
      m'.local_rows = m.local_rows ∧ m'.local_cols = m.local_cols ∧
      m'.non_local_rows = m.non_local_rows ∧ m'.non_local_cols = m.non_local_cols ∧
      m'.num_rows = m.num_rows ∧ m'.matrix_format = m.matrix_format ∧
      m'.on_device = m.on_device ∧
      (f.update R comm rank debug db m).db = db ∧
      (f.update R comm rank debug db m).trace = [] := by
  have hp : f.sets_value_ptr = true := (sets_value_ptr_iff f).mpr hfmt
  have hu : f.update R comm rank debug db m =
      ⟨.ok { m with
          local_values := f.coeffs_.data ++ m.local_values.drop f.coeffs_.data.length,
          non_local_values := f.non_local_coeffs_.data ++
            m.non_local_values.drop f.non_local_coeffs_.data.length }, db, []⟩ := by
    unfold MatrixInitFunctor.update
    simp only [hr, hm, hg, hp, write_through_ok _ _ hl, write_through_ok _ _ hnl]
    simp
  rw [hu]
  refine ⟨_, rfl, rfl, rfl, ?_, ?_, ?_, ?_, ?_, ?_, rfl, rfl, rfl, rfl, rfl, rfl, rfl, rfl, rfl⟩
  · intro i hi
    simp only [List.getD_eq_getElem?_getD, List.getElem?_append_left hi]
  · intro i hi
    simp only [List.getD_eq_getElem?_getD, List.getElem?_append_left hi]
  · intro h
    simp only [h, List.drop_length, List.append_nil]
  · intro h
    simp only [h, List.drop_length, List.append_nil]
  · simp only [List.length_append, List.length_drop]
    omega
  · simp only [List.length_append, List.length_drop]
    omega

/-- Witness for C13: one process, three local coefficients, format "Coo". -/
theorem C13_update_overwrites_values_only_witness :
    ∃ m', ((⟨⟨1, 0, 3⟩, ⟨"c", [0, 1, 2], false, false⟩, ⟨"r", [0, 1, 2], false, false⟩,
        ⟨"v", [5, 6, 7], true, false⟩, ⟨"nc", [], false, false⟩, ⟨"nr", [], false, false⟩,
        ⟨"nv", [], true, false⟩, "Coo", false, 0, "p"⟩ : MatrixInitFunctor).update
      ⟨fun m => (m, ⟨[], [], [], [], [], [], []⟩), fun _ _ c nc _ => (c, nc)⟩
      (PersistentPartition.world 1 [3]) 0 false []
      ⟨"Coo", true, 3, [0, 1, 2], [0, 1, 2], [1, 1, 1], [], [], []⟩).outcome = .ok m' ∧
      m'.local_values = [5, 6, 7] := by
  obtain ⟨m', h1, h2, _⟩ := C13_update_overwrites_values_only
    (⟨⟨1, 0, 3⟩, ⟨"c", [0, 1, 2], false, false⟩, ⟨"r", [0, 1, 2], false, false⟩,
        ⟨"v", [5, 6, 7], true, false⟩, ⟨"nc", [], false, false⟩, ⟨"nr", [], false, false⟩,
        ⟨"nv", [], true, false⟩, "Coo", false, 0, "p"⟩ : MatrixInitFunctor)
    ⟨fun m => (m, ⟨[], [], [], [], [], [], []⟩), fun _ _ c nc _ => (c, nc)⟩
    (PersistentPartition.world 1 [3]) 0 false []
    ⟨"Coo", true, 3, [0, 1, 2], [0, 1, 2], [1, 1, 1], [], [], []⟩
    rfl rfl (by decide) rfl (by decide) (by decide)
  exact ⟨m', h1, h2⟩

theorem find_store_self (db : objectRegistry) (n : String) (d : List Int) :
    (db.store n d).find n = some d := by
  induction db with
  | nil => simp [objectRegistry.store, objectRegistry.find]
  | cons kv t ih =>
    obtain ⟨k, v⟩ := kv
    by_cases h : k = n
    · simp [objectRegistry.store, objectRegistry.find, h]
    · simp [objectRegistry.store, objectRegistry.find, h, ih]

theorem find_store_ne (db : objectRegistry) (n k : String) (d : List Int) (hk : k ≠ n) :
    (db.store n d).find k = db.find k := by
  induction db with
  | nil => simp [objectRegistry.store, objectRegistry.find, Ne.symm hk]
  | cons kv t ih =>
    obtain ⟨k', v⟩ := kv
    by_cases h : k' = n
    · subst h
      simp [objectRegistry.store, objectRegistry.find, Ne.symm hk]
    · by_cases h2 : k' = k
      · subst h2
        simp [objectRegistry.store, objectRegistry.find, hk]
      · simp [objectRegistry.store, objectRegistry.find, h, h2, ih]

theorem register_of_found (db : objectRegistry) (n : String) (d v : List Int)
    (h : db.find n = some v) : db.register n d = db := by
  simp [objectRegistry.register, h]

theorem find_register_self (db : objectRegistry) (n : String) (d : List Int) :
    ∃ v, (db.register n d).find n = some v := by
  unfold objectRegistry.register
  cases h : db.find n with
  | some v => exact ⟨v, h⟩
  | none => exact ⟨d, find_store_self db n d⟩

theorem find_register_of_found (db : objectRegistry) (n k : String) (d v : List Int)
    (h : db.find k = some v) : (db.register n d).find k = some v := by
  unfold objectRegistry.register
  cases hn : db.find n with
  | some w => exact h
  | none =>
    have hne : k ≠ n := by
      intro heq
      rw [heq, hn] at h
      cases h
    simp only [find_store_ne db n k d hne, h]

theorem find_register_all (plan : ScatterPlan) (db : objectRegistry) (n : String)
    (hn : n ∈ scatter_plan_names) : ∃ v, (plan.register_all db).find n = some v := by
  unfold ScatterPlan.register_all
  simp only [scatter_plan_names, List.mem_cons, List.mem_singleton, List.not_mem_nil,
    or_false] at hn
  rcases hn with h | h | h | h | h | h | h <;> subst h
  · obtain ⟨v, hv⟩ := find_register_self db "local_scatter_map" plan.local_scatter_map
    exact ⟨v, find_register_of_found _ _ _ _ _ (find_register_of_found _ _ _ _ _
      (find_register_of_found _ _ _ _ _ (find_register_of_found _ _ _ _ _
      (find_register_of_found _ _ _ _ _ (find_register_of_found _ _ _ _ _ hv)))))⟩
  · obtain ⟨v, hv⟩ := find_register_self (db.register "local_scatter_map" plan.local_scatter_map)
      "non_local_scatter_map" plan.non_local_scatter_map
    exact ⟨v, find_register_of_found _ _ _ _ _ (find_register_of_found _ _ _ _ _
      (find_register_of_found _ _ _ _ _ (find_register_of_found _ _ _ _ _
      (find_register_of_found _ _ _ _ _ hv))))⟩
  · obtain ⟨v, hv⟩ := find_register_self ((db.register "local_scatter_map"
      plan.local_scatter_map).register "non_local_scatter_map" plan.non_local_scatter_map)
      "sorting_idx" plan.sorting_idx
    exact ⟨v, find_register_of_found _ _ _ _ _ (find_register_of_found _ _ _ _ _
      (find_register_of_found _ _ _ _ _ (find_register_of_found _ _ _ _ _ hv)))⟩
  · obtain ⟨v, hv⟩ := find_register_self (((db.register "local_scatter_map"
      plan.local_scatter_map).register "non_local_scatter_map"
      plan.non_local_scatter_map).register "sorting_idx" plan.sorting_idx)
      "send_sizes" plan.send_sizes
    exact ⟨v, find_register_of_found _ _ _ _ _ (find_register_of_found _ _ _ _ _
      (find_register_of_found _ _ _ _ _ hv))⟩
  · obtain ⟨v, hv⟩ := find_register_self ((((db.register "local_scatter_map"
      plan.local_scatter_map).register "non_local_scatter_map"
      plan.non_local_scatter_map).register "sorting_idx" plan.sorting_idx).register
      "send_sizes" plan.send_sizes) "send_offs" plan.send_offs
    exact ⟨v, find_register_of_found _ _ _ _ _ (find_register_of_found _ _ _ _ _ hv)⟩
  · obtain ⟨v, hv⟩ := find_register_self (((((db.register "local_scatter_map"
      plan.local_scatter_map).register "non_local_scatter_map"
      plan.non_local_scatter_map).register "sorting_idx" plan.sorting_idx).register
      "send_sizes" plan.send_sizes).register "send_offs" plan.send_offs)
      "recv_sizes" plan.recv_sizes
    exact ⟨v, find_register_of_found _ _ _ _ _ hv⟩
  · exact find_register_self _ _ _

theorem register_all_of_found (plan : ScatterPlan) (db : objectRegistry)
    (h : ∀ n ∈ scatter_plan_names, ∃ v, db.find n = some v) : plan.register_all db = db := by
  obtain ⟨v1, h1⟩ := h "local_scatter_map" (by decide)
  obtain ⟨v2, h2⟩ := h "non_local_scatter_map" (by decide)
  obtain ⟨v3, h3⟩ := h "sorting_idx" (by decide)
  obtain ⟨v4, h4⟩ := h "send_sizes" (by decide)
  obtain ⟨v5, h5⟩ := h "send_offs" (by decide)
  obtain ⟨v6, h6⟩ := h "recv_sizes" (by decide)
  obtain ⟨v7, h7⟩ := h "recv_offs" (by decide)
  unfold ScatterPlan.register_all
  rw [register_of_found db _ _ _ h1, register_of_found db _ _ _ h2,
    register_of_found db _ _ _ h3, register_of_found db _ _ _ h4,
    register_of_found db _ _ _ h5, register_of_found db _ _ _ h6,
    register_of_found db _ _ _ h7]

theorem register_all_idem (p q : ScatterPlan) (db : objectRegistry) :
    p.register_all (q.register_all db) = q.register_all db :=
  register_all_of_found p _ (fun n hn => find_register_all q db n hn)

theorem update_warm_g1 (f : MatrixInitFunctor) (R : repartitioner)
    (comm : List PersistentPartition) (rank : Nat) (debug : Bool) (db : objectRegistry)
    (m : dist_mtx) (hr : f.regenerate_ = false)
    (hc : ¬ (f.sets_value_ptr = true ∧ m.matrix_format ≠ f.matrix_format_))
    (hg : f.partition_.get_ranks_per_gpu = 1) :
    f.update R comm rank debug db m =
      match write_through f.sets_value_ptr m.local_values f.coeffs_.data,
        write_through f.sets_value_ptr m.non_local_values f.non_local_coeffs_.data with
      | .ok lv, .ok nlv => ⟨.ok { m with local_values := lv, non_local_values := nlv }, db, []⟩
      | _, _ => ⟨.undefined, db, []⟩ := by
  unfold MatrixInitFunctor.update
  simp only [hr, hc, hg, Bool.false_eq_true, if_false, ne_eq, not_true_eq_false]

theorem update_warm_repartitioned (f : MatrixInitFunctor) (R : repartitioner)
    (comm : List PersistentPartition) (rank : Nat) (debug : Bool) (db : objectRegistry)
    (m : dist_mtx) (hr : f.regenerate_ = false)
    (hc : ¬ (f.sets_value_ptr = true ∧ m.matrix_format ≠ f.matrix_format_))
    (hg : f.partition_.get_ranks_per_gpu ≠ 1) :
    f.update R comm rank debug db m =
      if (R.update_existing f.row_idxs_.data f.non_local_row_idxs_.data f.coeffs_.data
            f.non_local_coeffs_.data (ScatterPlan.lookup
              (ScatterPlan.empty.register_all db))).1.length =
          (ScatterPlan.lookup (ScatterPlan.empty.register_all db)).local_scatter_map.length ∧
        (R.update_existing f.row_idxs_.data f.non_local_row_idxs_.data f.coeffs_.data
            f.non_local_coeffs_.data (ScatterPlan.lookup
              (ScatterPlan.empty.register_all db))).2.length =
          (ScatterPlan.lookup (ScatterPlan.empty.register_all db)).non_local_scatter_map.length
      then
        match write_through f.sets_value_ptr m.local_values
            (R.update_existing f.row_idxs_.data f.non_local_row_idxs_.data f.coeffs_.data
              f.non_local_coeffs_.data (ScatterPlan.lookup
                (ScatterPlan.empty.register_all db))).1,
          write_through f.sets_value_ptr m.non_local_values
            (R.update_existing f.row_idxs_.data f.non_local_row_idxs_.data f.coeffs_.data
              f.non_local_coeffs_.data (ScatterPlan.lookup
                (ScatterPlan.empty.register_all db))).2 with
        | .ok lv, .ok nlv =>
          ⟨.ok { m with local_values := lv, non_local_values := nlv },
            ScatterPlan.empty.register_all db,
            scatter_plan_names.map Event.persistent_array ++ [Event.repartitioner_create]⟩
        | _, _ => ⟨.undefined, ScatterPlan.empty.register_all db,
            scatter_plan_names.map Event.persistent_array ++ [Event.repartitioner_create]⟩
      else ⟨.undefined, ScatterPlan.empty.register_all db,
            scatter_plan_names.map Event.persistent_array ++ [Event.repartitioner_create]⟩ := by
  unfold MatrixInitFunctor.update
  simp only [hr, hc, hg, Bool.false_eq_true, if_false, ne_eq, not_false_eq_true, if_true]

theorem write_pair_idem (has_ptr : Bool) (m m1 : dist_mtx) (s1 s2 : List Int)
    (db : objectRegistry) (tr : List Event)
    (h : (match write_through has_ptr m.local_values s1,
        write_through has_ptr m.non_local_values s2 with
      | .ok lv, .ok nlv =>
        (⟨.ok { m with local_values := lv, non_local_values := nlv }, db, tr⟩ : Run dist_mtx)
      | _, _ => ⟨.undefined, db, tr⟩).outcome = .ok m1) :
    m1.matrix_format = m.matrix_format ∧
    (match write_through has_ptr m1.local_values s1,
        write_through has_ptr m1.non_local_values s2 with
      | .ok lv, .ok nlv =>
        (⟨.ok { m1 with local_values := lv, non_local_values := nlv }, db, tr⟩ : Run dist_mtx)
      | _, _ => ⟨.undefined, db, tr⟩) = ⟨.ok m1, db, tr⟩ ∧
    (match write_through has_ptr m.local_values s1,
        write_through has_ptr m.non_local_values s2 with
      | .ok lv, .ok nlv =>
        (⟨.ok { m with local_values := lv, non_local_values := nlv }, db, tr⟩ : Run dist_mtx)
      | _, _ => ⟨.undefined, db, tr⟩).db = db := by
  cases h1 : write_through has_ptr m.local_values s1 with
  | ok lv =>
    cases h2 : write_through has_ptr m.non_local_values s2 with
    | ok nlv =>
      rw [h1, h2] at h
      simp only [Outcome.ok.injEq] at h
      subst h
      simp only [write_through_idem _ _ _ _ h1, write_through_idem _ _ _ _ h2, and_self]
    | fatal msg => rw [h1, h2] at h; cases h
    | undefined => rw [h1, h2] at h; cases h
  | fatal msg => rw [h1] at h; cases h
  | undefined => rw [h1] at h; cases h

/-- C14: with `regenerate = false`, whenever one application of `update` leaves the
persistent matrix `m1`, a second application with the same coefficient arrays leaves
`m1` again: the local and the non-local value arrays are the same as after one
application, and so is the registry. -/
theorem C14_update_idempotent (f : MatrixInitFunctor) (R : repartitioner)
    (comm : List PersistentPartition) (rank : Nat) (debug : Bool) (db : objectRegistry)
    (m m1 : dist_mtx) (hr : f.regenerate_ = false)
    (h1 : (f.update R comm rank debug db m).outcome = .ok m1) :
    ∃ m2, (f.update R comm rank debug (f.update R comm rank debug db m).db m1).outcome =
        .ok m2 ∧
      m2.local_values = m1.local_values ∧ m2.non_local_values = m1.non_local_values ∧
      m2 = m1 ∧
      (f.update R comm rank debug (f.update R comm rank debug db m).db m1).db =
        (f.update R comm rank debug db m).db := by
  by_cases hc : f.sets_value_ptr = true ∧ m.matrix_format ≠ f.matrix_format_
  · have hu : f.update R comm rank debug db m = ⟨.undefined, db, []⟩ := by
      unfold MatrixInitFunctor.update
      simp only [hr, hc, Bool.false_eq_true, if_false, ne_eq, not_false_eq_true, and_self,
        if_true]
    rw [hu] at h1
    cases h1
  · by_cases hg : f.partition_.get_ranks_per_gpu = 1
    · rw [update_warm_g1 f R comm rank debug db m hr hc hg] at h1 ⊢
      obtain ⟨hf, h2, h3⟩ := write_pair_idem _ _ _ _ _ _ _ h1
      have hc1 : ¬ (f.sets_value_ptr = true ∧ m1.matrix_format ≠ f.matrix_format_) := by
        rw [hf]; exact hc
      rw [h3, update_warm_g1 f R comm rank debug db m1 hr hc1 hg, h2]
      exact ⟨m1, rfl, rfl, rfl, rfl, rfl⟩
    · rw [update_warm_repartitioned f R comm rank debug db m hr hc hg] at h1 ⊢
      split at h1
      · rename_i hlen
        rw [if_pos hlen]
        obtain ⟨hf, h2, h3⟩ := write_pair_idem _ _ _ _ _ _ _ h1
        have hc1 : ¬ (f.sets_value_ptr = true ∧ m1.matrix_format ≠ f.matrix_format_) := by
          rw [hf]; exact hc
        rw [h3, update_warm_repartitioned f R comm rank debug _ m1 hr hc1 hg,
          register_all_idem, if_pos hlen, h2]
        exact ⟨m1, rfl, rfl, rfl, rfl, rfl⟩
      · cases h1

/-- Witness for C14: one process, three local coefficients, format "Coo". -/
theorem C14_update_idempotent_witness :
    ∃ m2, ((⟨⟨1, 0, 3⟩, ⟨"c", [0, 1, 2], false, false⟩, ⟨"r", [0, 1, 2], false, false⟩,
        ⟨"v", [5, 6, 7], true, false⟩, ⟨"nc", [], false, false⟩, ⟨"nr", [], false, false⟩,
        ⟨"nv", [], true, false⟩, "Coo", false, 0, "p"⟩ : MatrixInitFunctor).update
      ⟨fun m => (m, ⟨[], [], [], [], [], [], []⟩), fun _ _ c nc _ => (c, nc)⟩
      (PersistentPartition.world 1 [3]) 0 false
      ((⟨⟨1, 0, 3⟩, ⟨"c", [0, 1, 2], false, false⟩, ⟨"r", [0, 1, 2], false, false⟩,
        ⟨"v", [5, 6, 7], true, false⟩, ⟨"nc", [], false, false⟩, ⟨"nr", [], false, false⟩,
        ⟨"nv", [], true, false⟩, "Coo", false, 0, "p"⟩ : MatrixInitFunctor).update
      ⟨fun m => (m, ⟨[], [], [], [], [], [], []⟩), fun _ _ c nc _ => (c, nc)⟩
      (PersistentPartition.world 1 [3]) 0 false []
        ⟨"Coo", true, 3, [0, 1, 2], [0, 1, 2], [1, 1, 1], [], [], []⟩).db
      ⟨"Coo", true, 3, [0, 1, 2], [0, 1, 2], [5, 6, 7], [], [], []⟩).outcome = .ok m2 ∧
      m2.local_values = [5, 6, 7] := by
  obtain ⟨m2, h1, h2, _⟩ := C14_update_idempotent
    (⟨⟨1, 0, 3⟩, ⟨"c", [0, 1, 2], false, false⟩, ⟨"r", [0, 1, 2], false, false⟩,
        ⟨"v", [5, 6, 7], true, false⟩, ⟨"nc", [], false, false⟩, ⟨"nr", [], false, false⟩,
        ⟨"nv", [], true, false⟩, "Coo", false, 0, "p"⟩ : MatrixInitFunctor)
    ⟨fun m => (m, ⟨[], [], [], [], [], [], []⟩), fun _ _ c nc _ => (c, nc)⟩
    (PersistentPartition.world 1 [3]) 0 false []
    ⟨"Coo", true, 3, [0, 1, 2], [0, 1, 2], [1, 1, 1], [], [], []⟩
    ⟨"Coo", true, 3, [0, 1, 2], [0, 1, 2], [5, 6, 7], [], [], []⟩ rfl (by decide)
  exact ⟨m2, h1, h2⟩

theorem init_g1 (f : MatrixInitFunctor) (R : repartitioner)
    (comm : List PersistentPartition) (rank : Nat) (debug : Bool) (db : objectRegistry)
    (hg : f.partition_.get_ranks_per_gpu = 1) :
    (f.init R comm rank debug db).db = db ∧
    (f.init R comm rank debug db).trace = f.validation debug ∧
    (∀ r, (f.init R comm rank debug db).outcome = .ok r →
      r.local_rows = f.row_idxs_.data ∧ r.local_cols = f.col_idxs_.data ∧
      r.local_values = f.coeffs_.data ∧ r.non_local_rows = f.non_local_row_idxs_.data ∧
      r.non_local_cols = f.non_local_col_idxs_.data ∧
      r.non_local_values = f.non_local_coeffs_.data ∧
      r.matrix_format = f.matrix_format_ ∧ r.on_device = true ∧
      PersistentPartition.get_total_size comm rank = some r.num_rows) := by
  unfold MatrixInitFunctor.init
  cases hts : PersistentPartition.get_total_size comm rank with
  | none => exact ⟨rfl, rfl, fun r hr => by cases hr⟩
  | some n =>
    by_cases hfmt : f.matrix_format_ ∈ ["Csr", "Ell", "Coo"]
    · simp only [generate_recognized f _ hfmt]
      cases PersistentPartition.get_host_partition comm with
      | none => exact ⟨rfl, rfl, fun r hr => by cases hr⟩
      | some H =>
        simp only [hg, if_true]
        refine ⟨trivial, trivial, ?_⟩
        intro r hr
        simp only [Outcome.ok.injEq] at hr
        subst hr
        exact ⟨rfl, rfl, rfl, rfl, rfl, rfl, rfl, rfl, rfl⟩
    · simp only [generate_unrecognized f _ hfmt]
      exact ⟨trivial, trivial, fun r hr => by cases hr⟩

theorem init_repartitioned_ok (f : MatrixInitFunctor) (R : repartitioner)
    (comm : List PersistentPartition) (rank : Nat) (debug : Bool) (db : objectRegistry)
    (hg : f.partition_.get_ranks_per_gpu ≠ 1) (r : dist_mtx)
    (hr : (f.init R comm rank debug db).outcome = .ok r) :
    ∃ plan, (f.init R comm rank debug db).db = ScatterPlan.register_all plan db ∧
      (f.init R comm rank debug db).trace = f.validation debug ++
        [Event.repartitioner_create] ++ scatter_plan_names.map Event.persistent_array := by
  unfold MatrixInitFunctor.init at hr ⊢
  cases hts : PersistentPartition.get_total_size comm rank with
  | none => rw [hts] at hr; cases hr
  | some n =>
    rw [hts] at hr
    by_cases hfmt : f.matrix_format_ ∈ ["Csr", "Ell", "Coo"]
    · simp only [generate_recognized f _ hfmt] at hr ⊢
      cases hh : PersistentPartition.get_host_partition comm with
      | none => rw [hh] at hr; cases hr
      | some H =>
        simp only [hg, if_false]
        exact ⟨(R.gather _).2, rfl, trivial⟩
    · simp only [generate_unrecognized f _ hfmt] at hr
      cases hr

theorem validation_step_info (rows cols : List Int) (st : Bool × Bool × List Event) (i : Nat)
    (h : ∀ e ∈ st.2.2, ∃ tag args, e = Event.info tag args) :
    ∀ e ∈ (validation_step rows cols st i).2.2, ∃ tag args, e = Event.info tag args := by
  unfold validation_step
  intro e he
  split at he <;> split at he <;>
    simp only [List.mem_append, List.mem_singleton] at he
  all_goals
    first
      | exact h e he
      | (rcases he with he | he
         · first
            | exact h e he
            | (rcases he with he | he
               · exact h e he
               · exact ⟨_, _, he⟩)
         · exact ⟨_, _, he⟩)

theorem validation_foldl_info (rows cols : List Int) (l : List Nat)
    (st : Bool × Bool × List Event)
    (h : ∀ e ∈ st.2.2, ∃ tag args, e = Event.info tag args) :
    ∀ e ∈ (l.foldl (validation_step rows cols) st).2.2, ∃ tag args, e = Event.info tag args := by
  induction l generalizing st with
  | nil => exact h
  | cons i t ih => exact ih _ (validation_step_info rows cols st i h)

theorem validation_only_info (f : MatrixInitFunctor) (debug : Bool) :
    ∀ e ∈ f.validation debug, ∃ tag args, e = Event.info tag args := by
  unfold MatrixInitFunctor.validation
  intro e he
  cases debug with
  | false => simp at he
  | true =>
    simp only [if_true, List.mem_append, List.mem_cons, List.mem_singleton,
      List.not_mem_nil, or_false] at he
    rcases he with (he | he | he) | he
    · exact validation_foldl_info _ _ _ _ (by simp) e he
    · exact ⟨_, _, he⟩
    · exact ⟨_, _, he⟩
    · split at he
      · obtain ⟨i, _, hi⟩ := List.mem_map.mp he
        exact ⟨_, _, hi.symm⟩
      · simp at he

theorem update_regenerate (f : MatrixInitFunctor) (R : repartitioner)
    (comm : List PersistentPartition) (rank : Nat) (debug : Bool) (db : objectRegistry)
    (m : dist_mtx) (hr : f.regenerate_ = true) :
    (f.update R comm rank debug db m).db = (f.init R comm rank debug db).db ∧
    (f.update R comm rank debug db m).trace = (f.init R comm rank debug db).trace ∧
    (f.update R comm rank debug db m).outcome =
      match (f.init R comm rank debug db).outcome with
      | .ok r => .ok (m.copy_from r)
      | .fatal msg => .fatal msg
      | .undefined => .undefined := by
  unfold MatrixInitFunctor.update
  simp only [hr, if_true]
  cases (f.init R comm rank debug db).outcome <;> exact ⟨rfl, rfl, rfl⟩

/-- Every matrix that `init` returns has the configured inner type and lives on the
device executor. -/
theorem init_ok_type (f : MatrixInitFunctor) (R : repartitioner)
    (comm : List PersistentPartition) (rank : Nat) (debug : Bool) (db : objectRegistry)
    (r : dist_mtx) (hr : (f.init R comm rank debug db).outcome = .ok r) :
    r.matrix_format = f.matrix_format_ ∧ r.on_device = true := by
  unfold MatrixInitFunctor.init at hr
  cases hts : PersistentPartition.get_total_size comm rank with
  | none => rw [hts] at hr; cases hr
  | some n =>
    rw [hts] at hr
    by_cases hfmt : f.matrix_format_ ∈ ["Csr", "Ell", "Coo"]
    · simp only [generate_recognized f _ hfmt] at hr
      cases hh : PersistentPartition.get_host_partition comm with
      | none => rw [hh] at hr; cases hr
      | some H =>
        rw [hh] at hr
        by_cases hg : f.partition_.get_ranks_per_gpu = 1
        · simp only [hg, if_true, Outcome.ok.injEq] at hr
          subst hr
          exact ⟨rfl, rfl⟩
        · simp only [hg, if_false, Outcome.ok.injEq] at hr
          subst hr
          exact ⟨rfl, rfl⟩
    · simp only [generate_unrecognized f _ hfmt] at hr
      cases hr

/-- The matrix that `init` builds for `ranks_per_gpu = 1`. -/
theorem init_g1_result (f : MatrixInitFunctor) (R : repartitioner)
    (comm : List PersistentPartition) (rank : Nat) (debug : Bool) (db : objectRegistry)
    (n : Int) (H : Partition) (hg : f.partition_.get_ranks_per_gpu = 1)
    (hfmt : f.matrix_format_ ∈ ["Csr", "Ell", "Coo"])
    (hts : PersistentPartition.get_total_size comm rank = some n)
    (hH : PersistentPartition.get_host_partition comm = some H) :
    (f.init R comm rank debug db).outcome =
      .ok ⟨f.matrix_format_, true, n, f.row_idxs_.data, f.col_idxs_.data, f.coeffs_.data,
        f.non_local_row_idxs_.data, f.non_local_col_idxs_.data, f.non_local_coeffs_.data⟩ := by
  unfold MatrixInitFunctor.init
  simp only [hts, generate_recognized f _ hfmt, hH, hg, if_true]
  rfl

theorem copy_from_same_type (m r : dist_mtx) (h1 : m.matrix_format = r.matrix_format)
    (h2 : m.on_device = r.on_device) : m.copy_from r = r := by
  unfold dist_mtx.copy_from
  rw [h1, h2]

/-- C15: with `regenerate` set, `update` takes the cold path: it runs `init` (same
registry, same observable steps, same failure when `init` fails) and the persistent
matrix takes the content of the matrix that `init` builds, whatever it held before; a
persistent matrix of the configured inner type on the device executor, which is what
`init` builds, is afterwards that matrix. For `ranks_per_gpu = 1` the result holds the
current row indices, column indices and coefficients. The values-only refresh does not
run: the result does not depend on the previous content, and an unrecognized format ends
in the fatal error of the cold path. -/
theorem C15_regenerate_is_cold_path (f : MatrixInitFunctor) (R : repartitioner)
    (comm : List PersistentPartition) (rank : Nat) (debug : Bool) (db : objectRegistry)
    (m : dist_mtx) (hr : f.regenerate_ = true) :
    (f.update R comm rank debug db m).db = (f.init R comm rank debug db).db ∧
    (f.update R comm rank debug db m).trace = (f.init R comm rank debug db).trace ∧
    (∀ msg, (f.init R comm rank debug db).outcome = .fatal msg →
      (f.update R comm rank debug db m).outcome = .fatal msg) ∧
    ((f.init R comm rank debug db).outcome = .undefined →
      (f.update R comm rank debug db m).outcome = .undefined) ∧
    (∀ r0, (f.init R comm rank debug db).outcome = .ok r0 →
      ∃ r, (f.update R comm rank debug db m).outcome = .ok r ∧
        r.num_rows = r0.num_rows ∧ r.local_rows = r0.local_rows ∧
        r.local_cols = r0.local_cols ∧ r.local_values = r0.local_values ∧
        r.non_local_rows = r0.non_local_rows ∧ r.non_local_cols = r0.non_local_cols ∧
        r.non_local_values = r0.non_local_values ∧
        r.matrix_format = m.matrix_format ∧ r.on_device = m.on_device ∧
        (m.matrix_format = f.matrix_format_ → m.on_device = true → r = r0)) ∧
    (∀ r, (f.update R comm rank debug db m).outcome = .ok r →
      ∃ r0, (f.init R comm rank debug db).outcome = .ok r0 ∧ r = m.copy_from r0) ∧
    (f.partition_.get_ranks_per_gpu = 1 → f.matrix_format_ ∈ ["Csr", "Ell", "Coo"] →
      ∀ n H, PersistentPartition.get_total_size comm rank = some n →
        PersistentPartition.get_host_partition comm = some H →
        (f.update R comm rank debug db m).outcome =
          .ok ⟨m.matrix_format, m.on_device, n, f.row_idxs_.data, f.col_idxs_.data,
            f.coeffs_.data, f.non_local_row_idxs_.data, f.non_local_col_idxs_.data,
            f.non_local_coeffs_.data⟩) ∧
    (∀ m0, m0.matrix_format = m.matrix_format → m0.on_device = m.on_device →
      f.update R comm rank debug db m0 = f.update R comm rank debug db m) ∧
    (f.matrix_format_ ∉ ["Csr", "Ell", "Coo"] →
      ∀ n, PersistentPartition.get_total_size comm rank = some n →
        (f.update R comm rank debug db m).outcome =
          .fatal ("Matrix format " ++ f.matrix_format_ ++ " not supported ")) := by
  obtain ⟨hdb, htr, hout⟩ := update_regenerate f R comm rank debug db m hr
  refine ⟨hdb, htr, ?_, ?_, ?_, ?_, ?_, ?_, ?_⟩
  · intro msg h
    rw [hout, h]
  · intro h
    rw [hout, h]
  · intro r0 h
    refine ⟨m.copy_from r0, by rw [hout, h], rfl, rfl, rfl, rfl, rfl, rfl, rfl, rfl, rfl, ?_⟩
    intro h1 h2
    obtain ⟨t1, t2⟩ := init_ok_type f R comm rank debug db r0 h
    exact copy_from_same_type m r0 (h1.trans t1.symm) (h2.trans t2.symm)
  · intro r h
    rw [hout] at h
    cases hi : (f.init R comm rank debug db).outcome with
    | ok r0 =>
      rw [hi] at h
      exact ⟨r0, rfl, (Outcome.ok.inj h).symm⟩
    | fatal msg => rw [hi] at h; cases h
    | undefined => rw [hi] at h; cases h
  · intro hg hfmt n H hts hH
    rw [hout, init_g1_result f R comm rank debug db n H hg hfmt hts hH]
    rfl
  · intro m0 h1 h2
    unfold MatrixInitFunctor.update
    simp only [hr, if_true, dist_mtx.copy_from, h1, h2]
  · intro hfmt n hts
    rw [hout, init_unrecognized f R comm rank debug db hfmt, hts]

/-- Witness for C15: one process, three local coefficients, format "Coo", a persistent
matrix of that format with other content. -/
theorem C15_regenerate_is_cold_path_witness :
    ((⟨⟨1, 0, 3⟩, ⟨"c", [0, 1, 2], false, false⟩, ⟨"r", [0, 1, 2], false, false⟩,
        ⟨"v", [5, 6, 7], true, false⟩, ⟨"nc", [], false, false⟩, ⟨"nr", [], false, false⟩,
        ⟨"nv", [], true, false⟩, "Coo", true, 0, "p"⟩ : MatrixInitFunctor).update
      ⟨fun m => (m, ⟨[], [], [], [], [], [], []⟩), fun _ _ c nc _ => (c, nc)⟩
      (PersistentPartition.world 1 [3]) 0 false []
      ⟨"Coo", true, 2, [0, 1], [1, 0], [9, 9], [], [], []⟩).outcome =
    .ok ⟨"Coo", true, 3, [0, 1, 2], [0, 1, 2], [5, 6, 7], [], [], []⟩ :=
  (C15_regenerate_is_cold_path
    (⟨⟨1, 0, 3⟩, ⟨"c", [0, 1, 2], false, false⟩, ⟨"r", [0, 1, 2], false, false⟩,
        ⟨"v", [5, 6, 7], true, false⟩, ⟨"nc", [], false, false⟩, ⟨"nr", [], false, false⟩,
        ⟨"nv", [], true, false⟩, "Coo", true, 0, "p"⟩ : MatrixInitFunctor)
    ⟨fun m => (m, ⟨[], [], [], [], [], [], []⟩), fun _ _ c nc _ => (c, nc)⟩
    (PersistentPartition.world 1 [3]) 0 false []
    ⟨"Coo", true, 2, [0, 1], [1, 0], [9, 9], [], [], []⟩ rfl).2.2.2.2.2.2.1 rfl (by decide)
    3 ⟨[0, 3]⟩ (by decide) (by decide)

/-- C17: with `ranks_per_gpu = 1` neither `init` nor `update` creates a repartitioner or
constructs a `PersistentArray` (so none of the seven scatter-plan entries is registered
or read) and the registry is left as it was; with `ranks_per_gpu != 1` every run of
`init` that returns a matrix has created a repartitioner and registered all seven
entries. -/
theorem C17_repartitioner_bypassed (f : MatrixInitFunctor) (R : repartitioner)
    (comm : List PersistentPartition) (rank : Nat) (debug : Bool) (db : objectRegistry)
    (m : dist_mtx) :
    (f.partition_.get_ranks_per_gpu = 1 →
      (f.init R comm rank debug db).db = db ∧
      Event.repartitioner_create ∉ (f.init R comm rank debug db).trace ∧
      (∀ n, Event.persistent_array n ∉ (f.init R comm rank debug db).trace) ∧
      (f.update R comm rank debug db m).db = db ∧
      Event.repartitioner_create ∉ (f.update R comm rank debug db m).trace ∧
      (∀ n, Event.persistent_array n ∉ (f.update R comm rank debug db m).trace)) ∧
    (f.partition_.get_ranks_per_gpu ≠ 1 →
      ∀ r, (f.init R comm rank debug db).outcome = .ok r →
        Event.repartitioner_create ∈ (f.init R comm rank debug db).trace ∧
        ∀ n ∈ scatter_plan_names,
          Event.persistent_array n ∈ (f.init R comm rank debug db).trace ∧
          ∃ v, (f.init R comm rank debug db).db.find n = some v) := by
  constructor
  · intro hg
    obtain ⟨hdb, htr, _⟩ := init_g1 f R comm rank debug db hg
    have hinit : Event.repartitioner_create ∉ (f.init R comm rank debug db).trace ∧
        (∀ n, Event.persistent_array n ∉ (f.init R comm rank debug db).trace) := by
      rw [htr]
      constructor
      · intro h
        obtain ⟨_, _, he⟩ := validation_only_info f debug _ h
        cases he
      · intro n h
        obtain ⟨_, _, he⟩ := validation_only_info f debug _ h
        cases he
    refine ⟨hdb, hinit.1, hinit.2, ?_⟩
    by_cases hr : f.regenerate_ = true
    · obtain ⟨udb, utr, _⟩ := update_regenerate f R comm rank debug db m hr
      rw [udb, utr]
      exact ⟨hdb, hinit.1, hinit.2⟩
    · have hr' : f.regenerate_ = false := by simpa using hr
      by_cases hc : f.sets_value_ptr = true ∧ m.matrix_format ≠ f.matrix_format_
      · have hu : f.update R comm rank debug db m = ⟨.undefined, db, []⟩ := by
          unfold MatrixInitFunctor.update
          simp only [hr', hc, Bool.false_eq_true, if_false, ne_eq, not_false_eq_true, and_self,
            if_true]
        rw [hu]
        simp
      · rw [update_warm_g1 f R comm rank debug db m hr' hc hg]
        split <;> simp
  · intro hg r hr
    obtain ⟨plan, hdb, htr⟩ := init_repartitioned_ok f R comm rank debug db hg r hr
    rw [htr, hdb]
    refine ⟨by simp, ?_⟩
    intro n hn
    exact ⟨by simp [hn], find_register_all plan db n hn⟩

/-- Witness for C17: four processes with `ranks_per_gpu = 2`, format "Coo". -/
theorem C17_repartitioner_bypassed_witness :
    Event.repartitioner_create ∈ ((⟨⟨2, 0, 3⟩, ⟨"c", [0, 1, 2], false, false⟩,
        ⟨"r", [0, 1, 2], false, false⟩, ⟨"v", [5, 6, 7], true, false⟩,
        ⟨"nc", [], false, false⟩, ⟨"nr", [], false, false⟩, ⟨"nv", [], true, false⟩,
        "Coo", false, 0, "p"⟩ : MatrixInitFunctor).init
      ⟨fun m => (m, ⟨[0, 1, 2], [], [0, 1, 2], [3], [0], [3], [0]⟩), fun _ _ c nc _ => (c, nc)⟩
      (PersistentPartition.world 2 [3, 4, 5, 6]) 0 false []).trace :=
  ((C17_repartitioner_bypassed
    (⟨⟨2, 0, 3⟩, ⟨"c", [0, 1, 2], false, false⟩,
        ⟨"r", [0, 1, 2], false, false⟩, ⟨"v", [5, 6, 7], true, false⟩,
        ⟨"nc", [], false, false⟩, ⟨"nr", [], false, false⟩, ⟨"nv", [], true, false⟩,
        "Coo", false, 0, "p"⟩ : MatrixInitFunctor)
    ⟨fun m => (m, ⟨[0, 1, 2], [], [0, 1, 2], [3], [0], [3], [0]⟩), fun _ _ c nc _ => (c, nc)⟩
    (PersistentPartition.world 2 [3, 4, 5, 6]) 0 false []
    ⟨"Coo", true, 3, [], [], [], [], [], []⟩).2 (by decide)
    ⟨"Coo", true, 18, [0, 1, 2], [0, 1, 2], [5, 6, 7], [], [], []⟩ (by decide)).1

theorem validation_step_flags (rows cols : List Int) (st : Bool × Bool × List Event) (i : Nat) :
    (validation_step rows cols st i).1 =
      (st.1 && decide (¬ rows.getD i 0 < rows.getD (i - 1) 0)) ∧
    (validation_step rows cols st i).2.1 =
      (st.2.1 && decide (¬ (cols.getD i 0 < cols.getD (i - 1) 0 ∧
        rows.getD i 0 = rows.getD (i - 1) 0))) := by
  unfold validation_step
  generalize rows.getD i 0 = a
  generalize rows.getD (i - 1) 0 = b
  generalize cols.getD i 0 = c
  generalize cols.getD (i - 1) 0 = d
  by_cases h1 : a < b <;> by_cases h2 : c < d ∧ a = b <;> simp [h1, h2]

theorem validation_foldl_flags (rows cols : List Int) (l : List Nat)
    (st : Bool × Bool × List Event) :
    (l.foldl (validation_step rows cols) st).1 =
      (st.1 && l.all (fun i => decide (¬ rows.getD i 0 < rows.getD (i - 1) 0))) ∧
    (l.foldl (validation_step rows cols) st).2.1 =
      (st.2.1 && l.all (fun i => decide (¬ (cols.getD i 0 < cols.getD (i - 1) 0 ∧
        rows.getD i 0 = rows.getD (i - 1) 0)))) := by
  induction l generalizing st with
  | nil => simp
  | cons i t ih =>
    have hs := validation_step_flags rows cols st i
    simp only [List.foldl_cons, List.all_cons]
    rw [(ih _).1, (ih _).2, hs.1, hs.2, Bool.and_assoc, Bool.and_assoc]
    exact ⟨rfl, rfl⟩

theorem validation_loop_flags_iff (rows cols : List Int) (hlen : rows.length = cols.length) :
    ((validation_loop rows cols).1 = true ∧ (validation_loop rows cols).2.1 = true) ↔
      weakly_sorted rows cols := by
  unfold validation_loop weakly_sorted
  rw [(validation_foldl_flags rows cols _ _).1, (validation_foldl_flags rows cols _ _).2]
  simp only [Bool.true_and, List.all_eq_true, decide_eq_true_eq, List.mem_range'_1, not_lt,
    not_and, hlen]
  constructor
  · rintro ⟨h1, h2⟩ i hi
    have a := h1 (i + 1) (by omega)
    have b := h2 (i + 1) (by omega)
    simp only [Nat.add_sub_cancel] at a b
    refine ⟨a, fun heq => ?_⟩
    by_contra hcon
    exact b (by omega) heq.symm
  · intro h
    constructor
    · intro i hi
      have a := (h (i - 1) (by omega)).1
      rw [Nat.sub_add_cancel hi.1] at a
      exact a
    · intro i hi hlt heq
      have a := (h (i - 1) (by omega)).2
      rw [Nat.sub_add_cancel hi.1] at a
      have := a heq.symm
      omega

theorem spec_sorted_weakly (rows cols : List Int) (h : spec_sorted rows cols) :
    weakly_sorted rows cols := by
  intro i hi
  obtain ⟨h1, h2⟩ := h i hi
  exact ⟨h1, fun heq => le_of_lt (h2 heq)⟩

/-- C20 (amended): on the local triplet list the validation loop of `init` leaves
`is_sorted_rows` and `is_sorted_cols` both true exactly when `row[i] <= row[i+1]` for
every `i` and `col[i] <= col[i+1]` whenever `row[i] = row[i+1]`; in particular a list
that is sorted in the sense of section 8 is reported without error. -/
theorem C20_validation_flags (t : List (Int × Int)) :
    (((validation_loop (t.map Prod.fst) (t.map Prod.snd)).1 = true ∧
        (validation_loop (t.map Prod.fst) (t.map Prod.snd)).2.1 = true) ↔
      weakly_sorted (t.map Prod.fst) (t.map Prod.snd)) ∧
    (spec_sorted (t.map Prod.fst) (t.map Prod.snd) →
      (validation_loop (t.map Prod.fst) (t.map Prod.snd)).1 = true ∧
        (validation_loop (t.map Prod.fst) (t.map Prod.snd)).2.1 = true) := by
  have h := validation_loop_flags_iff (t.map Prod.fst) (t.map Prod.snd)
    (by rw [List.length_map, List.length_map])
  exact ⟨h, fun hs => h.mpr (spec_sorted_weakly _ _ hs)⟩

/-- Witness for C20: a sorted list of three entries. -/
theorem C20_validation_flags_witness :
    (validation_loop [0, 0, 1] [0, 1, 0]).1 = true ∧
      (validation_loop [0, 0, 1] [0, 1, 0]).2.1 = true :=
  (C20_validation_flags [(0, 0), (0, 1), (1, 0)]).2 (by
    intro i hi
    have hi' : i < 2 := by
      have : i + 1 < 3 := by simpa using hi
      omega
    interval_cases i <;> decide)

/-- C20 as stated fails: for the two entries (0, 1), (0, 1) the loop leaves both flags
true, although `col[0] < col[1]` does not hold in the common row. -/
theorem C20_counterexample :
    validation_loop [0, 0] [1, 1] = (true, true, []) ∧
    ¬ spec_sorted [0, 0] [1, 1] ∧
    ¬ validation_confirms_spec_sorted [(0, 1), (0, 1)] := by
  have hv : validation_loop [0, 0] [1, 1] = (true, true, []) := by decide
  have hs : ¬ spec_sorted [0, 0] [1, 1] := by
    intro h
    have := (h 0 (by decide)).2 (by decide)
    revert this
    decide
  refine ⟨hv, hs, ?_⟩
  intro h
  exact hs (h.mp ⟨by decide, by decide⟩)

theorem all_some_none_of_mem {α : Type} (l : List (Option α)) (h : none ∈ l) :
    all_some l = none := by
  induction l with
  | nil => cases h
  | cons a t ih =>
    cases a with
    | none => rfl
    | some x =>
      have ht : none ∈ t := by
        rcases List.mem_cons.mp h with h | h
        · cases h
        · exact h
      simp only [all_some, ih ht, Option.map_none']

theorem target_rows_rank_zero_invalid (f : PartitionInitFunctor) (bounds : List Int)
    (hg : f.ranks_per_gpu_ ≤ 0) : f.target_rows bounds 0 = none := by
  unfold PartitionInitFunctor.target_rows
  by_cases h0 : f.ranks_per_gpu_ = 0
  · simp only [h0, if_true]
  · have hneg : f.ranks_per_gpu_ + f.ranks_per_gpu_ * Int.tdiv 0 f.ranks_per_gpu_ < 0 := by
      rw [Int.zero_tdiv]
      omega
    simp only [h0, if_false, hneg, true_or, if_true]

theorem target_rows_zero_divisor (f : PartitionInitFunctor) (bounds : List Int) (r : Int)
    (hg : f.ranks_per_gpu_ = 0) : f.target_rows bounds r = none := by
  unfold PartitionInitFunctor.target_rows
  simp only [hg, if_true]

/-- C12 (amended): for every `ranks_per_gpu <= 0` shared by the processes, `init`
produces no partition, but not through a fatal error: it has no check of the value, and
the run ends undefined, in the division `rank / 0` for 0 and in rank 0 indexing the
range bounds at the negative index `ranks_per_gpu` otherwise. -/
theorem C12_invalid_ranks_per_gpu (comm : List PartitionInitFunctor) (rank : Nat) (g : Int)
    (hg : g ≤ 0) (hall : ∀ c ∈ comm, c.ranks_per_gpu_ = g) :
    PartitionInitFunctor.init comm rank = none ∧
    PartitionInitFunctor.init_outcome comm rank = .undefined ∧
    ¬ invalid_ranks_per_gpu_is_fatal comm rank ∧
    (∀ c ∈ comm, ∀ bounds, c.target_rows bounds 0 = none) := by
  have htr : ∀ c ∈ comm, ∀ bounds, c.target_rows bounds 0 = none := by
    intro c hc bounds
    exact target_rows_rank_zero_invalid c bounds (by rw [hall c hc]; exact hg)
  have hinit : PartitionInitFunctor.init comm rank = none := by
    unfold PartitionInitFunctor.init
    cases hget : comm[rank]? with
    | none => rfl
    | some f =>
      have hfm : f ∈ comm := List.getElem?_mem hget
      have hlen : 0 < comm.length := List.length_pos_of_mem hfm
      cases build_partition_from_local_range
          (comm.map (fun c => (⟨c.rows_start_, c.rows_end_⟩ : span))) with
      | none => rfl
      | some H =>
        have hg1 : ¬ f.ranks_per_gpu_ = 1 := by
          rw [hall f hfm]
          omega
        simp only [hg1, if_false]
        rw [all_some_none_of_mem]
        apply List.mem_map.mpr
        refine ⟨0, List.mem_range.mpr hlen, ?_⟩
        have h0 : comm[0]? = some comm[0] := List.getElem?_eq_getElem hlen
        have hc0 : comm[0] ∈ comm := List.getElem_mem hlen
        have hg0 : ¬ comm[0].ranks_per_gpu_ = 1 := by
          rw [hall _ hc0]
          omega
        simp only [h0, hg0, if_false, Nat.cast_zero]
        exact htr _ hc0 _
  have hout : PartitionInitFunctor.init_outcome comm rank = .undefined := by
    unfold PartitionInitFunctor.init_outcome
    rw [hinit]
  refine ⟨hinit, hout, ?_, htr⟩
  rintro ⟨msg, hmsg⟩
  rw [hout] at hmsg
  cases hmsg

/-- Witness for C12: two processes of four rows each with `ranks_per_gpu = -1`. -/
theorem C12_invalid_ranks_per_gpu_witness :
    PartitionInitFunctor.init
      ((PersistentPartition.world (-1) [4, 4]).map PersistentPartition.init_functor) 1 = none :=
  (C12_invalid_ranks_per_gpu
    ((PersistentPartition.world (-1) [4, 4]).map PersistentPartition.init_functor) 1 (-1)
    (by decide) (by decide)).1

/-- C12 as stated fails: with one process of four rows and `ranks_per_gpu = 0` the run of
`init` divides by zero; it does not end in a fatal error. -/
theorem C12_counterexample :
    (PersistentPartition.init_functor ⟨0, 0, 4⟩).target_rows [0, 4] 0 = none ∧
    PartitionInitFunctor.init_outcome
      ((PersistentPartition.world 0 [4]).map PersistentPartition.init_functor) 0 = .undefined ∧
    ¬ invalid_ranks_per_gpu_is_fatal
      ((PersistentPartition.world 0 [4]).map PersistentPartition.init_functor) 0 := by
  have h : PartitionInitFunctor.init_outcome
      ((PersistentPartition.world 0 [4]).map PersistentPartition.init_functor) 0 =
      .undefined := by decide
  refine ⟨by decide, h, ?_⟩
  rintro ⟨msg, hmsg⟩
  rw [h] at hmsg
  cases hmsg

/-! ## Helper lemmas: host matrix wrapper on a registry -/

theorem append_left_injective (f : String) : Function.Injective (fun s : String => f ++ s) := by
  intro a b h
  have hd := congrArg String.data h
  simp only [String.data_append] at hd
  exact String.ext (List.append_cancel_left hd)

theorem wrapper_names_nodup (f : String) :
    ([f ++ "_local" ++ "_cols", f ++ "_local" ++ "_rows", f ++ "_local" ++ "_ldu_map",
      f ++ "_non_local" ++ "_cols", f ++ "_non_local" ++ "_rows",
      f ++ "_non_local" ++ "_ldu_map", f ++ "_local_coeffs", f ++ "_non_local_coeffs"] :
      List String).Nodup := by
  have h : (["_local_cols", "_local_rows", "_local_ldu_map", "_non_local_cols",
      "_non_local_rows", "_non_local_ldu_map", "_local_coeffs", "_non_local_coeffs"] :
      List String).Nodup := by decide
  have h2 := h.map (append_left_injective f)
  simp only [List.map_cons, List.map_nil] at h2
  simp only [String.append_assoc]
  exact h2

theorem find_store_some (db : objectRegistry) (n k : String) (d : List Int)
    (h : ∃ v, db.find k = some v) : ∃ v, (db.store n d).find k = some v := by
  by_cases hk : k = n
  · subst hk
    exact ⟨d, find_store_self db k d⟩
  · rw [find_store_ne db n k d hk]
    exact h

theorem find_foldl_store_not_mem (kvs : List (String × List Int)) (db : objectRegistry)
    (n : String) (h : n ∉ kvs.map Prod.fst) :
    (kvs.foldl (fun acc kv => objectRegistry.store acc kv.1 kv.2) db).find n = db.find n := by
  induction kvs generalizing db with
  | nil => rfl
  | cons kv t ih =>
    simp only [List.map_cons, List.mem_cons, not_or] at h
    rw [List.foldl_cons, ih _ h.2, find_store_ne _ _ _ _ h.1]

theorem find_foldl_store_mem (kvs : List (String × List Int)) (db : objectRegistry)
    (n : String) (d : List Int) (hnd : (kvs.map Prod.fst).Nodup) (h : (n, d) ∈ kvs) :
    (kvs.foldl (fun acc kv => objectRegistry.store acc kv.1 kv.2) db).find n = some d := by
  induction kvs generalizing db with
  | nil => cases h
  | cons kv t ih =>
    simp only [List.map_cons, List.nodup_cons] at hnd
    rw [List.foldl_cons]
    rcases List.mem_cons.mp h with h | h
    · subst h
      rw [find_foldl_store_not_mem t _ _ hnd.1, find_store_self]
    · exact ih _ hnd.2 h

theorem attach_name (db : objectRegistry) (a : PersistentArray) :
    (a.attach db).name = a.name := by
  unfold PersistentArray.attach
  cases db.find a.name <;> rfl

theorem attach_update (db : objectRegistry) (a : PersistentArray) :
    (a.attach db).update = a.update := by
  unfold PersistentArray.attach
  cases db.find a.name <;> rfl

theorem attach_data_of_found (db : objectRegistry) (a : PersistentArray) (d : List Int)
    (h : db.find a.name = some d) : (a.attach db).data = d := by
  unfold PersistentArray.attach
  rw [h]

theorem store_arrays_eq_foldl (w : HostMatrixWrapper) (db : objectRegistry) :
    w.store_arrays db =
      w.array_pairs.foldl (fun acc kv => objectRegistry.store acc kv.1 kv.2) db := rfl

theorem init_members_on_names (db : objectRegistry) (a : ConstructArgs) (f : String) :
    (HostMatrixWrapper.init_members_on db a.matrix a.interfaces a.scaling a.global_row_index
      f).array_pairs.map Prod.fst =
    [f ++ "_local" ++ "_cols", f ++ "_local" ++ "_rows", f ++ "_local" ++ "_ldu_map",
      f ++ "_non_local" ++ "_cols", f ++ "_non_local" ++ "_rows",
      f ++ "_non_local" ++ "_ldu_map", f ++ "_local_coeffs", f ++ "_non_local_coeffs"] := by
  simp only [HostMatrixWrapper.array_pairs, HostMatrixWrapper.init_members_on,
    PersistentSparsityPattern.attach, attach_name, List.map_cons, List.map_nil]
  rfl

theorem init_members_on_flags (db : objectRegistry) (a : ConstructArgs) (f : String) :
    (HostMatrixWrapper.init_members_on db a.matrix a.interfaces a.scaling a.global_row_index
      f).local_sparsity_.col_idxs_.get_update = false ∧
    (HostMatrixWrapper.init_members_on db a.matrix a.interfaces a.scaling a.global_row_index
      f).local_coeffs_.get_update = true ∧
    (HostMatrixWrapper.init_members_on db a.matrix a.interfaces a.scaling a.global_row_index
      f).local_sparsity_.col_idxs_.get_stored db = (db.find (f ++ "_local" ++ "_cols")).isSome := by
  simp only [HostMatrixWrapper.init_members_on, PersistentSparsityPattern.attach,
    PersistentArray.get_update, PersistentArray.get_stored, attach_update, attach_name]
  exact ⟨rfl, rfl, rfl⟩

theorem construct_warm (db : objectRegistry) (a : ConstructArgs) (f : String)
    (h : ∃ d, db.find (f ++ "_local" ++ "_cols") = some d) :
    HostMatrixWrapper.construct db a.matrix a.interfaceBouCoeffs a.interfaces a.scaling
      a.global_row_index f =
    ((((HostMatrixWrapper.init_members_on db a.matrix a.interfaces a.scaling a.global_row_index
        f).update_local_matrix_data a.interfaces a.interfaceBouCoeffs
        ).update_non_local_matrix_data a.interfaces a.interfaceBouCoeffs),
      (((HostMatrixWrapper.init_members_on db a.matrix a.interfaces a.scaling a.global_row_index
        f).update_local_matrix_data a.interfaces a.interfaceBouCoeffs
        ).update_non_local_matrix_data a.interfaces a.interfaceBouCoeffs).store_arrays db,
      ["update_local_matrix_data", "update_non_local_matrix_data"]) := by
  obtain ⟨d, hd⟩ := h
  obtain ⟨h1, h2, h3⟩ := init_members_on_flags db a f
  unfold HostMatrixWrapper.construct
  simp only [h1, h2, h3, hd, Option.isSome_some, Bool.not_true, Bool.or_false, Bool.or_true,
    Bool.false_eq_true, if_false, if_true, List.nil_append]

theorem construct_cold (db : objectRegistry) (a : ConstructArgs) (f : String)
    (h : db.find (f ++ "_local" ++ "_cols") = none) :
    HostMatrixWrapper.construct db a.matrix a.interfaceBouCoeffs a.interfaces a.scaling
      a.global_row_index f =
    ((((((HostMatrixWrapper.init_members_on db a.matrix a.interfaces a.scaling
        a.global_row_index f).init_local_sparsity_pattern a.interfaces
        ).init_non_local_sparsity_pattern a.interfaces
        ).update_local_matrix_data a.interfaces a.interfaceBouCoeffs
        ).update_non_local_matrix_data a.interfaces a.interfaceBouCoeffs),
      (((((HostMatrixWrapper.init_members_on db a.matrix a.interfaces a.scaling
        a.global_row_index f).init_local_sparsity_pattern a.interfaces
        ).init_non_local_sparsity_pattern a.interfaces
        ).update_local_matrix_data a.interfaces a.interfaceBouCoeffs
        ).update_non_local_matrix_data a.interfaces a.interfaceBouCoeffs).store_arrays db,
      ["init_local_sparsity_pattern", "init_non_local_sparsity_pattern",
        "update_local_matrix_data", "update_non_local_matrix_data"]) := by
  obtain ⟨h1, h2, h3⟩ := init_members_on_flags db a f
  unfold HostMatrixWrapper.construct
  simp only [h1, h2, h3, h, Option.isSome_none, Bool.not_false, Bool.or_false, Bool.or_true,
    if_true, List.cons_append, List.nil_append]

theorem construct_leaves_cols_stored (db : objectRegistry) (a : ConstructArgs) (f : String) :
    ∃ d, (HostMatrixWrapper.construct db a.matrix a.interfaceBouCoeffs a.interfaces a.scaling
      a.global_row_index f).2.1.find (f ++ "_local" ++ "_cols") = some d := by
  have key : ∀ w : HostMatrixWrapper, w.local_sparsity_.col_idxs_.name = f ++ "_local" ++ "_cols" →
      ∃ d, (w.store_arrays db).find (f ++ "_local" ++ "_cols") = some d := by
    intro w hw
    unfold HostMatrixWrapper.store_arrays PersistentSparsityPattern.store
    refine find_store_some _ _ _ _ (find_store_some _ _ _ _ (find_store_some _ _ _ _
      (find_store_some _ _ _ _ (find_store_some _ _ _ _ (find_store_some _ _ _ _
      (find_store_some _ _ _ _ ?_))))))
    rw [hw]
    exact ⟨_, find_store_self _ _ _⟩
  have hn : (HostMatrixWrapper.init_members_on db a.matrix a.interfaces a.scaling
      a.global_row_index f).local_sparsity_.col_idxs_.name = f ++ "_local" ++ "_cols" := by
    simp only [HostMatrixWrapper.init_members_on, PersistentSparsityPattern.attach, attach_name]
    rfl
  cases hf : db.find (f ++ "_local" ++ "_cols") with
  | none =>
    rw [construct_cold db a f hf]
    exact key _ hn
  | some d =>
    rw [construct_warm db a f ⟨d, hf⟩]
    exact key _ hn

theorem attach_pair_of_found (db : objectRegistry) (a : PersistentArray) (d : List Int)
    (h : db.find a.name = some d) : ((a.attach db).name, (a.attach db).data) = (a.name, d) := by
  rw [attach_name, attach_data_of_found db a d h]

theorem warm_sparsity_unchanged (db : objectRegistry) (a : ConstructArgs) (f : String)
    (n : String) (d : List Int) (hn : n ∈ sparsity_names f) (hd : db.find n = some d) :
    (n, d) ∈ (((HostMatrixWrapper.init_members_on db a.matrix a.interfaces a.scaling
        a.global_row_index f).update_local_matrix_data a.interfaces a.interfaceBouCoeffs
        ).update_non_local_matrix_data a.interfaces a.interfaceBouCoeffs).array_pairs := by
  simp only [sparsity_names, List.mem_cons, List.mem_singleton, List.not_mem_nil,
    or_false] at hn
  simp only [HostMatrixWrapper.array_pairs, HostMatrixWrapper.update_non_local_matrix_data,
    HostMatrixWrapper.update_local_matrix_data, HostMatrixWrapper.init_members_on,
    PersistentSparsityPattern.attach, List.mem_cons]
  rcases hn with h | h | h | h | h | h <;> subst h
  · exact Or.inl (attach_pair_of_found db (HostMatrixWrapper.init_members a.matrix
      a.interfaces a.scaling a.global_row_index f).local_sparsity_.col_idxs_ d hd).symm
  · exact Or.inr (Or.inl (attach_pair_of_found db (HostMatrixWrapper.init_members a.matrix
      a.interfaces a.scaling a.global_row_index f).local_sparsity_.row_idxs_ d hd).symm)
  · exact Or.inr (Or.inr (Or.inl (attach_pair_of_found db (HostMatrixWrapper.init_members
      a.matrix a.interfaces a.scaling a.global_row_index f).local_sparsity_.ldu_mapping_ d
      hd).symm))
  · exact Or.inr (Or.inr (Or.inr (Or.inl (attach_pair_of_found db
      (HostMatrixWrapper.init_members a.matrix a.interfaces a.scaling a.global_row_index
        f).non_local_sparsity_.col_idxs_ d hd).symm)))
  · exact Or.inr (Or.inr (Or.inr (Or.inr (Or.inl (attach_pair_of_found db
      (HostMatrixWrapper.init_members a.matrix a.interfaces a.scaling a.global_row_index
        f).non_local_sparsity_.row_idxs_ d hd).symm))))
  · exact Or.inr (Or.inr (Or.inr (Or.inr (Or.inr (Or.inl (attach_pair_of_found db
      (HostMatrixWrapper.init_members a.matrix a.interfaces a.scaling a.global_row_index
        f).non_local_sparsity_.ldu_mapping_ d hd).symm)))))

theorem construct_many_warm (f : String) (l : List ConstructArgs) (db : objectRegistry)
    (h : ∃ d, db.find (f ++ "_local" ++ "_cols") = some d) :
    (HostMatrixWrapper.construct_many f db l).2 =
      l.flatMap (fun _ => ["update_local_matrix_data", "update_non_local_matrix_data"]) := by
  induction l generalizing db with
  | nil => rfl
  | cons a t ih =>
    have hnext := construct_leaves_cols_stored db a f
    simp only [HostMatrixWrapper.construct_many, List.flatMap_cons]
    rw [ih _ hnext, construct_warm db a f h]

theorem count_flatMap_const (l : List ConstructArgs) (c : List String) (x : String) :
    (l.flatMap (fun _ => c)).count x = l.length * c.count x := by
  induction l with
  | nil => simp
  | cons a t ih =>
    rw [List.flatMap_cons, List.count_append, ih, List.length_cons]
    ring

theorem attach_with_data (db : objectRegistry) (a : PersistentArray) (X : List Int) :
    ({ a.attach db with data := X } : PersistentArray) = { a with data := X } := by
  unfold PersistentArray.attach
  cases db.find a.name <;> rfl

theorem fill_attach (db : objectRegistry) (sp : PersistentSparsityPattern)
    (sorted : List Entry) : (sp.attach db).fill sorted = sp.fill sorted := by
  simp only [PersistentSparsityPattern.fill, PersistentSparsityPattern.attach, attach_with_data]

/-- On a registry without the local column-index array the constructor builds the wrapper
that `HostMatrixWrapper.create` describes, and refreshes its non-local coefficients. -/
theorem construct_cold_wrapper (db : objectRegistry) (a : ConstructArgs) (f : String)
    (h : db.find (f ++ "_local" ++ "_cols") = none) :
    (HostMatrixWrapper.construct db a.matrix a.interfaceBouCoeffs a.interfaces a.scaling
      a.global_row_index f).1 =
    (HostMatrixWrapper.create a.matrix a.interfaceBouCoeffs a.interfaces a.scaling
      a.global_row_index f).update_non_local_matrix_data a.interfaces a.interfaceBouCoeffs := by
  rw [construct_cold db a f h]
  simp only [HostMatrixWrapper.create, HostMatrixWrapper.update_non_local_matrix_data,
    HostMatrixWrapper.update_local_matrix_data, HostMatrixWrapper.init_non_local_sparsity_pattern,
    HostMatrixWrapper.init_local_sparsity_pattern, HostMatrixWrapper.init_members_on,
    fill_attach, attach_with_data, HostMatrixWrapper.local_indices,
    HostMatrixWrapper.collect_local_interface_indices,
    HostMatrixWrapper.collect_non_local_col_indices]

theorem construct_registry (db : objectRegistry) (a : ConstructArgs) (f : String) :
    (HostMatrixWrapper.construct db a.matrix a.interfaceBouCoeffs a.interfaces a.scaling
      a.global_row_index f).2.1 =
    (HostMatrixWrapper.construct db a.matrix a.interfaceBouCoeffs a.interfaces a.scaling
      a.global_row_index f).1.store_arrays db := rfl

theorem construct_names (db : objectRegistry) (a : ConstructArgs) (f : String) :
    (HostMatrixWrapper.construct db a.matrix a.interfaceBouCoeffs a.interfaces a.scaling
      a.global_row_index f).1.array_pairs.map Prod.fst =
    [f ++ "_local" ++ "_cols", f ++ "_local" ++ "_rows", f ++ "_local" ++ "_ldu_map",
      f ++ "_non_local" ++ "_cols", f ++ "_non_local" ++ "_rows",
      f ++ "_non_local" ++ "_ldu_map", f ++ "_local_coeffs", f ++ "_non_local_coeffs"] := by
  rw [← init_members_on_names db a f]
  cases hf : db.find (f ++ "_local" ++ "_cols") with
  | none => rw [construct_cold db a f hf]; rfl
  | some d => rw [construct_warm db a f ⟨d, hf⟩]; rfl

/-- After a construction the registry holds every array of the wrapper under its name. -/
theorem construct_registers (db : objectRegistry) (a : ConstructArgs) (f : String)
    (n : String) (d : List Int)
    (h : (n, d) ∈ (HostMatrixWrapper.construct db a.matrix a.interfaceBouCoeffs a.interfaces
      a.scaling a.global_row_index f).1.array_pairs) :
    (HostMatrixWrapper.construct db a.matrix a.interfaceBouCoeffs a.interfaces a.scaling
      a.global_row_index f).2.1.find n = some d := by
  rw [construct_registry, store_arrays_eq_foldl]
  apply find_foldl_store_mem _ _ _ _ _ h
  rw [construct_names]
  exact wrapper_names_nodup f

theorem construct_warm_keeps (db : objectRegistry) (a : ConstructArgs) (f : String)
    (h : ∃ d, db.find (f ++ "_local" ++ "_cols") = some d) (n : String) (d : List Int)
    (hn : n ∈ sparsity_names f) (hd : db.find n = some d) :
    (n, d) ∈ (HostMatrixWrapper.construct db a.matrix a.interfaceBouCoeffs a.interfaces
      a.scaling a.global_row_index f).1.array_pairs := by
  rw [construct_warm db a f h]
  exact warm_sparsity_unchanged db a f n d hn hd

/-- The coefficient arrays after a construction on a registry that holds the column
indices: the stored ldu mappings applied to the coefficients of the matrix at hand. -/
theorem construct_warm_coeffs (db : objectRegistry) (a : ConstructArgs) (f : String)
    (h : ∃ d, db.find (f ++ "_local" ++ "_cols") = some d) :
    (∀ lm, db.find (f ++ "_local" ++ "_ldu_map") = some lm →
      (f ++ "_local_coeffs", lm.map (fun p => a.scaling *
          (ldu_coeffs a.matrix ++ collect_interface_coeffs a.interfaces a.interfaceBouCoeffs
            true).getD p.toNat 0)) ∈
        (HostMatrixWrapper.construct db a.matrix a.interfaceBouCoeffs a.interfaces
          a.scaling a.global_row_index f).1.array_pairs) ∧
    (∀ lm, db.find (f ++ "_non_local" ++ "_ldu_map") = some lm →
      (f ++ "_non_local_coeffs", lm.map (fun p => a.scaling *
          (collect_interface_coeffs a.interfaces a.interfaceBouCoeffs false).getD p.toNat 0)) ∈
        (HostMatrixWrapper.construct db a.matrix a.interfaceBouCoeffs a.interfaces
          a.scaling a.global_row_index f).1.array_pairs) := by
  rw [construct_warm db a f h]
  constructor
  · intro lm hlm
    have hd := attach_data_of_found db (HostMatrixWrapper.init_members a.matrix
      a.interfaces a.scaling a.global_row_index f).local_sparsity_.ldu_mapping_ lm hlm
    simp only [HostMatrixWrapper.array_pairs, HostMatrixWrapper.update_non_local_matrix_data,
      HostMatrixWrapper.update_local_matrix_data, HostMatrixWrapper.init_members_on,
      PersistentSparsityPattern.attach, List.mem_cons, hd, attach_name]
    right; right; right; right; right; right; left
    rfl
  · intro lm hlm
    have hd := attach_data_of_found db (HostMatrixWrapper.init_members a.matrix
      a.interfaces a.scaling a.global_row_index f).non_local_sparsity_.ldu_mapping_ lm hlm
    simp only [HostMatrixWrapper.array_pairs, HostMatrixWrapper.update_non_local_matrix_data,
      HostMatrixWrapper.update_local_matrix_data, HostMatrixWrapper.init_members_on,
      PersistentSparsityPattern.attach, List.mem_cons, hd, attach_name]
    right; right; right; right; right; right; right; left
    rfl

/-- Every later construction of a series leaves the stored sparsity arrays as they
are. -/
theorem construct_many_keeps (f : String) (l : List ConstructArgs) (db : objectRegistry)
    (h : ∃ d, db.find (f ++ "_local" ++ "_cols") = some d) (n : String) (d : List Int)
    (hn : n ∈ sparsity_names f) (hd : db.find n = some d) :
    (HostMatrixWrapper.construct_many f db l).1.find n = some d := by
  induction l generalizing db with
  | nil => exact hd
  | cons a t ih =>
    simp only [HostMatrixWrapper.construct_many]
    exact ih _ (construct_leaves_cols_stored db a f)
      (construct_registers db a f n d (construct_warm_keeps db a f h n d hn hd))

/-- After a series of constructions on a registry that holds the sparsity arrays, the
local coefficient array is the one that the last construction refreshed. -/
theorem construct_many_last_coeffs (f : String) (l : List ConstructArgs) (db : objectRegistry)
    (h : ∃ d, db.find (f ++ "_local" ++ "_cols") = some d) (lm : List Int)
    (hlm : db.find (f ++ "_local" ++ "_ldu_map") = some lm) (b : ConstructArgs)
    (hb : l.getLast? = some b) :
    (HostMatrixWrapper.construct_many f db l).1.find (f ++ "_local_coeffs") =
      some (lm.map (fun p => b.scaling *
        (ldu_coeffs b.matrix ++ collect_interface_coeffs b.interfaces b.interfaceBouCoeffs
          true).getD p.toNat 0)) := by
  induction l generalizing db with
  | nil => cases hb
  | cons a t ih =>
    have hmap : f ++ "_local" ++ "_ldu_map" ∈ sparsity_names f := by
      simp [sparsity_names]
    have hkeep := construct_registers db a f _ lm
      (construct_warm_keeps db a f h _ lm hmap hlm)
    simp only [HostMatrixWrapper.construct_many]
    cases t with
    | nil =>
      simp only [List.getLast?_singleton, Option.some.injEq] at hb
      subst hb
      simp only [HostMatrixWrapper.construct_many]
      exact construct_registers db a f _ _ ((construct_warm_coeffs db a f h).1 lm hlm)
    | cons c t' =>
      have hb' : (c :: t').getLast? = some b := by
        rw [List.getLast?_cons_cons] at hb
        exact hb
      exact ih _ (construct_leaves_cols_stored db a f) hkeep hb'

/-! ## Claims on the constructor gate -/

/-- C16: when the local column-index array is already stored, the constructor calls
neither `init_local_sparsity_pattern` nor `init_non_local_sparsity_pattern`: every
stored row, column and ldu-mapping array is the wrapper's array and is in the registry
afterwards with the same content, while both update functions run: the coefficient
arrays of the wrapper and of the registry are the stored ldu mappings applied to the
coefficients of the matrix at hand. On a registry without that array it calls all four:
the wrapper is the one that `HostMatrixWrapper.create` builds, with the non-local
coefficients refreshed, and all its arrays are registered. So over any series of
constructions for one field that starts without the array, each sparsity function is
called exactly once and each update function once per construction; the sparsity arrays
in the registry at the end are those of the first construction and the local
coefficients are those of the last. -/
theorem C16_sparsity_built_once (db : objectRegistry) (a : ConstructArgs)
    (rest : List ConstructArgs) (f : String) :
    ((∃ d, db.find (f ++ "_local" ++ "_cols") = some d) →
      (HostMatrixWrapper.construct db a.matrix a.interfaceBouCoeffs a.interfaces a.scaling
        a.global_row_index f).2.2 =
        ["update_local_matrix_data", "update_non_local_matrix_data"] ∧
      (∀ n ∈ sparsity_names f, ∀ d, db.find n = some d →
        (n, d) ∈ (HostMatrixWrapper.construct db a.matrix a.interfaceBouCoeffs a.interfaces
          a.scaling a.global_row_index f).1.array_pairs ∧
        (HostMatrixWrapper.construct db a.matrix a.interfaceBouCoeffs a.interfaces a.scaling
          a.global_row_index f).2.1.find n = some d) ∧
      (∀ lm, db.find (f ++ "_local" ++ "_ldu_map") = some lm →
        (f ++ "_local_coeffs", lm.map (fun p => a.scaling *
            (ldu_coeffs a.matrix ++ collect_interface_coeffs a.interfaces a.interfaceBouCoeffs
              true).getD p.toNat 0)) ∈
          (HostMatrixWrapper.construct db a.matrix a.interfaceBouCoeffs a.interfaces
            a.scaling a.global_row_index f).1.array_pairs ∧
        (HostMatrixWrapper.construct db a.matrix a.interfaceBouCoeffs a.interfaces a.scaling
          a.global_row_index f).2.1.find (f ++ "_local_coeffs") =
          some (lm.map (fun p => a.scaling *
            (ldu_coeffs a.matrix ++ collect_interface_coeffs a.interfaces a.interfaceBouCoeffs
              true).getD p.toNat 0))) ∧
      (∀ lm, db.find (f ++ "_non_local" ++ "_ldu_map") = some lm →
        (f ++ "_non_local_coeffs", lm.map (fun p => a.scaling *
            (collect_interface_coeffs a.interfaces a.interfaceBouCoeffs false).getD
              p.toNat 0)) ∈
          (HostMatrixWrapper.construct db a.matrix a.interfaceBouCoeffs a.interfaces
            a.scaling a.global_row_index f).1.array_pairs ∧
        (HostMatrixWrapper.construct db a.matrix a.interfaceBouCoeffs a.interfaces a.scaling
          a.global_row_index f).2.1.find (f ++ "_non_local_coeffs") =
          some (lm.map (fun p => a.scaling *
            (collect_interface_coeffs a.interfaces a.interfaceBouCoeffs false).getD
              p.toNat 0)))) ∧
    (db.find (f ++ "_local" ++ "_cols") = none →
      (HostMatrixWrapper.construct db a.matrix a.interfaceBouCoeffs a.interfaces a.scaling
        a.global_row_index f).2.2 =
        ["init_local_sparsity_pattern", "init_non_local_sparsity_pattern",
          "update_local_matrix_data", "update_non_local_matrix_data"] ∧
      (HostMatrixWrapper.construct_many f db (a :: rest)).2 =
        ["init_local_sparsity_pattern", "init_non_local_sparsity_pattern",
          "update_local_matrix_data", "update_non_local_matrix_data"] ++
        rest.flatMap (fun _ => ["update_local_matrix_data", "update_non_local_matrix_data"]) ∧
      (HostMatrixWrapper.construct_many f db (a :: rest)).2.count
        "init_local_sparsity_pattern" = 1 ∧
      (HostMatrixWrapper.construct_many f db (a :: rest)).2.count
        "init_non_local_sparsity_pattern" = 1 ∧
      (HostMatrixWrapper.construct_many f db (a :: rest)).2.count
        "update_local_matrix_data" = rest.length + 1 ∧
      (HostMatrixWrapper.construct_many f db (a :: rest)).2.count
        "update_non_local_matrix_data" = rest.length + 1 ∧
      (HostMatrixWrapper.construct db a.matrix a.interfaceBouCoeffs a.interfaces a.scaling
        a.global_row_index f).1 =
        (HostMatrixWrapper.create a.matrix a.interfaceBouCoeffs a.interfaces a.scaling
          a.global_row_index f).update_non_local_matrix_data a.interfaces
          a.interfaceBouCoeffs ∧
      (∀ n d, (n, d) ∈ (HostMatrixWrapper.construct db a.matrix a.interfaceBouCoeffs
          a.interfaces a.scaling a.global_row_index f).1.array_pairs →
        (HostMatrixWrapper.construct db a.matrix a.interfaceBouCoeffs a.interfaces a.scaling
          a.global_row_index f).2.1.find n = some d) ∧
      (∀ n ∈ sparsity_names f,
        (HostMatrixWrapper.construct_many f db (a :: rest)).1.find n =
          (HostMatrixWrapper.construct db a.matrix a.interfaceBouCoeffs a.interfaces a.scaling
            a.global_row_index f).2.1.find n) ∧
      (∀ b, rest.getLast? = some b →
        (HostMatrixWrapper.construct_many f db (a :: rest)).1.find (f ++ "_local_coeffs") =
          some ((HostMatrixWrapper.create a.matrix a.interfaceBouCoeffs a.interfaces a.scaling
            a.global_row_index f).local_sparsity_.ldu_mapping_.data.map (fun p => b.scaling *
              (ldu_coeffs b.matrix ++ collect_interface_coeffs b.interfaces
                b.interfaceBouCoeffs true).getD p.toNat 0)))) := by
  constructor
  · intro h
    refine ⟨by rw [construct_warm db a f h], ?_, ?_, ?_⟩
    · intro n hn d hd
      have hmem := construct_warm_keeps db a f h n d hn hd
      exact ⟨hmem, construct_registers db a f n d hmem⟩
    · intro lm hlm
      have hmem := (construct_warm_coeffs db a f h).1 lm hlm
      exact ⟨hmem, construct_registers db a f _ _ hmem⟩
    · intro lm hlm
      have hmem := (construct_warm_coeffs db a f h).2 lm hlm
      exact ⟨hmem, construct_registers db a f _ _ hmem⟩
  · intro h
    have hmany : (HostMatrixWrapper.construct_many f db (a :: rest)).2 =
        ["init_local_sparsity_pattern", "init_non_local_sparsity_pattern",
          "update_local_matrix_data", "update_non_local_matrix_data"] ++
        rest.flatMap (fun _ => ["update_local_matrix_data", "update_non_local_matrix_data"]) := by
      simp only [HostMatrixWrapper.construct_many]
      rw [construct_many_warm f rest _ (construct_leaves_cols_stored db a f),
        construct_cold db a f h]
    have hnext := construct_leaves_cols_stored db a f
    have hw := construct_cold_wrapper db a f h
    refine ⟨by rw [construct_cold db a f h], hmany, ?_, ?_, ?_, ?_, hw,
      fun n d hnd => construct_registers db a f n d hnd, ?_, ?_⟩
    · rw [hmany, List.count_append, count_flatMap_const]
      simp [List.count_cons]
    · rw [hmany, List.count_append, count_flatMap_const]
      simp [List.count_cons]
    · rw [hmany, List.count_append, count_flatMap_const]
      simp [List.count_cons]
      omega
    · rw [hmany, List.count_append, count_flatMap_const]
      simp [List.count_cons]
      omega
    · intro n hn
      have hin : n ∈ (HostMatrixWrapper.construct db a.matrix a.interfaceBouCoeffs
          a.interfaces a.scaling a.global_row_index f).1.array_pairs.map Prod.fst := by
        rw [construct_names]
        simp only [sparsity_names, List.mem_cons, List.mem_singleton, List.not_mem_nil,
          or_false] at hn ⊢
        rcases hn with h1 | h1 | h1 | h1 | h1 | h1 <;> simp [h1]
      obtain ⟨⟨n', d⟩, hp, hn'⟩ := List.mem_map.mp hin
      simp only at hn'
      subst hn'
      have hd := construct_registers db a f n' d hp
      simp only [HostMatrixWrapper.construct_many]
      rw [hd]
      exact construct_many_keeps f rest _ hnext n' d hn hd
    · intro b hb
      have hp : (f ++ "_local" ++ "_ldu_map",
          (HostMatrixWrapper.create a.matrix a.interfaceBouCoeffs a.interfaces a.scaling
            a.global_row_index f).local_sparsity_.ldu_mapping_.data) ∈
          (HostMatrixWrapper.construct db a.matrix a.interfaceBouCoeffs a.interfaces
            a.scaling a.global_row_index f).1.array_pairs := by
        rw [hw]
        unfold HostMatrixWrapper.array_pairs
        right; right; left
      simp only [HostMatrixWrapper.construct_many]
      exact construct_many_last_coeffs f rest _ hnext _
        (construct_registers db a f _ _ hp) b hb

/-- Witness for C16: two constructions for the field "p" on an empty registry, the second
with other coefficients and scaling 2: the sparsity is built once and the registry ends
with the coefficients of the second matrix at the positions of the first build. -/
theorem C16_sparsity_built_once_witness :
    (HostMatrixWrapper.construct_many "p" []
      [⟨chain4 1 2 3 4 5 6 7 8 9 10, [], [], 1, ⟨[4]⟩⟩,
        ⟨chain4 1 1 1 1 1 1 1 1 1 1, [], [], 2, ⟨[4]⟩⟩]).2.count
      "init_local_sparsity_pattern" = 1 ∧
    (HostMatrixWrapper.construct_many "p" []
      [⟨chain4 1 2 3 4 5 6 7 8 9 10, [], [], 1, ⟨[4]⟩⟩,
        ⟨chain4 1 1 1 1 1 1 1 1 1 1, [], [], 2, ⟨[4]⟩⟩]).1.find "p_local_coeffs" =
      some ((HostMatrixWrapper.create (chain4 1 2 3 4 5 6 7 8 9 10) [] [] 1 ⟨[4]⟩
        "p").local_sparsity_.ldu_mapping_.data.map (fun p => 2 *
          (ldu_coeffs (chain4 1 1 1 1 1 1 1 1 1 1) ++
            collect_interface_coeffs [] [] true).getD p.toNat 0)) :=
  ⟨((C16_sparsity_built_once [] ⟨chain4 1 2 3 4 5 6 7 8 9 10, [], [], 1, ⟨[4]⟩⟩
      [⟨chain4 1 1 1 1 1 1 1 1 1 1, [], [], 2, ⟨[4]⟩⟩] "p").2 rfl).2.2.1,
   ((C16_sparsity_built_once [] ⟨chain4 1 2 3 4 5 6 7 8 9 10, [], [], 1, ⟨[4]⟩⟩
      [⟨chain4 1 1 1 1 1 1 1 1 1 1, [], [], 2, ⟨[4]⟩⟩] "p").2 rfl).2.2.2.2.2.2.2.2.2
      ⟨chain4 1 1 1 1 1 1 1 1 1 1, [], [], 2, ⟨[4]⟩⟩ rfl⟩

/-! ## Helper lemmas: persistent vector -/

theorem device_partition_one (comm : List PersistentPartition) (rank : Nat)
    (p : PersistentPartition) (hrank : comm[rank]? = some p) (hg : p.ranks_per_gpu_ = 1) :
    PersistentPartition.get_device_partition comm rank =
      PersistentPartition.get_host_partition comm := by
  unfold PersistentPartition.get_device_partition PartitionInitFunctor.init
    PersistentPartition.get_host_partition
  rw [List.getElem?_map, hrank, List.map_map]
  simp only [Option.map_some']
  have hfun : ((fun c : PartitionInitFunctor => (⟨c.rows_start_, c.rows_end_⟩ : span)) ∘
      PersistentPartition.init_functor) =
      (fun q : PersistentPartition => (⟨q.offset_, q.offset_ + q.elements_⟩ : span)) := rfl
  rw [hfun]
  cases build_partition_from_local_range
    (List.map (fun q : PersistentPartition => (⟨q.offset_, q.offset_ + q.elements_⟩ : span))
      comm) with
  | none => rfl
  | some H =>
    simp only [PersistentPartition.init_functor, PartitionInitFunctor.create, hg, if_true]

theorem array_view_some (size : Int) (memory view : List Int)
    (h : array_view size memory = some view) :
    0 ≤ size ∧ size.toNat ≤ memory.length ∧ view = memory.take size.toNat := by
  unfold array_view at h
  split at h
  · rename_i hc
    exact ⟨hc.1, hc.2, (Option.some.inj h).symm⟩
  · cases h

theorem array_view_of_le (size : Int) (memory : List Int) (h0 : 0 ≤ size)
    (h : size.toNat ≤ memory.length) :
    array_view size memory = some (memory.take size.toNat) := by
  unfold array_view
  rw [if_pos ⟨h0, h⟩]

/-- With `ranks_per_gpu = 1` the function `copy_back` needs the host partition to exist
and both views to fit; it then writes the view of the vector over the head of the host
array. -/
theorem copy_back_one (world : List PersistentVector) (rank : Nat) (pv : PersistentVector)
    (hrank : world[rank]? = some pv) (hg : pv.partition_.get_ranks_per_gpu = 1) :
    PersistentVector.copy_back world rank =
      match PersistentPartition.get_host_partition (world.map (fun w => w.partition_)) with
      | none => none
      | some _ =>
        match array_view pv.partition_.get_local_host_size pv.get_vector.local_values,
            array_view pv.partition_.get_local_host_size pv.memory_ with
        | some host_buffer_view, some _ =>
          some { pv with memory_ :=
            host_buffer_view ++ pv.memory_.drop pv.partition_.get_local_host_size.toNat }
        | _, _ => none := by
  have hp : (world.map (fun w => w.partition_))[rank]? = some pv.partition_ := by
    rw [List.getElem?_map, hrank]; rfl
  have hd := device_partition_one _ rank pv.partition_ hp hg
  unfold PersistentVector.copy_back PersistentPartition.get_local_device_size
    PersistentPartition.get_total_size
  simp only [hrank, hd]
  cases PersistentPartition.get_host_partition (world.map (fun w => w.partition_)) with
  | none => rfl
  | some H =>
    simp only [Option.map_some', hg, ne_eq, not_true_eq_false, if_false]

/-! ## Claims on the persistent vector -/

/-- C18: for `ranks_per_gpu = 1`, `PersistentVector::copy_back` completes whenever the host
partition exists and the vector and the host array hold `get_local_host_size()` values;
afterwards `memory[i]` is the `i`-th local value of the persistent vector for every
`i < get_local_host_size()`, the host memory from that index on is untouched, and the
persistent vector is unchanged. -/
theorem C18_copy_back_host_addressing (world : List PersistentVector) (rank : Nat)
    (pv : PersistentVector) (hrank : world[rank]? = some pv)
    (hg : pv.partition_.get_ranks_per_gpu = 1) :
    ((∃ H, PersistentPartition.get_host_partition (world.map (fun w => w.partition_)) =
          some H) →
      0 ≤ pv.partition_.get_local_host_size →
      pv.partition_.get_local_host_size.toNat ≤ pv.get_vector.local_values.length →
      pv.partition_.get_local_host_size.toNat ≤ pv.memory_.length →
      ∃ pv', PersistentVector.copy_back world rank = some pv') ∧
    ∀ pv', PersistentVector.copy_back world rank = some pv' →
      (∀ i : Nat, (i : Int) < pv.partition_.get_local_host_size →
        ∃ x, pv.get_vector.local_values[i]? = some x ∧ pv'.memory_[i]? = some x) ∧
      (∀ i : Nat, pv.partition_.get_local_host_size ≤ (i : Int) →
        pv'.memory_[i]? = pv.memory_[i]?) ∧
      pv'.memory_.length = pv.memory_.length ∧
      pv'.get_vector = pv.get_vector := by
  rw [copy_back_one world rank pv hrank hg]
  constructor
  · rintro ⟨H, hH⟩ h0 hv hm
    rw [hH]
    simp only [array_view_of_le _ _ h0 hv, array_view_of_le _ _ h0 hm]
    exact ⟨_, rfl⟩
  · intro pv' h
    cases hH : PersistentPartition.get_host_partition (world.map (fun w => w.partition_)) with
    | none => rw [hH] at h; cases h
    | some H =>
      rw [hH] at h
      simp only at h
      cases hb : array_view pv.partition_.get_local_host_size pv.get_vector.local_values with
      | none => rw [hb] at h; cases h
      | some b =>
        cases hm : array_view pv.partition_.get_local_host_size pv.memory_ with
        | none => rw [hb, hm] at h; cases h
        | some m =>
          rw [hb, hm] at h
          simp only [Option.some.injEq] at h
          obtain ⟨h0, hvl, hbe⟩ := array_view_some _ _ _ hb
          obtain ⟨_, hml, _⟩ := array_view_some _ _ _ hm
          subst h
          have hbl : b.length = pv.partition_.get_local_host_size.toNat := by
            rw [hbe, List.length_take]; omega
          refine ⟨?_, ?_, ?_, rfl⟩
          · intro i hi
            have hin : i < pv.partition_.get_local_host_size.toNat := by omega
            have hiv : i < pv.get_vector.local_values.length := by omega
            refine ⟨pv.get_vector.local_values[i], List.getElem?_eq_getElem hiv, ?_⟩
            simp only
            rw [List.getElem?_append_left (by omega), hbe, List.getElem?_take_of_lt hin]
            exact List.getElem?_eq_getElem hiv
          · intro i hi
            have hin : pv.partition_.get_local_host_size.toNat ≤ i := by omega
            simp only
            rw [List.getElem?_append_right (by omega), List.getElem?_drop, hbl]
            congr 1
            omega
          · simp only [List.length_append, List.length_drop, hbl]
            omega

/-- Witness for C18: two processes with `g = 1`; rank 1 owns two rows, its vector holds
`[7, 8]` and its host array `[0, 0, 5]` keeps the trailing `5`. -/
theorem C18_copy_back_host_addressing_witness :
    PersistentVector.copy_back
        [⟨[0], ⟨1, 0, 1⟩, false, ⟨true, [9]⟩⟩, ⟨[0, 0, 5], ⟨1, 1, 2⟩, false, ⟨true, [7, 8]⟩⟩] 1 =
      some ⟨[7, 8, 5], ⟨1, 1, 2⟩, false, ⟨true, [7, 8]⟩⟩ ∧
    ∀ pv', PersistentVector.copy_back
        [⟨[0], ⟨1, 0, 1⟩, false, ⟨true, [9]⟩⟩, ⟨[0, 0, 5], ⟨1, 1, 2⟩, false, ⟨true, [7, 8]⟩⟩] 1 =
        some pv' →
      pv'.memory_.length = 3 ∧ pv'.get_vector = ⟨true, [7, 8]⟩ :=
  ⟨by decide, fun pv' h =>
    ⟨((C18_copy_back_host_addressing
        [⟨[0], ⟨1, 0, 1⟩, false, ⟨true, [9]⟩⟩, ⟨[0, 0, 5], ⟨1, 1, 2⟩, false, ⟨true, [7, 8]⟩⟩] 1
        ⟨[0, 0, 5], ⟨1, 1, 2⟩, false, ⟨true, [7, 8]⟩⟩ rfl rfl).2 pv' h).2.2.1,
     ((C18_copy_back_host_addressing
        [⟨[0], ⟨1, 0, 1⟩, false, ⟨true, [9]⟩⟩, ⟨[0, 0, 5], ⟨1, 1, 2⟩, false, ⟨true, [7, 8]⟩⟩] 1
        ⟨[0, 0, 5], ⟨1, 1, 2⟩, false, ⟨true, [7, 8]⟩⟩ rfl rfl).2 pv' h).2.2.2⟩⟩

/-! ## Helper lemmas: gather and scatter of vectors -/

/-- A partition whose bounds are the values `f 0, ..., f n` of a non-decreasing function
hands part `r` the rows `[f r, f (r + 1))`. -/
theorem distribute_bounds (f : Nat → Nat) (n : Nat) (xs : List Int) :
    Partition.distribute ⟨(List.range (n + 1)).map (fun i => ((f i : Nat) : Int))⟩ xs =
      (List.range n).map (fun r => (xs.drop (f r)).take (f (r + 1) - f r)) := by
  unfold Partition.distribute Partition.get_num_parts Partition.get_range_bounds
    Partition.get_part_size
  simp only [List.length_map, List.length_range, Nat.add_sub_cancel]
  apply List.map_congr_left
  intro r hr
  have hr' : r < n := List.mem_range.mp hr
  rw [List.getD_eq_getElem _ _ (by simp; omega), List.getD_eq_getElem _ _ (by simp; omega)]
  simp only [List.getElem_map, List.getElem_range, Int.toNat_ofNat]
  congr 1
  omega

theorem flatten_slices (f : Nat → Nat) (h0 : f 0 = 0) (hmono : ∀ i, f i ≤ f (i + 1))
    (xs : List Int) (k : Nat) :
    ((List.range k).map (fun r => (xs.drop (f r)).take (f (r + 1) - f r))).flatten =
      xs.take (f k) := by
  induction k with
  | zero => simp [h0]
  | succ k ih =>
    rw [List.range_succ, List.map_append, List.flatten_append, ih]
    simp only [List.map_cons, List.map_nil, List.flatten_cons, List.flatten_nil,
      List.append_nil]
    have h := List.take_add xs (f k) (f (k + 1) - f k)
    rw [Nat.add_sub_cancel' (hmono k)] at h
    exact h.symm

/-- Distributing a vector over a partition that covers it and joining the parts gives the
vector back. -/
theorem flatten_distribute (f : Nat → Nat) (h0 : f 0 = 0) (hmono : ∀ i, f i ≤ f (i + 1))
    (n : Nat) (xs : List Int) (hn : xs.length ≤ f n) :
    (Partition.distribute ⟨(List.range (n + 1)).map (fun i => ((f i : Nat) : Int))⟩
      xs).flatten = xs := by
  rw [distribute_bounds, flatten_slices f h0 hmono, List.take_of_length_le hn]

theorem slice_flatten (L : List (List Int)) (r : Nat) (hr : r < L.length) :
    (L.flatten.drop ((L.map List.length).take r).sum).take
      (((L.map List.length).take (r + 1)).sum - ((L.map List.length).take r).sum) = L[r] := by
  have hsum : ((L.map List.length).take (r + 1)).sum =
      ((L.map List.length).take r).sum + L[r].length := by
    rw [List.take_succ, List.sum_append]
    simp [List.getElem?_eq_getElem hr]
  rw [hsum, Nat.add_sub_cancel_left, List.drop_sum_flatten, List.drop_eq_getElem_cons hr,
    List.flatten_cons, List.take_left]

theorem length_host_views (counts : List Nat) (memories : List (List Int))
    (hfit : ∀ r, r < counts.length → counts.getD r 0 ≤ (memories.getD r []).length) :
    (host_views counts memories).map List.length = counts := by
  unfold host_views
  apply List.ext_getElem
  · simp
  · intro i h1 h2
    simp only [List.getElem_map, List.getElem_range, List.length_take]
    have := hfit i h2
    rw [List.getD_eq_getElem _ _ h2] at this ⊢
    omega

theorem offset_nat (counts : List Nat) (i : Nat) :
    (gkoGlobalIndex.mk counts).offset i = (((counts.take i).sum : Nat) : Int) := rfl

theorem init_one (comm : List VectorInitFunctor) (rank : Nat) (f : VectorInitFunctor)
    (hv : List Int) (hf : comm[rank]? = some f)
    (hview : array_view f.partition_.get_local_host_size f.other_ = some hv)
    (hg : f.partition_.get_ranks_per_gpu = 1) :
    VectorInitFunctor.init comm rank = some ⟨f.on_device_, hv⟩ := by
  unfold VectorInitFunctor.init
  simp only [hf, hview, hg, if_true]

theorem init_gathered (comm : List VectorInitFunctor) (rank : Nat) (f : VectorInitFunctor)
    (hv : List Int) (hvs : List (List Int)) (H D : Partition) (hf : comm[rank]? = some f)
    (hview : array_view f.partition_.get_local_host_size f.other_ = some hv)
    (hg : f.partition_.get_ranks_per_gpu ≠ 1)
    (hviews : all_some (comm.map (fun c =>
      array_view c.partition_.get_local_host_size c.other_)) = some hvs)
    (hH : PersistentPartition.get_host_partition (comm.map (fun c => c.partition_)) = some H)
    (hD : PersistentPartition.get_device_partition (comm.map (fun c => c.partition_)) rank =
      some D) :
    VectorInitFunctor.init comm rank =
      some ⟨f.on_device_, (D.distribute hvs.flatten).getD rank []⟩ := by
  unfold VectorInitFunctor.init
  simp only [hf, hview, hg, if_false, hviews, hH, hD, repartitioner.gather_vector]

theorem copy_back_scattered (world : List PersistentVector) (rank : Nat)
    (pv : PersistentVector) (H D : Partition) (hrank : world[rank]? = some pv)
    (hg : pv.partition_.get_ranks_per_gpu ≠ 1)
    (hH : PersistentPartition.get_host_partition (world.map (fun w => w.partition_)) = some H)
    (hD : PersistentPartition.get_device_partition (world.map (fun w => w.partition_)) rank =
      some D) :
    PersistentVector.copy_back world rank =
      match array_view pv.partition_.get_local_host_size
          ((H.distribute (world.map (fun w => w.get_vector.local_values)).flatten).getD rank []),
          array_view pv.partition_.get_local_host_size pv.memory_ with
      | some host_buffer_view, some _ =>
        some { pv with memory_ :=
          host_buffer_view ++ pv.memory_.drop pv.partition_.get_local_host_size.toNat }
      | _, _ => none := by
  unfold PersistentVector.copy_back PersistentPartition.get_local_device_size
    PersistentPartition.get_total_size
  simp only [hrank, hD, hH, Option.map_some', hg, ne_eq, not_false_eq_true, if_true,
    repartitioner.scatter]

theorem vector_world_eq (g : Int) (counts : List Nat) (memories : List (List Int))
    (name : String) (od : Bool) (hlen : memories.length = counts.length) :
    VectorInitFunctor.world g counts memories name od =
      (List.range counts.length).map (fun r =>
        ({ name_ := name
           partition_ := ⟨g, (gkoGlobalIndex.mk counts).offset r, ((counts.getD r 0 : Nat) : Int)⟩
           verbose_ := 0
           on_device_ := od
           other_ := memories.getD r [] } : VectorInitFunctor)) := by
  unfold VectorInitFunctor.world PersistentPartition.world
  apply List.ext_getElem
  · simp [hlen]
  · intro i h1 h2
    have hi : i < counts.length := by simpa using h2
    simp only [List.getElem_zipWith, List.getElem_map, List.getElem_range]
    rw [List.getD_eq_getElem memories [] (by omega)]

theorem vector_world_partitions (g : Int) (counts : List Nat) (memories : List (List Int))
    (name : String) (od : Bool) (hlen : memories.length = counts.length) :
    (VectorInitFunctor.world g counts memories name od).map (fun c => c.partition_) =
      PersistentPartition.world g counts := by
  rw [vector_world_eq g counts memories name od hlen, List.map_map]
  rfl

theorem vector_world_views (g : Int) (counts : List Nat) (memories : List (List Int))
    (name : String) (od : Bool) (hlen : memories.length = counts.length)
    (hfit : ∀ r, r < counts.length → counts.getD r 0 ≤ (memories.getD r []).length) :
    all_some ((VectorInitFunctor.world g counts memories name od).map (fun c =>
      array_view c.partition_.get_local_host_size c.other_)) =
      some (host_views counts memories) := by
  rw [vector_world_eq g counts memories name od hlen, List.map_map]
  have h : List.map ((fun c : VectorInitFunctor =>
        array_view c.partition_.get_local_host_size c.other_) ∘ fun r =>
        ({ name_ := name
           partition_ := ⟨g, (gkoGlobalIndex.mk counts).offset r, ((counts.getD r 0 : Nat) : Int)⟩
           verbose_ := 0
           on_device_ := od
           other_ := memories.getD r [] } : VectorInitFunctor)) (List.range counts.length) =
      List.map (fun r => some ((memories.getD r []).take (counts.getD r 0)))
        (List.range counts.length) := by
    apply List.map_congr_left
    intro r hr
    have hr' : r < counts.length := List.mem_range.mp hr
    simp only [Function.comp, PersistentPartition.get_local_host_size]
    rw [array_view_of_le _ _ (Int.ofNat_nonneg _) (by simpa using hfit r hr')]
    simp
  rw [h, all_some_map_some]
  rfl

theorem length_host_views_flatten (counts : List Nat) (memories : List (List Int))
    (hfit : ∀ r, r < counts.length → counts.getD r 0 ≤ (memories.getD r []).length) :
    (host_views counts memories).flatten.length = counts.sum := by
  rw [List.length_flatten, length_host_views counts memories hfit]

/-- Scatter after Gather on the row-indexed values: handing the joined host views to the
parts of the device partition and joining them again gives the joined host views. -/
theorem flatten_device_distribute (g : Nat) (counts : List Nat) (memories : List (List Int))
    (hg : 0 < g) (hdiv : g ∣ counts.length)
    (hfit : ∀ r, r < counts.length → counts.getD r 0 ≤ (memories.getD r []).length) :
    (Partition.distribute ⟨(List.range (counts.length + 1)).map
        (fun i => (gkoGlobalIndex.mk counts).offset (g * ((i + g - 1) / g)))⟩
      (host_views counts memories).flatten).flatten = (host_views counts memories).flatten := by
  have h := flatten_distribute (fun i => (counts.take (g * ((i + g - 1) / g))).sum)
    (by simp only [ceil_group_zero g hg, List.take_zero, List.sum_nil])
    (fun i => by
      have h1 := offset_mono counts (ceil_group_mono g (Nat.le_succ i))
      simp only [offset_nat] at h1
      exact_mod_cast h1)
    counts.length (host_views counts memories).flatten
    (by
      simp only [ceil_group_leader g counts.length hg (Nat.mod_eq_zero_of_dvd hdiv),
        List.take_length]
      exact le_of_eq (length_host_views_flatten counts memories hfit))
  exact h

theorem length_distribute (bounds : List Int) (xs : List Int) :
    (Partition.distribute ⟨bounds⟩ xs).length = bounds.length - 1 := by
  simp [Partition.distribute, Partition.get_num_parts]

/-- The host partition hands every rank its own host view of the joined host views. -/
theorem host_distribute_views (counts : List Nat) (memories : List (List Int))
    (hfit : ∀ r, r < counts.length → counts.getD r 0 ≤ (memories.getD r []).length) :
    Partition.distribute ⟨(List.range (counts.length + 1)).map
        (fun i => (gkoGlobalIndex.mk counts).offset i)⟩
      (host_views counts memories).flatten = host_views counts memories := by
  have h := distribute_bounds (fun i => (counts.take i).sum) counts.length
    (host_views counts memories).flatten
  refine Eq.trans h ?_
  have hl := length_host_views counts memories hfit
  have hlen : (host_views counts memories).length = counts.length := by
    simp [host_views]
  apply List.ext_getElem
  · simp [hlen]
  · intro i h1 h2
    have hi : i < (host_views counts memories).length := h2
    have hs := slice_flatten (host_views counts memories) i hi
    rw [hl] at hs
    simp only [List.getElem_map, List.getElem_range]
    exact hs

theorem vector_world_getElem? (g : Int) (counts : List Nat) (memories : List (List Int))
    (name : String) (od : Bool) (hlen : memories.length = counts.length) (r : Nat)
    (hr : r < counts.length) :
    (VectorInitFunctor.world g counts memories name od)[r]? =
      some { name_ := name
             partition_ :=
               ⟨g, (gkoGlobalIndex.mk counts).offset r, ((counts.getD r 0 : Nat) : Int)⟩
             verbose_ := 0
             on_device_ := od
             other_ := memories.getD r [] } := by
  rw [vector_world_eq g counts memories name od hlen, List.getElem?_map,
    List.getElem?_range hr]
  rfl

theorem vector_world_length (g : Int) (counts : List Nat) (memories : List (List Int))
    (name : String) (od : Bool) (hlen : memories.length = counts.length) :
    (VectorInitFunctor.world g counts memories name od).length = counts.length := by
  rw [vector_world_eq g counts memories name od hlen, List.length_map, List.length_range]

theorem view_of_host_view (n : Nat) (memory : List Int) (h : n ≤ memory.length) :
    array_view ((n : Nat) : Int) (memory.take n) = some (memory.take n) := by
  rw [array_view_of_le _ _ (Int.ofNat_nonneg _) (by simp; omega)]
  simp

/-- Round trip with `g = 1`: every rank builds its vector from its host view and copies
the same values back. -/
theorem round_trip_one (counts : List Nat) (memories : List (List Int)) (name : String)
    (od : Bool) (rank : Nat) (hlen : memories.length = counts.length)
    (hfit : ∀ r, r < counts.length → counts.getD r 0 ≤ (memories.getD r []).length)
    (hr : rank < counts.length) :
    PersistentVector.round_trip (VectorInitFunctor.world 1 counts memories name od) rank =
      some ⟨memories.getD rank [],
        ⟨1, (gkoGlobalIndex.mk counts).offset rank, ((counts.getD rank 0 : Nat) : Int)⟩, false,
        ⟨od, (memories.getD rank []).take (counts.getD rank 0)⟩⟩ := by
  have hcreate : ∀ r ∈ List.range counts.length,
      PersistentVector.create (VectorInitFunctor.world 1 counts memories name od) r false =
        some ⟨memories.getD r [],
          ⟨1, (gkoGlobalIndex.mk counts).offset r, ((counts.getD r 0 : Nat) : Int)⟩, false,
          ⟨od, (memories.getD r []).take (counts.getD r 0)⟩⟩ := by
    intro r hmem
    have hr' : r < counts.length := List.mem_range.mp hmem
    have hf := vector_world_getElem? 1 counts memories name od hlen r hr'
    unfold PersistentVector.create
    rw [hf, init_one _ r _ ((memories.getD r []).take (counts.getD r 0)) hf
      (by
        simp only [PersistentPartition.get_local_host_size]
        rw [array_view_of_le _ _ (Int.ofNat_nonneg _) (by simpa using hfit r hr')]
        simp)
      rfl]
  unfold PersistentVector.round_trip
  rw [vector_world_length 1 counts memories name od hlen, List.map_congr_left hcreate,
    all_some_map_some]
  simp only
  have hrank : ((List.range counts.length).map (fun r =>
      (⟨memories.getD r [],
        ⟨1, (gkoGlobalIndex.mk counts).offset r, ((counts.getD r 0 : Nat) : Int)⟩, false,
        ⟨od, (memories.getD r []).take (counts.getD r 0)⟩⟩ : PersistentVector)))[rank]? =
      some ⟨memories.getD rank [],
        ⟨1, (gkoGlobalIndex.mk counts).offset rank, ((counts.getD rank 0 : Nat) : Int)⟩, false,
        ⟨od, (memories.getD rank []).take (counts.getD rank 0)⟩⟩ := by
    rw [List.getElem?_map, List.getElem?_range hr]
    rfl
  rw [copy_back_one _ rank _ hrank rfl, List.map_map]
  have hH := host_partition_world 1 counts (by omega)
  unfold PersistentPartition.world at hH
  have hfun : ((fun w : PersistentVector => w.partition_) ∘ fun r =>
      (⟨memories.getD r [],
        ⟨1, (gkoGlobalIndex.mk counts).offset r, ((counts.getD r 0 : Nat) : Int)⟩, false,
        ⟨od, (memories.getD r []).take (counts.getD r 0)⟩⟩ : PersistentVector)) =
      (fun r => ({ ranks_per_gpu_ := 1
                   offset_ := (gkoGlobalIndex.mk counts).offset r
                   elements_ := ((counts.getD r 0 : Nat) : Int) } : PersistentPartition)) := rfl
  rw [hfun, hH]
  simp only [PersistentPartition.get_local_host_size, PersistentVector.get_vector]
  rw [view_of_host_view _ _ (hfit rank hr),
    array_view_of_le _ _ (Int.ofNat_nonneg _) (by simpa using hfit rank hr)]
  simp

/-- Round trip with `g > 1` dividing the number of processes: the vectors are gathered to
the device partition and scattered back to the host partition. -/
theorem round_trip_gathered (g : Nat) (counts : List Nat) (memories : List (List Int))
    (name : String) (od : Bool) (rank : Nat) (hg : 0 < g) (hg1 : g ≠ 1)
    (hdiv : g ∣ counts.length) (hlen : memories.length = counts.length)
    (hfit : ∀ r, r < counts.length → counts.getD r 0 ≤ (memories.getD r []).length)
    (hr : rank < counts.length) :
    PersistentVector.round_trip (VectorInitFunctor.world g counts memories name od) rank =
      some ⟨memories.getD rank [],
        ⟨g, (gkoGlobalIndex.mk counts).offset rank, ((counts.getD rank 0 : Nat) : Int)⟩, false,
        ⟨od, ((Partition.distribute ⟨(List.range (counts.length + 1)).map
          (fun i => (gkoGlobalIndex.mk counts).offset (g * ((i + g - 1) / g)))⟩
          (host_views counts memories).flatten).getD rank [])⟩⟩ := by
  have hgi : ((g : Nat) : Int) ≠ 1 := by exact_mod_cast hg1
  have hparts := vector_world_partitions g counts memories name od hlen
  have hviews := vector_world_views g counts memories name od hlen hfit
  have hH := host_partition_world g counts (by omega)
  have hcreate : ∀ r ∈ List.range counts.length,
      PersistentVector.create (VectorInitFunctor.world g counts memories name od) r false =
        some ⟨memories.getD r [],
          ⟨g, (gkoGlobalIndex.mk counts).offset r, ((counts.getD r 0 : Nat) : Int)⟩, false,
          ⟨od, ((Partition.distribute ⟨(List.range (counts.length + 1)).map
            (fun i => (gkoGlobalIndex.mk counts).offset (g * ((i + g - 1) / g)))⟩
            (host_views counts memories).flatten).getD r [])⟩⟩ := by
    intro r hmem
    have hr' : r < counts.length := List.mem_range.mp hmem
    have hf := vector_world_getElem? g counts memories name od hlen r hr'
    unfold PersistentVector.create
    rw [hf, init_gathered _ r _ ((memories.getD r []).take (counts.getD r 0))
      (host_views counts memories) _ _ hf
      (by
        simp only [PersistentPartition.get_local_host_size]
        rw [array_view_of_le _ _ (Int.ofNat_nonneg _) (by simpa using hfit r hr')]
        simp)
      hgi hviews (by rw [hparts]; exact hH)
      (by rw [hparts]; exact device_partition_world g counts r hg hdiv hr')]
  unfold PersistentVector.round_trip
  rw [vector_world_length g counts memories name od hlen, List.map_congr_left hcreate,
    all_some_map_some]
  simp only
  have hrank : ((List.range counts.length).map (fun r =>
      (⟨memories.getD r [],
        ⟨g, (gkoGlobalIndex.mk counts).offset r, ((counts.getD r 0 : Nat) : Int)⟩, false,
        ⟨od, ((Partition.distribute ⟨(List.range (counts.length + 1)).map
          (fun i => (gkoGlobalIndex.mk counts).offset (g * ((i + g - 1) / g)))⟩
          (host_views counts memories).flatten).getD r [])⟩⟩ : PersistentVector)))[rank]? =
      some ⟨memories.getD rank [],
        ⟨g, (gkoGlobalIndex.mk counts).offset rank, ((counts.getD rank 0 : Nat) : Int)⟩, false,
        ⟨od, ((Partition.distribute ⟨(List.range (counts.length + 1)).map
          (fun i => (gkoGlobalIndex.mk counts).offset (g * ((i + g - 1) / g)))⟩
          (host_views counts memories).flatten).getD rank [])⟩⟩ := by
    rw [List.getElem?_map, List.getElem?_range hr]
    rfl
  have hfun : List.map (fun w : PersistentVector => w.partition_)
      ((List.range counts.length).map (fun r =>
      (⟨memories.getD r [],
        ⟨g, (gkoGlobalIndex.mk counts).offset r, ((counts.getD r 0 : Nat) : Int)⟩, false,
        ⟨od, ((Partition.distribute ⟨(List.range (counts.length + 1)).map
          (fun i => (gkoGlobalIndex.mk counts).offset (g * ((i + g - 1) / g)))⟩
          (host_views counts memories).flatten).getD r [])⟩⟩ : PersistentVector))) =
      PersistentPartition.world g counts := by
    rw [List.map_map]
    rfl
  have hvals : List.map (fun w : PersistentVector => w.get_vector.local_values)
      ((List.range counts.length).map (fun r =>
      (⟨memories.getD r [],
        ⟨g, (gkoGlobalIndex.mk counts).offset r, ((counts.getD r 0 : Nat) : Int)⟩, false,
        ⟨od, ((Partition.distribute ⟨(List.range (counts.length + 1)).map
          (fun i => (gkoGlobalIndex.mk counts).offset (g * ((i + g - 1) / g)))⟩
          (host_views counts memories).flatten).getD r [])⟩⟩ : PersistentVector))) =
      Partition.distribute ⟨(List.range (counts.length + 1)).map
          (fun i => (gkoGlobalIndex.mk counts).offset (g * ((i + g - 1) / g)))⟩
          (host_views counts memories).flatten := by
    rw [List.map_map]
    apply List.ext_getElem
    · simp [length_distribute]
    · intro i h1 h2
      simp only [List.getElem_map, List.getElem_range, Function.comp,
        PersistentVector.get_vector]
      exact List.getD_eq_getElem _ _ h2
  rw [copy_back_scattered _ rank _ _ _ hrank hgi (by rw [hfun]; exact hH)
    (by rw [hfun]; exact device_partition_world g counts rank hg hdiv hr), hvals,
    flatten_device_distribute g counts memories hg hdiv hfit,
    host_distribute_views counts memories hfit]
  have hview : (host_views counts memories).getD rank [] =
      (memories.getD rank []).take (counts.getD rank 0) := by
    unfold host_views
    rw [List.getD_eq_getElem _ _ (by simpa using hr)]
    simp
  simp only [PersistentPartition.get_local_host_size, hview]
  rw [view_of_host_view _ _ (hfit rank hr),
    array_view_of_le _ _ (Int.ofNat_nonneg _) (by simpa using hfit rank hr)]
  simp

/-- C19 (amended): for every `g >= 1` that divides the number of processes, every choice
of row counts and every host array that holds at least `get_local_host_size()` values,
building the persistent vector of every process with `VectorInitFunctor::init` and then
calling `PersistentVector::copy_back` completes on every process and leaves its host
memory as it was. -/
theorem C19_round_trip_restores_memory (g : Nat) (counts : List Nat)
    (memories : List (List Int)) (rank : Nat) (hg : 0 < g) (hdiv : g ∣ counts.length)
    (hlen : memories.length = counts.length)
    (hfit : ∀ r, r < counts.length → counts.getD r 0 ≤ (memories.getD r []).length)
    (hr : rank < counts.length) :
    round_trip_restores_memory g counts memories rank := by
  intro name od
  by_cases hg1 : g = 1
  · subst hg1
    exact ⟨_, _, vector_world_getElem? 1 counts memories name od hlen rank hr,
      round_trip_one counts memories name od rank hlen hfit hr, rfl⟩
  · exact ⟨_, _, vector_world_getElem? g counts memories name od hlen rank hr,
      round_trip_gathered g counts memories name od rank hg hg1 hdiv hlen hfit hr, rfl⟩

/-- Witness for C19: four processes with 1, 2, 3 and 1 rows and `g = 2`, seen from
rank 1, whose values travel to rank 0 and back. -/
theorem C19_round_trip_restores_memory_witness :
    round_trip_restores_memory 2 [1, 2, 3, 1] [[5, 9], [6, 7], [1, 2, 3, 4], [8]] 1 :=
  C19_round_trip_restores_memory 2 [1, 2, 3, 1] [[5, 9], [6, 7], [1, 2, 3, 4], [8]] 1
    (by decide) (by decide) (by decide) (by decide) (by decide)

/-- C19 as stated fails: with three processes and `g = 2` no device partition is built
(rank 2 indexes the range bounds out of range), so `VectorInitFunctor::init` has no
result and the round trip does not complete. -/
theorem C19_counterexample :
    PersistentVector.round_trip
        (VectorInitFunctor.world 2 [1, 1, 1] [[5], [6], [7]] "x" false) 0 = none ∧
    ¬ round_trip_restores_memory 2 [1, 1, 1] [[5], [6], [7]] 0 := by
  have h : PersistentVector.round_trip
      (VectorInitFunctor.world 2 [1, 1, 1] [[5], [6], [7]] "x" false) 0 = none := by decide
  refine ⟨h, ?_⟩
  intro hc
  obtain ⟨f, pv, _, hp, _⟩ := hc "x" false
  cases h.symm.trans hp


/-! ## Helper lemmas: validation pass and warm path -/

theorem validation_off (f : MatrixInitFunctor) : f.validation false = [] := by
  simp [MatrixInitFunctor.validation]

/-- The run of `init` with the validation pass is the run without it, preceded by the
diagnostics of the pass. -/
theorem init_validation (f : MatrixInitFunctor) (R : repartitioner)
    (comm : List PersistentPartition) (rank : Nat) (debug : Bool) (db : objectRegistry) :
    (f.init R comm rank debug db).outcome = (f.init R comm rank false db).outcome ∧
    (f.init R comm rank debug db).db = (f.init R comm rank false db).db ∧
    (f.init R comm rank debug db).trace =
      f.validation debug ++ (f.init R comm rank false db).trace := by
  unfold MatrixInitFunctor.init
  simp only [validation_off, List.nil_append]
  cases PersistentPartition.get_total_size comm rank with
  | none => simp
  | some n =>
    cases f.generate_dist_mtx_with_inner_type false with
    | fatal msg => simp
    | undefined => simp
    | ok e =>
      cases PersistentPartition.get_host_partition comm with
      | none => simp
      | some H =>
        by_cases hg : f.partition_.get_ranks_per_gpu = 1
        · simp only [hg, if_true]
          cases f.generate_dist_mtx_with_inner_type true <;> simp
        · simp only [hg, if_false]
          cases f.generate_dist_mtx_with_inner_type true <;> simp

theorem write_through_no_ptr (storage src s : List Int)
    (h : write_through false storage src = .ok s) : s = storage ∧ src = [] := by
  unfold write_through at h
  by_cases hs : src = []
  · simp only [hs, if_true, Outcome.ok.injEq] at h
    exact ⟨h.symm, hs⟩
  · simp [hs] at h

theorem sets_value_ptr_false (f : MatrixInitFunctor)
    (h : f.matrix_format_ ∉ ["Csr", "Ell", "Coo"]) : f.sets_value_ptr = false := by
  cases hs : f.sets_value_ptr with
  | false => rfl
  | true => exact absurd ((sets_value_ptr_iff f).mp hs) h

/-! ## Claims on validation and on the warm path -/

/-- C21: for row and column index arrays of one length, `MatrixInitFunctor::init` with the
validation pass (`DATA_VALIDATION`) ends as it ends without it, sorted input or not: the
same matrix or the same failure and the same registry; the pass adds diagnostic lines in
front of the other steps and nothing else, and for `ranks_per_gpu = 1` the matrix holds
the row, column and coefficient arrays as they were given. -/
theorem C21_validation_non_fatal (f : MatrixInitFunctor) (R : repartitioner)
    (comm : List PersistentPartition) (rank : Nat) (db : objectRegistry)
    (hlen : f.row_idxs_.data.length = f.col_idxs_.data.length) :
    (f.init R comm rank true db).outcome = (f.init R comm rank false db).outcome ∧
    (f.init R comm rank true db).db = (f.init R comm rank false db).db ∧
    (f.init R comm rank true db).trace =
      f.validation true ++ (f.init R comm rank false db).trace ∧
    (∀ e ∈ f.validation true, ∃ tag args, e = Event.info tag args) ∧
    (f.partition_.get_ranks_per_gpu = 1 →
      ∀ m, (f.init R comm rank true db).outcome = .ok m →
        m.local_rows = f.row_idxs_.data ∧ m.local_cols = f.col_idxs_.data ∧
        m.local_values = f.coeffs_.data ∧ m.non_local_rows = f.non_local_row_idxs_.data ∧
        m.non_local_cols = f.non_local_col_idxs_.data ∧
        m.non_local_values = f.non_local_coeffs_.data) := by
  have _ := hlen
  obtain ⟨h1, h2, h3⟩ := init_validation f R comm rank true db
  refine ⟨h1, h2, h3, validation_only_info f true, ?_⟩
  intro hg m hm
  obtain ⟨a, b, c, d, e, g, _⟩ := (init_g1 f R comm rank true db hg).2.2 m hm
  exact ⟨a, b, c, d, e, g⟩

/-- Witness for C21: one process with the unsorted entries (1, 0), (0, 0), format
"Coo": the validation pass reports the row error and `init` returns the matrix with the
entries as given. -/
theorem C21_validation_non_fatal_witness :
    ((⟨⟨1, 0, 2⟩, ⟨"c", [0, 0], false, false⟩, ⟨"r", [1, 0], false, false⟩,
        ⟨"v", [5, 6], true, false⟩, ⟨"nc", [], false, false⟩, ⟨"nr", [], false, false⟩,
        ⟨"nv", [], true, false⟩, "Coo", false, 0, "p"⟩ : MatrixInitFunctor).init
      ⟨fun m => (m, ⟨[], [], [], [], [], [], []⟩), fun _ _ c nc _ => (c, nc)⟩
      (PersistentPartition.world 1 [2]) 0 true []).outcome =
    ((⟨⟨1, 0, 2⟩, ⟨"c", [0, 0], false, false⟩, ⟨"r", [1, 0], false, false⟩,
        ⟨"v", [5, 6], true, false⟩, ⟨"nc", [], false, false⟩, ⟨"nr", [], false, false⟩,
        ⟨"nv", [], true, false⟩, "Coo", false, 0, "p"⟩ : MatrixInitFunctor).init
      ⟨fun m => (m, ⟨[], [], [], [], [], [], []⟩), fun _ _ c nc _ => (c, nc)⟩
      (PersistentPartition.world 1 [2]) 0 false []).outcome :=
  (C21_validation_non_fatal
    ⟨⟨1, 0, 2⟩, ⟨"c", [0, 0], false, false⟩, ⟨"r", [1, 0], false, false⟩,
      ⟨"v", [5, 6], true, false⟩, ⟨"nc", [], false, false⟩, ⟨"nr", [], false, false⟩,
      ⟨"nv", [], true, false⟩, "Coo", false, 0, "p"⟩
    ⟨fun m => (m, ⟨[], [], [], [], [], [], []⟩), fun _ _ c nc _ => (c, nc)⟩
    (PersistentPartition.world 1 [2]) 0 [] rfl).1

/-- On the warm path an unrecognized format name raises no fatal error: `update` with
`regenerate = false` has no check of the name and leaves both value pointers null. A run
that returns leaves the matrix as it was, which happens only when there is nothing to
copy, and for `ranks_per_gpu = 1` with a non-empty coefficient array the run is undefined
(a write through a null pointer). -/
theorem update_unrecognized_format (f : MatrixInitFunctor) (R : repartitioner)
    (comm : List PersistentPartition) (rank : Nat) (debug : Bool) (db : objectRegistry)
    (m : dist_mtx) (hr : f.regenerate_ = false)
    (hfmt : f.matrix_format_ ∉ ["Csr", "Ell", "Coo"]) :
    ¬ update_is_fatal f R comm rank debug db m ∧
    (∀ m', (f.update R comm rank debug db m).outcome = .ok m' → m' = m) ∧
    (f.partition_.get_ranks_per_gpu = 1 →
      ((f.coeffs_.data ≠ [] ∨ f.non_local_coeffs_.data ≠ []) →
        (f.update R comm rank debug db m).outcome = .undefined) ∧
      (f.coeffs_.data = [] → f.non_local_coeffs_.data = [] →
        (f.update R comm rank debug db m).outcome = .ok m)) := by
  have hs := sets_value_ptr_false f hfmt
  have hc : ¬ (f.sets_value_ptr = true ∧ m.matrix_format ≠ f.matrix_format_) := by
    rw [hs]
    simp
  have key : ∀ (a b : List Int) (db1 : objectRegistry) (t : List Event),
      (∀ msg, (match write_through false m.local_values a,
          write_through false m.non_local_values b with
        | .ok lv, .ok nlv =>
          (⟨.ok { m with local_values := lv, non_local_values := nlv }, db1, t⟩ : Run dist_mtx)
        | _, _ => ⟨.undefined, db1, t⟩).outcome ≠ .fatal msg) ∧
      (∀ m', (match write_through false m.local_values a,
          write_through false m.non_local_values b with
        | .ok lv, .ok nlv =>
          (⟨.ok { m with local_values := lv, non_local_values := nlv }, db1, t⟩ : Run dist_mtx)
        | _, _ => ⟨.undefined, db1, t⟩).outcome = .ok m' → m' = m) := by
    intro a b db1 t
    cases ha : write_through false m.local_values a with
    | fatal msg => exact ⟨fun _ h => (by cases h), fun _ h => (by cases h)⟩
    | undefined => exact ⟨fun _ h => (by cases h), fun _ h => (by cases h)⟩
    | ok lv =>
      cases hb : write_through false m.non_local_values b with
      | fatal msg => exact ⟨fun _ h => (by cases h), fun _ h => (by cases h)⟩
      | undefined => exact ⟨fun _ h => (by cases h), fun _ h => (by cases h)⟩
      | ok nlv =>
        refine ⟨fun _ h => (by cases h), fun m' h => ?_⟩
        simp only [Outcome.ok.injEq] at h
        rw [← h, (write_through_no_ptr _ _ _ ha).1, (write_through_no_ptr _ _ _ hb).1]
  by_cases hg : f.partition_.get_ranks_per_gpu = 1
  · have hu := update_warm_g1 f R comm rank debug db m hr hc hg
    rw [hs] at hu
    have k := key f.coeffs_.data f.non_local_coeffs_.data db []
    refine ⟨?_, ?_, fun _ => ⟨?_, ?_⟩⟩
    · rintro ⟨msg, h⟩
      rw [hu] at h
      exact k.1 msg h
    · intro m' h
      rw [hu] at h
      exact k.2 m' h
    · intro hne
      rw [hu]
      unfold write_through
      rcases hne with hne | hne
      · simp [hne]
      · by_cases hl : f.coeffs_.data = [] <;> simp [hne, hl]
    · intro h1 h2
      rw [hu]
      simp [write_through, h1, h2]
  · have hu := update_warm_repartitioned f R comm rank debug db m hr hc hg
    rw [hs] at hu
    refine ⟨?_, ?_, fun h => absurd h hg⟩
    · rintro ⟨msg, h⟩
      rw [hu] at h
      split at h
      · exact (key _ _ _ _).1 msg h
      · cases h
    · intro m' h
      rw [hu] at h
      split at h
      · exact (key _ _ _ _).2 m' h
      · cases h

/-- C22: the warm path on an unrecognized format. With the format "Hybrid",
`regenerate = false` and three coefficients on one process, `update` does not end in a
fatal error: it writes through the null value pointer and the run is undefined. On the
same functor the sibling paths do raise the fatal error that names the format: `init`,
and `update` with `regenerate = true`. -/
theorem C22_update_null_write :
    ((⟨⟨1, 0, 3⟩, ⟨"c", [0, 1, 2], false, false⟩, ⟨"r", [0, 1, 2], false, false⟩,
        ⟨"v", [5, 6, 7], true, false⟩, ⟨"nc", [], false, false⟩, ⟨"nr", [], false, false⟩,
        ⟨"nv", [], true, false⟩, "Hybrid", false, 0, "p"⟩ : MatrixInitFunctor).update
      ⟨fun m => (m, ⟨[], [], [], [], [], [], []⟩), fun _ _ c nc _ => (c, nc)⟩
      (PersistentPartition.world 1 [3]) 0 false []
      ⟨"Coo", true, 3, [0, 1, 2], [0, 1, 2], [1, 1, 1], [], [], []⟩).outcome = .undefined ∧
    ¬ update_is_fatal
      ⟨⟨1, 0, 3⟩, ⟨"c", [0, 1, 2], false, false⟩, ⟨"r", [0, 1, 2], false, false⟩,
        ⟨"v", [5, 6, 7], true, false⟩, ⟨"nc", [], false, false⟩, ⟨"nr", [], false, false⟩,
        ⟨"nv", [], true, false⟩, "Hybrid", false, 0, "p"⟩
      ⟨fun m => (m, ⟨[], [], [], [], [], [], []⟩), fun _ _ c nc _ => (c, nc)⟩
      (PersistentPartition.world 1 [3]) 0 false []
      ⟨"Coo", true, 3, [0, 1, 2], [0, 1, 2], [1, 1, 1], [], [], []⟩ ∧
    ((⟨⟨1, 0, 3⟩, ⟨"c", [0, 1, 2], false, false⟩, ⟨"r", [0, 1, 2], false, false⟩,
        ⟨"v", [5, 6, 7], true, false⟩, ⟨"nc", [], false, false⟩, ⟨"nr", [], false, false⟩,
        ⟨"nv", [], true, false⟩, "Hybrid", false, 0, "p"⟩ : MatrixInitFunctor).init
      ⟨fun m => (m, ⟨[], [], [], [], [], [], []⟩), fun _ _ c nc _ => (c, nc)⟩
      (PersistentPartition.world 1 [3]) 0 false []).outcome =
      .fatal "Matrix format Hybrid not supported " ∧
    ((⟨⟨1, 0, 3⟩, ⟨"c", [0, 1, 2], false, false⟩, ⟨"r", [0, 1, 2], false, false⟩,
        ⟨"v", [5, 6, 7], true, false⟩, ⟨"nc", [], false, false⟩, ⟨"nr", [], false, false⟩,
        ⟨"nv", [], true, false⟩, "Hybrid", true, 0, "p"⟩ : MatrixInitFunctor).update
      ⟨fun m => (m, ⟨[], [], [], [], [], [], []⟩), fun _ _ c nc _ => (c, nc)⟩
      (PersistentPartition.world 1 [3]) 0 false []
      ⟨"Coo", true, 3, [0, 1, 2], [0, 1, 2], [1, 1, 1], [], [], []⟩).outcome =
      .fatal "Matrix format Hybrid not supported " := by
  have h : ((⟨⟨1, 0, 3⟩, ⟨"c", [0, 1, 2], false, false⟩, ⟨"r", [0, 1, 2], false, false⟩,
        ⟨"v", [5, 6, 7], true, false⟩, ⟨"nc", [], false, false⟩, ⟨"nr", [], false, false⟩,
        ⟨"nv", [], true, false⟩, "Hybrid", false, 0, "p"⟩ : MatrixInitFunctor).update
      ⟨fun m => (m, ⟨[], [], [], [], [], [], []⟩), fun _ _ c nc _ => (c, nc)⟩
      (PersistentPartition.world 1 [3]) 0 false []
      ⟨"Coo", true, 3, [0, 1, 2], [0, 1, 2], [1, 1, 1], [], [], []⟩).outcome =
      .undefined := by decide
  refine ⟨h, ?_, by decide, by decide⟩
  rintro ⟨msg, hm⟩
  cases h.symm.trans hm

theorem getD_map_fst (t : List (Int × Int)) (i : Nat) :
    (t.map Prod.fst).getD i 0 = (t.getD i (0, 0)).1 := by
  simp only [List.getD_eq_getElem?_getD, List.getElem?_map]
  cases t[i]? <;> rfl

theorem getD_map_snd (t : List (Int × Int)) (i : Nat) :
    (t.map Prod.snd).getD i 0 = (t.getD i (0, 0)).2 := by
  simp only [List.getD_eq_getElem?_getD, List.getElem?_map]
  cases t[i]? <;> rfl

theorem weakly_sorted_iff_lex (t : List (Int × Int)) :
    weakly_sorted (t.map Prod.fst) (t.map Prod.snd) ↔ lex_non_decreasing t := by
  unfold weakly_sorted lex_non_decreasing
  simp only [List.length_map, getD_map_fst, getD_map_snd, Prod.Lex.le_iff]
  constructor
  · intro h i hi
    obtain ⟨h1, h2⟩ := h i hi
    rcases lt_or_eq_of_le h1 with hlt | heq
    · exact Or.inl hlt
    · exact Or.inr ⟨heq, h2 heq⟩
  · intro h i hi
    rcases h i hi with hlt | ⟨heq, hle⟩
    · exact ⟨le_of_lt hlt, fun he => absurd he (ne_of_lt hlt)⟩
    · exact ⟨le_of_eq heq, fun _ => hle⟩

theorem validation_loop_rows_false (rows cols : List Int) :
    (validation_loop rows cols).1 = false ↔
      ∃ i, 1 ≤ i ∧ i < cols.length ∧ rows.getD i 0 < rows.getD (i - 1) 0 := by
  unfold validation_loop
  rw [(validation_foldl_flags rows cols _ _).1]
  simp only [Bool.true_and, List.all_eq_false, List.mem_range'_1, decide_eq_true_eq,
    not_not]
  constructor
  · rintro ⟨i, ⟨h1, h2⟩, h3⟩
    exact ⟨i, h1, by omega, h3⟩
  · rintro ⟨i, h1, h2, h3⟩
    exact ⟨i, ⟨h1, by omega⟩, h3⟩

theorem validation_loop_cols_false (rows cols : List Int) :
    (validation_loop rows cols).2.1 = false ↔
      ∃ i, 1 ≤ i ∧ i < cols.length ∧ rows.getD i 0 = rows.getD (i - 1) 0 ∧
        cols.getD i 0 < cols.getD (i - 1) 0 := by
  unfold validation_loop
  rw [(validation_foldl_flags rows cols _ _).2]
  simp only [Bool.true_and, List.all_eq_false, List.mem_range'_1, decide_eq_true_eq,
    not_not]
  constructor
  · rintro ⟨i, ⟨h1, h2⟩, h3, h4⟩
    exact ⟨i, h1, by omega, h4, h3⟩
  · rintro ⟨i, h1, h2, h3, h4⟩
    exact ⟨i, ⟨h1, by omega⟩, h4, h3⟩

/-- C25: on the local triplet list the validation loop of `init` leaves both flags true
exactly when the (row, column) pairs never decrease in lexicographic order;
`is_sorted_rows` ends false exactly when `row[i] < row[i-1]` at some position, and
`is_sorted_cols` ends false exactly when `row[i] = row[i-1]` and `col[i] < col[i-1]` at
some position; the validation pass reads no non-local array. -/
theorem C25_validation_flags_lexicographic (t : List (Int × Int)) :
    (((validation_loop (t.map Prod.fst) (t.map Prod.snd)).1 = true ∧
        (validation_loop (t.map Prod.fst) (t.map Prod.snd)).2.1 = true) ↔
      lex_non_decreasing t) ∧
    ((validation_loop (t.map Prod.fst) (t.map Prod.snd)).1 = false ↔
      ∃ i, 1 ≤ i ∧ i < t.length ∧ (t.getD i (0, 0)).1 < (t.getD (i - 1) (0, 0)).1) ∧
    ((validation_loop (t.map Prod.fst) (t.map Prod.snd)).2.1 = false ↔
      ∃ i, 1 ≤ i ∧ i < t.length ∧ (t.getD i (0, 0)).1 = (t.getD (i - 1) (0, 0)).1 ∧
        (t.getD i (0, 0)).2 < (t.getD (i - 1) (0, 0)).2) ∧
    (∀ (f : MatrixInitFunctor) (nc nr nv : PersistentArray) (debug : Bool),
      ({ f with non_local_col_idxs_ := nc, non_local_row_idxs_ := nr,
                non_local_coeffs_ := nv } : MatrixInitFunctor).validation debug =
        f.validation debug) := by
  refine ⟨?_, ?_, ?_, fun f nc nr nv debug => rfl⟩
  · rw [validation_loop_flags_iff _ _ (by rw [List.length_map, List.length_map])]
    exact weakly_sorted_iff_lex t
  · rw [validation_loop_rows_false]
    simp only [List.length_map, getD_map_fst]
  · rw [validation_loop_cols_false]
    simp only [List.length_map, getD_map_fst, getD_map_snd]

/-! ## Helper lemmas: device ranges -/

theorem group_end_last (g N : Nat) (hg : 0 < g) (hN : 0 < N)
    (h : g * ((N - 1) / g) + g ≤ N) : g ∣ N := by
  have h1 := Nat.div_add_mod (N - 1) g
  have h2 := Nat.mod_lt (N - 1) hg
  refine Dvd.intro ((N - 1) / g + 1) ?_
  rw [Nat.mul_add, Nat.mul_one]
  generalize g * ((N - 1) / g) = x at h h1
  omega

theorem group_end_valid_iff (g N : Nat) (hg : 0 < g) :
    (∀ rank, rank < N → g * (rank / g) + g ≤ N) ↔ g ∣ N := by
  constructor
  · intro h
    rcases Nat.eq_zero_or_pos N with h0 | hpos
    · rw [h0]
      exact Nat.dvd_zero g
    · exact group_end_last g N hg hpos (h (N - 1) (by omega))
  · intro hdiv rank hr
    exact group_end_le g N rank hdiv hr

theorem target_rows_ne_none_iff (g N rank : Nat) (rows_start rows_end : Int)
    (bounds : List Int) (hg : 0 < g) (hb : bounds.length = N + 1) :
    (PartitionInitFunctor.create rows_start rows_end g).target_rows bounds rank ≠ none ↔
      g * (rank / g) + g ≤ N := by
  constructor
  · intro h
    by_contra hcon
    exact h (target_rows_out_of_range g rank rows_start rows_end bounds (by omega))
  · intro h
    rw [target_rows_nat g rank rows_start rows_end bounds hg (by omega)]
    exact Option.some_ne_none _

theorem init_local_ranges (comm : List PartitionInitFunctor) (local_rank : Nat) :
    PartitionInitFunctor.init comm local_rank =
      match comm[local_rank]? with
      | none => none
      | some f =>
        match build_partition_from_local_range
            (comm.map (fun c => (⟨c.rows_start_, c.rows_end_⟩ : span))) with
        | none => none
        | some host_partition =>
          if f.ranks_per_gpu_ = 1 then some host_partition
          else
            match PartitionInitFunctor.local_ranges comm host_partition with
            | none => none
            | some targets => build_partition_from_local_range targets := rfl

theorem world_functor_getElem? (g : Int) (counts : List Nat) (r : Nat)
    (hr : r < counts.length) :
    (List.map PersistentPartition.init_functor (PersistentPartition.world g counts))[r]? =
      some (PartitionInitFunctor.create ((gkoGlobalIndex.mk counts).offset r)
        ((gkoGlobalIndex.mk counts).offset r + ((counts.getD r 0 : Nat) : Int)) g) := by
  simp [PersistentPartition.world, PersistentPartition.init_functor, hr]

/-- The local device ranges of all ranks when `g > 1` divides the number of processes:
a leader contributes the rows from its own offset to the end of its group, every other
rank the empty range at the end of its group. -/
theorem local_ranges_world (g : Nat) (counts : List Nat) (hg : 1 < g)
    (hdiv : g ∣ counts.length) :
    PartitionInitFunctor.local_ranges
        (List.map PersistentPartition.init_functor (PersistentPartition.world g counts))
        ⟨(List.range (counts.length + 1)).map (fun i => (gkoGlobalIndex.mk counts).offset i)⟩ =
      some ((List.range counts.length).map (fun r =>
        (⟨if r % g ≠ 0 then (gkoGlobalIndex.mk counts).offset (g * (r / g) + g)
            else (gkoGlobalIndex.mk counts).offset r,
          (gkoGlobalIndex.mk counts).offset (g * (r / g) + g)⟩ : span))) := by
  have hg1 : ¬ ((g : Int) = 1) := by omega
  unfold PartitionInitFunctor.local_ranges
  rw [List.length_map, world_length, ← all_some_map_some]
  congr 1
  apply List.map_congr_left
  intro r hr
  have hr' : r < counts.length := List.mem_range.mp hr
  have hle := group_end_le g counts.length r hdiv hr'
  rw [world_functor_getElem? g counts r hr']
  have hgd : ((List.range (counts.length + 1)).map
      (fun i => (gkoGlobalIndex.mk counts).offset i)).getD (g * (r / g) + g) 0 =
      (gkoGlobalIndex.mk counts).offset (g * (r / g) + g) := by
    rw [List.getD_eq_getElem _ _ (by simp; omega)]
    simp
  have ht := target_rows_nat g r ((gkoGlobalIndex.mk counts).offset r)
    ((gkoGlobalIndex.mk counts).offset r + ((counts.getD r 0 : Nat) : Int))
    ((List.range (counts.length + 1)).map (fun i => (gkoGlobalIndex.mk counts).offset i))
    (by omega) (by simp; omega)
  rw [hgd] at ht
  simp only [Partition.get_range_bounds]
  rw [ht]
  simp only [PartitionInitFunctor.create, hg1, if_false]

theorem contiguous_of_build (l : List span) (P : Partition)
    (h : build_partition_from_local_range l = some P) : contiguous l = true := by
  unfold build_partition_from_local_range at h
  cases l with
  | nil => cases h
  | cons a t =>
    by_cases hc : contiguous (a :: t) = true
    · exact hc
    · simp [hc] at h

/-! ## Claims on the device ranges -/

/-- C23: for `N` processes and `g >= 1`, the index `g * (rank / g) + g` at which
`PartitionInitFunctor::init` reads the `N + 1` range bounds is at most `N` for every
rank below `N` exactly when `g` divides `N` or `g = 1`; the read of `target_rows`
succeeds exactly when the index is at most `N`, so under that precondition it succeeds
on every rank and `init` returns a partition on every rank. -/
theorem C23_next_owning_rank_valid (g N : Nat) (hg : 1 ≤ g) :
    ((∀ rank, rank < N → g * (rank / g) + g ≤ N) ↔ (g ∣ N ∨ g = 1)) ∧
    (∀ (rows_start rows_end : Int) (bounds : List Int) (rank : Nat),
      bounds.length = N + 1 →
      ((PartitionInitFunctor.create rows_start rows_end g).target_rows bounds rank ≠ none ↔
        g * (rank / g) + g ≤ N)) ∧
    ((g ∣ N ∨ g = 1) →
      (∀ (rows_start rows_end : Int) (bounds : List Int) (rank : Nat),
        bounds.length = N + 1 → rank < N →
        ∃ s, (PartitionInitFunctor.create rows_start rows_end g).target_rows bounds rank =
          some s) ∧
      (∀ (counts : List Nat) (rank : Nat), counts.length = N → rank < N →
        ∃ D, PersistentPartition.get_device_partition (PersistentPartition.world g counts)
          rank = some D)) := by
  have hdvd : (g ∣ N ∨ g = 1) ↔ g ∣ N := by
    constructor
    · rintro (h | h)
      · exact h
      · rw [h]
        exact one_dvd N
    · exact Or.inl
  have hiff := group_end_valid_iff g N hg
  refine ⟨hiff.trans hdvd.symm, ?_, ?_⟩
  · intro rows_start rows_end bounds rank hb
    exact target_rows_ne_none_iff g N rank rows_start rows_end bounds hg hb
  · intro hpre
    have hdiv := hdvd.mp hpre
    constructor
    · intro rows_start rows_end bounds rank hb hr
      have h := (target_rows_ne_none_iff g N rank rows_start rows_end bounds hg hb).mpr
        (hiff.mpr hdiv rank hr)
      exact Option.ne_none_iff_exists'.mp h
    · intro counts rank hc hr
      subst hc
      exact ⟨_, device_partition_world g counts rank hg hdiv hr⟩

/-- Witness for C23: four processes and `g = 2`; rank 3 reads the bound at index 4. -/
theorem C23_next_owning_rank_valid_witness :
    ∃ s, (PartitionInitFunctor.create 12 18 2).target_rows [0, 3, 7, 12, 18] (3 : Nat) =
      some s :=
  ((C23_next_owning_rank_valid 2 4 (by decide)).2.2 (Or.inl (by decide))).1
    12 18 [0, 3, 7, 12, 18] 3 rfl (by decide)

/-- C24: when `g > 1` divides the number of processes and the host offsets are the
exclusive prefix sums of the row counts, the local ranges that `init` gathers, one per
rank, tile the global row space in rank order: the range of rank 0 begins at row 0, the
end of every range is the begin of the next, the range of the last rank ends at the
total row count; the list is contiguous as `build_partition_from_local_range`
requires, and `init` returns the partition built from it on every rank. -/
theorem C24_device_ranges_tile (g : Nat) (counts : List Nat) (hg : 1 < g)
    (hdiv : g ∣ counts.length) (hN : 0 < counts.length) :
    ∃ H targets,
      PersistentPartition.get_host_partition (PersistentPartition.world g counts) = some H ∧
      PartitionInitFunctor.local_ranges
        (List.map PersistentPartition.init_functor (PersistentPartition.world g counts)) H =
        some targets ∧
      targets.length = counts.length ∧
      (targets.getD 0 ⟨0, 0⟩).begin = 0 ∧
      (∀ r, r + 1 < counts.length →
        (targets.getD r ⟨0, 0⟩).end_ = (targets.getD (r + 1) ⟨0, 0⟩).begin) ∧
      (targets.getD (counts.length - 1) ⟨0, 0⟩).end_ = ((counts.sum : Nat) : Int) ∧
      contiguous targets = true ∧
      (∃ D, build_partition_from_local_range targets = some D) ∧
      (∀ rank, rank < counts.length →
        PartitionInitFunctor.init
          (List.map PersistentPartition.init_functor (PersistentPartition.world g counts))
          rank = build_partition_from_local_range targets) := by
  have hg0 : 0 < g := by omega
  have hg1 : ¬ ((g : Int) = 1) := by omega
  have hH := host_partition_world g counts hN
  have hL := local_ranges_world g counts hg hdiv
  have hget : ∀ r, r < counts.length →
      ((List.range counts.length).map (fun r =>
        (⟨if r % g ≠ 0 then (gkoGlobalIndex.mk counts).offset (g * (r / g) + g)
            else (gkoGlobalIndex.mk counts).offset r,
          (gkoGlobalIndex.mk counts).offset (g * (r / g) + g)⟩ : span))).getD r ⟨0, 0⟩ =
        ⟨if r % g ≠ 0 then (gkoGlobalIndex.mk counts).offset (g * (r / g) + g)
            else (gkoGlobalIndex.mk counts).offset r,
          (gkoGlobalIndex.mk counts).offset (g * (r / g) + g)⟩ := by
    intro r hr
    rw [List.getD_eq_getElem _ _ (by simpa using hr)]
    simp
  have hstep : ∀ m, (gkoGlobalIndex.mk counts).offset (g * (m / g) + g) =
      (if (m + 1) % g ≠ 0 then (gkoGlobalIndex.mk counts).offset (g * ((m + 1) / g) + g)
        else (gkoGlobalIndex.mk counts).offset (m + 1)) := by
    intro m
    have hs := group_end_succ g m
    by_cases hm : (m + 1) % g = 0
    · simp only [hm, ne_eq, not_true_eq_false, if_false]
      rw [hs.2 hm]
    · simp only [hm, ne_eq, not_false_eq_true, if_true]
      rw [hs.1 hm]
  have hbuild : ∃ D, build_partition_from_local_range
      ((List.range counts.length).map (fun r =>
        (⟨if r % g ≠ 0 then (gkoGlobalIndex.mk counts).offset (g * (r / g) + g)
            else (gkoGlobalIndex.mk counts).offset r,
          (gkoGlobalIndex.mk counts).offset (g * (r / g) + g)⟩ : span))) = some D := by
    obtain ⟨n, hn⟩ : ∃ n, counts.length = n + 1 := ⟨counts.length - 1, by omega⟩
    rw [hn]
    exact ⟨_, build_partition_range _ n (fun m _ => hstep m)⟩
  obtain ⟨D, hD⟩ := hbuild
  refine ⟨_, _, hH, hL, by simp, ?_, ?_, ?_, contiguous_of_build _ D hD, ⟨D, hD⟩, ?_⟩
  · rw [hget 0 hN]
    simp only [Nat.zero_mod, ne_eq, not_true_eq_false, if_false]
    exact offset_zero counts
  · intro r hr
    rw [hget r (by omega), hget (r + 1) hr]
    exact hstep r
  · rw [hget (counts.length - 1) (by omega)]
    have hs := (group_end_succ g (counts.length - 1)).2
    rw [Nat.sub_add_cancel hN] at hs
    simp only
    rw [hs (Nat.mod_eq_zero_of_dvd hdiv), offset_length]
  · intro rank hr
    have hhost' : build_partition_from_local_range
        (List.map (fun c => (⟨c.rows_start_, c.rows_end_⟩ : span))
          (List.map PersistentPartition.init_functor (PersistentPartition.world g counts))) =
        some ⟨(List.range (counts.length + 1)).map
          (fun i => (gkoGlobalIndex.mk counts).offset i)⟩ := by
      rw [List.map_map]
      exact hH
    rw [init_local_ranges, world_functor_getElem? g counts rank hr]
    simp only [hhost', PartitionInitFunctor.create, hg1, if_false]
    rw [hL]

/-- Witness for C24: four processes with 3, 4, 5 and 6 rows and `g = 2`; the ranges are
[0, 7), [7, 7), [7, 18), [18, 18). -/
theorem C24_device_ranges_tile_witness :
    ∃ H targets,
      PersistentPartition.get_host_partition (PersistentPartition.world 2 [3, 4, 5, 6]) =
        some H ∧
      PartitionInitFunctor.local_ranges
        (List.map PersistentPartition.init_functor (PersistentPartition.world 2 [3, 4, 5, 6]))
        H = some targets ∧
      targets.length = 4 ∧ contiguous targets = true := by
  obtain ⟨H, targets, h1, h2, h3, _, _, _, h7, _⟩ :=
    C24_device_ranges_tile 2 [3, 4, 5, 6] (by decide) (by decide) (by decide)
  exact ⟨H, targets, h1, h2, h3, h7⟩

end OGL
